import Mathlib

/-!
Verification of the automaton engine of `app.py` (class `DFAValidator`):
structure validation, deterministic simulation, batch testing, JFLAP import,
and DFA minimization (reachability pruning + partition refinement).

The Python code is shallowly embedded:
* JSON state/transition dicts become Lean structures (missing optional keys
  are modelled by `Option` fields or by the documented default);
* Python dicts become association lists where the most recent binding wins
  (`dset` conses the new binding, `dget` finds the first, i.e. latest, one);
* Python sets that are only extended and queried for membership become
  duplicate-free lists built with `setAdd` (insertion order stands in for the
  implementation-defined iteration order of a Python `set`);
* floats carried for display coordinates become exact rationals (`Rat`);
  no algorithmic decision in the source depends on them;
* code that can raise an exception (`state_map[...]` may raise `KeyError`,
  `next(...)` may raise `StopIteration`, division by `len(p)` may raise
  `ZeroDivisionError`) is modelled with an explicit failure outcome;
* the unbounded Python `while` loops (BFS work list, partition refinement)
  receive an explicit fuel argument; the development proves the supplied
  fuel is always sufficient, so the fuel-exhaustion branch is unreachable.
-/

namespace AMVP

/-- A state record: `id, name, x, y, isStart, isFinal, label`.
`isStart`/`isFinal` default to `False` when the key is missing, so they are
plain booleans here; `name` and `label` are optional keys. -/
structure State where
  id : String
  name : Option String := none
  x : Rat := 0
  y : Rat := 0
  isStart : Bool := false
  isFinal : Bool := false
  label : Option String := none
deriving Repr, DecidableEq

/-- A transition record `from / symbol / to` (as `src / symbol / dst`)
since `from` and `to` are Lean keywords. -/
structure Transition where
  src : String
  symbol : String
  dst : String
deriving Repr, DecidableEq

/-- The automaton value `states / transitions / alphabet`. -/
structure DFA where
  states : List State
  transitions : List Transition
  alphabet : List String
deriving Repr, DecidableEq

/-! ### Python dict / set primitives -/

/-- A Python dict as an association list; the most recent binding is first. -/
abbrev Dict (α β : Type) : Type := List (α × β)

/-- Dict update `d[k] = v`. -/
def dset {α β : Type} (d : Dict α β) (k : α) (v : β) : Dict α β :=
  (k, v) :: d

/-- Dict lookup: the most recent binding for `k`, if any
(`d[k]` when it cannot fail, `d.get(k)` otherwise). -/
def dget {α β : Type} [DecidableEq α] (d : Dict α β) (k : α) : Option β :=
  (d.find? (fun kv => kv.1 = k)).map (fun kv => kv.2)

/-- the `set.add` operation: append an element unless already present. -/
def setAdd (l : List String) (x : String) : List String :=
  if x ∈ l then l else l ++ [x]

/-- Sorted insertion into a string list (helper for `pysorted`). -/
def insertSorted (x : String) : List String → List String
  | [] => [x]
  | y :: ys => if x ≤ y then x :: y :: ys else y :: insertSorted x ys

/-- the Python `sorted(...)` builtin on string lists, modelled by insertion
sort over the lexicographic order (the same ascending order Python uses). -/
def pysorted (l : List String) : List String :=
  l.foldr insertSorted []

/-! ### `DFAValidator.validate_dfa`

The "missing required keys" branch checks that the JSON object has the
`states`/`transitions`/`alphabet` keys; in the typed embedding those fields
always exist, so that branch cannot fire and is omitted. -/

/-- the `validate_dfa` check: reject an empty state list, then reject the
absence of a start state, otherwise accept. -/
def validate_dfa (d : DFA) : Bool × String :=
  if d.states.isEmpty then (false, "DFA must have at least one state")
  else if !(d.states.any (fun s => s.isStart)) then
    (false, "DFA must have a start state")
  else (true, "Valid DFA")

/-! ### `DFAValidator.simulate_string` -/

/-- Outcome of `simulate_string`:
* `err` — the returned error dict (no start state);
* `stuck` — the non-accepting result with `path`, `stuck_at` and `reason`;
* `done` — the full-consumption result with `path`, `final_state`,
  `accepted` (and `is_final`, equal to `accepted`);
* `exn` — an uncaught Python exception (the `state_map[current_state_id]`
  lookup raises `KeyError` when the walk ends in an id that is not in the
  state list). -/
inductive SimOut where
  | err (msg : String)
  | stuck (path : List String) (stuckAt : Nat) (reason : String)
  | done (path : List String) (finalState : String) (accepted : Bool)
  | exn
deriving Repr, DecidableEq

/-- the `state_map` dict comprehension: each state keyed by its id. -/
def buildStateMap (states : List State) : Dict String State :=
  states.foldl (fun m s => dset m s.id s) []

/-- the transition table build: key `(from, symbol)` maps to `to`, over the
transition list, in order. -/
def buildTransitions (ts : List Transition) : Dict (String × String) String :=
  ts.foldl (fun m t => dset m (t.src, t.symbol) t.dst) []

/-- The `for i, char in enumerate(input_string)` walk.  The input string is
modelled as the list of its characters (each a one-symbol string, compared
against transition symbols exactly as in the source). -/
def simLoop (trans : Dict (String × String) String) (stateMap : Dict String State) :
    List String → String → List String → Nat → SimOut
  | [], cur, path, _ =>
    match dget stateMap cur with
    | none => SimOut.exn
    | some st => SimOut.done path cur st.isFinal
  | a :: rest, cur, path, i =>
    match dget trans (cur, a) with
    | none =>
      SimOut.stuck path i
        ("No transition from " ++ cur ++ " on symbol \u0027" ++ a ++ "\u0027")
    | some nxt => simLoop trans stateMap rest nxt (path ++ [nxt]) (i + 1)

/-- The start-state search `next((s for s in states if s.get(isStart)), None)`,
shared verbatim by `simulate_string` and `minimize_dfa`. -/
def startStateOf (d : DFA) : Option State :=
  d.states.find? (fun s => s.isStart)

/-- the `simulate_string` routine: build the state map, find the first start
state (or report the error dict), build the transition table, walk the input. -/
def simulate_string (d : DFA) (input : List String) : SimOut :=
  let state_map := buildStateMap d.states
  match startStateOf d with
  | none => SimOut.err "No start state defined"
  | some start_state =>
    let transitions := buildTransitions d.transitions
    simLoop transitions state_map input start_state.id [start_state.id] 0

/-- The acceptance verdict of a simulation outcome: the `accepted` field of
the returned dict (`stuck` results carry `accepted: False`); `none` when no
such field exists (error dict) or nothing was returned (exception). -/
def simAccepted : SimOut → Option Bool
  | SimOut.done _ _ a => some a
  | SimOut.stuck _ _ _ => some false
  | SimOut.err _ => none
  | SimOut.exn => none

/-! ### `DFAValidator.batch_test` -/

/-- One entry of the batch result:
`string, accepted, path, error`. -/
structure BatchEntry where
  string : List String
  accepted : Bool
  path : List String
  error : Option String
deriving Repr, DecidableEq

/-- the `accepted` field of the result dict, defaulting to `False`. -/
def resultAccepted : SimOut → Bool
  | SimOut.done _ _ a => a
  | SimOut.stuck _ _ _ => false
  | _ => false

/-- the `path` field of the result dict, defaulting to `[]`. -/
def resultPath : SimOut → List String
  | SimOut.done p _ _ => p
  | SimOut.stuck p _ _ => p
  | _ => []

/-- the `reason` field of the result dict, defaulting to `None` (note: the
no-start dict stores its message under `error`, not `reason`, so it yields
`None` here). -/
def resultReason : SimOut → Option String
  | SimOut.stuck _ _ r => some r
  | _ => none

/-- the `batch_test` routine: one `simulate_string` call per test string, in
order.  An
uncaught exception in any run propagates and aborts the whole batch, which
the embedding records as `none`. -/
def batch_test (d : DFA) (test_strings : List (List String)) :
    Option (List BatchEntry) :=
  test_strings.mapM (fun t =>
    match simulate_string d t with
    | SimOut.exn => none
    | r => some { string := t, accepted := resultAccepted r,
                  path := resultPath r, error := resultReason r })

/-! ### `DFAValidator.parse_jflap`

The importer receives raw XML text and parses it with ElementTree inside a
`try` block.  The embedding starts from the already-parsed element tree: a
document record carrying the pieces the code reads.  A child element whose
unconditional dereference can raise (`find(...).text` on a missing
`from`/`to` child) is an `Option` field, and `none` drives the generic
`except` branch.  A malformed numeric `x`/`y` text (a `ValueError` in
`float(...)`, also caught by the same `except`) is not modelled: coordinate
texts are given already parsed. -/

/-- A `state` element: attributes `id`/`name`, optional numeric `x`/`y`
children, and presence of the `initial` / `final` marker children. -/
structure JffState where
  id : String
  name : Option String := none
  xText : Option Rat := none
  yText : Option Rat := none
  initial : Bool := false
  final : Bool := false
deriving Repr, DecidableEq

/-- A `transition` element: texts of the `from` / `to` children (`none` when
the child is missing) and the text of the `read` child (`none` when the
child is missing or its text is `None`). -/
structure JffTransition where
  src : Option String
  dst : Option String
  read : Option String := none
deriving Repr, DecidableEq

/-- A parsed JFLAP document: the text of the `type` element (`none` when
absent) and the `automaton` element with its `state` and `transition`
children (`none` when absent). -/
structure JflapDoc where
  typeText : Option String
  automaton : Option (List JffState × List JffTransition)
deriving Repr, DecidableEq

/-- the `parse_jflap` routine.  Note the id normalization: state ids are
prefixed once (`q` ++ raw id) but transition endpoints are prefixed twice
(`from_id` is already `q` ++ raw, and the record stores `q` ++ `from_id`),
exactly as in the source. -/
def parse_jflap (doc : JflapDoc) : Option DFA × String :=
  if doc.typeText ≠ some "fa" then (none, "Not a Finite Automaton file")
  else
    match doc.automaton with
    | none => (none, "No automaton definition found")
    | some (stateElems, transElems) =>
      let states : List State := stateElems.map (fun e =>
        { id := "q" ++ e.id, name := e.name,
          x := e.xText.getD 100, y := e.yText.getD 100,
          isStart := e.initial, isFinal := e.final, label := none })
      match transElems.foldlM (fun (acc : List Transition × List String) te =>
        match te.src, te.dst with
        | some rawFrom, some rawTo =>
          let from_id := "q" ++ rawFrom
          let to_id := "q" ++ rawTo
          let symbol := te.read.getD ""
          if symbol ≠ "" then
            some (acc.1 ++ [{ src := "q" ++ from_id, symbol := symbol,
                              dst := "q" ++ to_id }],
                  setAdd acc.2 symbol)
          else some acc
        | _, _ => none) (([], []) : List Transition × List String) with
      | none => (none, "Error parsing JFLAP file: AttributeError")
      | some (transitions, alphabet) =>
        (some { states := states, transitions := transitions,
                alphabet := pysorted alphabet }, "Success")

/-! ### `DFAValidator.minimize_dfa` -/

/-- One recorded refinement step: `description` and the partition lists. -/
structure RefStep where
  description : String
  partitions : List (List String)
deriving Repr, DecidableEq

/-- Outcome of `minimize_dfa`: the returned error dict, an uncaught
exception, or the step trace plus the minimized DFA. -/
inductive MinimizeOut where
  | err (msg : String)
  | exn
  | ok (steps : List RefStep) (minimized_dfa : DFA)
deriving Repr, DecidableEq

/-- The adjacency build: every state id first maps to an empty inner dict,
then each transition sets `adj[from][symbol] = to` in input order.  (The
source guards `if from not in adj: adj[from] = {}` before the nested
assignment; reading the current inner dict with a `{}` default performs the
same update.) -/
def buildAdj (d : DFA) : Dict String (Dict String String) :=
  let init : Dict String (Dict String String) :=
    d.states.foldl (fun m s => dset m s.id []) []
  d.transitions.foldl (fun m t =>
    dset m t.src (dset ((dget m t.src).getD []) t.symbol t.dst)) init

/-- `adj.get(q, {}).get(a)`; also the BFS guard
`q in adj and a in adj[q]` holds exactly when this is `some`. -/
def adjGet (adj : Dict String (Dict String String)) (q a : String) :
    Option String :=
  dget ((dget adj q).getD []) a

/-- The body of one BFS work-list iteration: scan the alphabet in order and
append unseen successor states to the queue and the reachable set. -/
def bfsStep (adj : Dict String (Dict String String)) (alphabet : List String)
    (curr : String) (queue reach : List String) : List String × List String :=
  alphabet.foldl (fun qr symbol =>
    match adjGet adj curr symbol with
    | some next_state =>
      if next_state ∈ qr.2 then qr
      else (qr.1 ++ [next_state], qr.2 ++ [next_state])
    | none => qr) (queue, reach)

/-- The `while queue:` loop of the reachability phase, with fuel (the Python
loop is unbounded; `bfs_fuel_drains` below shows the fuel used by
`minimize_dfa` always empties the queue). -/
def bfsLoop (adj : Dict String (Dict String String)) (alphabet : List String) :
    Nat → List String → List String → List String
  | _, [], reach => reach
  | 0, _ :: _, reach => reach
  | fuel+1, curr :: rest, reach =>
    let qr := bfsStep adj alphabet curr rest reach
    bfsLoop adj alphabet fuel qr.1 qr.2

/-- The reachable-id set computed by phase 1 of `minimize_dfa`. -/
def reachableOf (d : DFA) (st : State) : List String :=
  bfsLoop (buildAdj d) d.alphabet (d.transitions.length + 1) [st.id] [st.id]

/-- `active_states`: the states whose id is reachable. -/
def activeStatesOf (d : DFA) (st : State) : List State :=
  d.states.filter (fun s => decide (s.id ∈ reachableOf d st))

/-- The set comprehension of final active-state ids. -/
def finalSetOf (active : List State) : List String :=
  active.foldl (fun acc s => if s.isFinal then setAdd acc s.id else acc) []

/-- The set comprehension of non-final active-state ids. -/
def nonFinalSetOf (active : List State) : List String :=
  active.foldl (fun acc s => if !s.isFinal then setAdd acc s.id else acc) []

/-- The initial partition list: the final group (if non-empty) then the
non-final group (if non-empty). -/
def initialPartitionsOf (active : List State) : List (List String) :=
  (if (finalSetOf active).isEmpty then [] else [finalSetOf active]) ++
  (if (nonFinalSetOf active).isEmpty then [] else [nonFinalSetOf active])

/-- The linear partition-index scan: first index of a partition containing
`target`, else the sentinel `-1`. -/
def partitionIdx (partitions : List (List String)) (target : String) : Int :=
  match partitions.findIdx? (fun p => decide (target ∈ p)) with
  | some idx => (idx : Int)
  | none => -1

/-- The signature of a state: per alphabet symbol (in order), the partition
index of its successor, with `-1` when there is no successor or the Python
truthiness test `if target:` fails (empty-string id) or the successor lies
in no partition. -/
def sigOf (alphabet : List String) (adj : Dict String (Dict String String))
    (partitions : List (List String)) (state_id : String) : List Int :=
  alphabet.map (fun symbol =>
    match adjGet adj state_id symbol with
    | none => -1
    | some target => if target = "" then -1 else partitionIdx partitions target)

/-- Insert a state into `groups_by_signature` (a dict in key-insertion
order whose values are sets, modelled as duplicate-free lists). -/
def addSig (gs : List (List Int × List String)) (sig : List Int)
    (sid : String) : List (List Int × List String) :=
  match gs with
  | [] => [(sig, [sid])]
  | (s, mem) :: rest =>
    if s = sig then (s, if sid ∈ mem then mem else mem ++ [sid]) :: rest
    else (s, mem) :: addSig rest sig sid

/-- Split one group by signature; the result is
`groups_by_signature.values()` in key-insertion order. -/
def splitGroup (alphabet : List String) (adj : Dict String (Dict String String))
    (partitions : List (List String)) (group : List String) :
    List (List String) :=
  (group.foldl
    (fun gs sid => addSig gs (sigOf alphabet adj partitions sid) sid) []).map
    (fun g => g.2)

/-- One full refinement pass: groups of size at most one pass through,
larger groups are split, and the pass is `changed` when some group yields
more than one signature class. -/
def refineStep (alphabet : List String) (adj : Dict String (Dict String String))
    (partitions : List (List String)) : List (List String) × Bool :=
  partitions.foldl (fun acc group =>
    if group.length ≤ 1 then (acc.1 ++ [group], acc.2)
    else
      let subs := splitGroup alphabet adj partitions group
      (acc.1 ++ subs, acc.2 || decide (1 < subs.length))) ([], false)

/-- The `while changed:` refinement loop, with fuel (the Python loop is
unbounded; the termination theorem shows the fuel used by `minimize_dfa`
always reaches an unchanged pass).  A changed pass records a step. -/
def refineLoop (alphabet : List String) (adj : Dict String (Dict String String)) :
    Nat → List (List String) → List RefStep → Nat →
    List (List String) × List RefStep
  | 0, parts, steps, _ => (parts, steps)
  | fuel+1, parts, steps, iteration =>
    if (refineStep alphabet adj parts).2 then
      refineLoop alphabet adj fuel (refineStep alphabet adj parts).1
        (steps ++ [{ description :=
                       "Iteration " ++ Nat.repr (iteration + 1) ++
                         ": Refined partitions",
                     partitions := (refineStep alphabet adj parts).1 }])
        (iteration + 1)
    else ((refineStep alphabet adj parts).1, steps)

/-- Phases 2 and 3 of `minimize_dfa`: the final partition list and the
recorded steps (the initial-partition step followed by one step per changed
pass). -/
def refineResultOf (d : DFA) (st : State) :
    List (List String) × List RefStep :=
  let active := activeStatesOf d st
  refineLoop d.alphabet (buildAdj d) (active.length + 1)
    (initialPartitionsOf active) 
    [{ description := "Initial Partition (Final vs Non-Final)",
       partitions := initialPartitionsOf active }] 0

/-- `next(s for s in active_states if s[id] == sid)`: the first active
state with the given id (`none` models the `StopIteration` it can raise). -/
def firstActive (active : List State) (sid : String) : Option State :=
  active.find? (fun s => decide (s.id = sid))

/-- `",".flatten(p)`. -/
def joinComma (p : List String) : String :=
  String.intercalate "," p

/-- The merged-state construction over `enumerate(partitions)`: synthetic id
`P` ++ index, set label, mean coordinates, any-member `isStart`/`isFinal`,
and the `state_to_partition` dict.  `none` models an uncaught exception
(`ZeroDivisionError` on an empty partition, `StopIteration` from `next` on
an id with no active state). -/
def quotientStatesGo (active : List State) :
    List (List String) → Nat → List State → Dict String String →
    Option (List State × Dict String String)
  | [], _, mstates, stp => some (mstates, stp)
  | p :: rest, idx, mstates, stp =>
    if p.length = 0 then none
    else
      match p.mapM (fun sid => (firstActive active sid).map (fun s => s.x)),
            p.mapM (fun sid => (firstActive active sid).map (fun s => s.y)),
            p.mapM (fun sid => (firstActive active sid).map (fun s => s.isStart)),
            p.mapM (fun sid => (firstActive active sid).map (fun s => s.isFinal)) with
      | some xs, some ys, some starts, some finals =>
        let p_id := "P" ++ Nat.repr idx
        let st : State :=
          { id := p_id, name := none,
            label := some ("\x7b" ++ joinComma p ++ "\x7d"),
            x := xs.foldl (fun a b => a + b) 0 / (p.length : Rat),
            y := ys.foldl (fun a b => a + b) 0 / (p.length : Rat),
            isStart := starts.any (fun b => b),
            isFinal := finals.any (fun b => b) }
        quotientStatesGo active rest (idx + 1) (mstates ++ [st])
          (p.foldl (fun m sid => dset m sid p_id) stp)
      | _, _, _, _ => none

/-- The quotient-transition construction: per partition (in order) pick the
first member as representative, follow its transitions per alphabet symbol,
keep targets that are truthy and mapped by `state_to_partition`, and
suppress duplicate `(from, to, symbol)` triples.  The per-symbol body: -/
def qtStep (adj : Dict String (Dict String String)) (p_id rep_id : String)
    (stp : Dict String String)
    (acc : List Transition × List (String × String × String))
    (symbol : String) :
    List Transition × List (String × String × String) :=
  match adjGet adj rep_id symbol with
  | some target =>
    if target ≠ "" then
      match dget stp target with
      | some target_p_id =>
        if (p_id, target_p_id, symbol) ∈ acc.2 then acc
        else (acc.1 ++ [{ src := p_id, symbol := symbol,
                          dst := target_p_id }],
              acc.2 ++ [(p_id, target_p_id, symbol)])
      | none => acc
    else acc
  | none => acc

/-- The per-partition recursion of the construction: pick the first member
as representative and fold the alphabet in order.  `none` models the
`StopIteration` of `next(iter(p))` on an empty partition. -/
def quotientTransitionsGo (adj : Dict String (Dict String String))
    (alphabet : List String) (stp : Dict String String) :
    List (List String) → Nat → List Transition →
    List (String × String × String) → Option (List Transition)
  | [], _, mtrans, _ => some mtrans
  | p :: rest, p_idx, mtrans, added =>
    match p.head? with
    | none => none
    | some rep_id =>
      let acc2 := alphabet.foldl
        (qtStep adj ("P" ++ Nat.repr p_idx) rep_id stp) (mtrans, added)
      quotientTransitionsGo adj alphabet stp rest (p_idx + 1) acc2.1 acc2.2

/-- the `minimize_dfa` routine: reachability pruning, initial partition,
refinement to a fixpoint, and quotient construction. -/
def minimize_dfa (d : DFA) : MinimizeOut :=
  match startStateOf d with
  | none => MinimizeOut.err "No start state"
  | some start_state =>
    match quotientStatesGo (activeStatesOf d start_state)
        (refineResultOf d start_state).1 0 [] [] with
    | none => MinimizeOut.exn
    | some msp =>
      match quotientTransitionsGo (buildAdj d) d.alphabet msp.2
          (refineResultOf d start_state).1 0 [] [] with
      | none => MinimizeOut.exn
      | some minimized_transitions =>
        MinimizeOut.ok (refineResultOf d start_state).2
          { states := msp.1, transitions := minimized_transitions,
            alphabet := d.alphabet }

/-! ### Concrete automata used by counterexamples and witnesses -/

/-- An automaton with two reachable start-flagged states; JSON-shaped data
a caller can legitimately send. -/
def dfaTwoStart : DFA :=
  { states := [{ id := "q0", isStart := true },
               { id := "q1", isStart := true, isFinal := true }],
    transitions := [{ src := "q0", symbol := "a", dst := "q1" },
                    { src := "q1", symbol := "a", dst := "q1" }],
    alphabet := ["a"] }

/-- An automaton whose only transition points at a state id that is not in
the state list. -/
def dfaDangling : DFA :=
  { states := [{ id := "q0", isStart := true }],
    transitions := [{ src := "q0", symbol := "a", dst := "q1" }],
    alphabet := ["a"] }

/-- Projection of the minimized DFA out of a `minimize_dfa` outcome. -/
def minimizedOf : MinimizeOut → Option DFA
  | MinimizeOut.ok _ m => some m
  | _ => none

/-! ### C1, counterexample -/

/-- C1: the claim fails as stated.  `dfaTwoStart` has a start state and the
empty string is a string over its alphabet, yet the original automaton
rejects the empty string (the simulator starts at the first start-flagged
state, `q0`, which is not final) while the minimized automaton accepts it
(its first start-flagged merged state is the final class of `q1`). -/
theorem c1_counterexample :
    dfaTwoStart.states.any (fun s => s.isStart) = true ∧
    simAccepted (simulate_string dfaTwoStart []) = some false ∧
    (minimizedOf (minimize_dfa dfaTwoStart)).map
        (fun m => simAccepted (simulate_string m [])) = some (some true) := by
  decide

/-! ### C2: dangling transition targets can crash the simulator -/

/-- C2: on `dfaDangling` — a start state is present, the input `["a"]` is a
string over the alphabet, and every transition target id is absent from the
state list — the walk follows the dangling transition and the final
`state_map[current_state_id]` lookup raises an uncaught `KeyError` instead
of returning a result value. -/
theorem c2_dangling_exception :
    dfaDangling.states.any (fun s => s.isStart) = true ∧
    (∀ a ∈ (["a"] : List String), a ∈ dfaDangling.alphabet) ∧
    (∀ t ∈ dfaDangling.transitions,
        t.dst ∉ dfaDangling.states.map (fun s => s.id)) ∧
    simulate_string dfaDangling ["a"] = SimOut.exn := by
  decide

/-! ### C9: one crashing string aborts the whole batch -/

/-- C9: the empty test string alone simulates fine on `dfaDangling`, but
batching it together with the crashing string `["a"]` returns nothing at
all — the `KeyError` of the first run propagates out of `batch_test`, so no
per-string entries are produced. -/
theorem c9_batch_aborted :
    simulate_string dfaDangling [] = SimOut.done ["q0"] "q0" false ∧
    batch_test dfaDangling [["a"], []] = none := by
  decide

/-! ### C3: JFLAP import double-prefixes transition endpoints -/

/-- The state elements of a minimal two-state JFLAP document. -/
def jffStates : List JffState :=
  [{ id := "0", name := some "q0", initial := true },
   { id := "1", name := some "q1", final := true }]

/-- The single transition element (on symbol `a`) of the document. -/
def jffTransitions : List JffTransition :=
  [{ src := some "0", dst := some "1", read := some "a" }]

/-- The minimal two-state JFLAP document with one transition on `a`. -/
def jffMinimalDoc : JflapDoc :=
  { typeText := some "fa", automaton := some (jffStates, jffTransitions) }

/-- C3: importing the minimal document yields states `q0`, `q1` and
alphabet `[a]` as claimed, but the transition endpoints are prefixed twice
(`qq0` → `qq1`), so neither endpoint is among the state ids. -/
theorem c3_double_prefix :
    (parse_jflap jffMinimalDoc).2 = "Success" ∧
    (parse_jflap jffMinimalDoc).1.map (fun d => d.states.map (fun s => s.id)) =
      some ["q0", "q1"] ∧
    (parse_jflap jffMinimalDoc).1.map (fun d => d.alphabet) = some ["a"] ∧
    (parse_jflap jffMinimalDoc).1.map (fun d => d.transitions) =
      some [{ src := "qq0", symbol := "a", dst := "qq1" }] ∧
    ("qq0" ∉ ["q0", "q1"]) ∧ ("qq1" ∉ ["q0", "q1"]) := by
  decide

/-! ### C4: validation does not reject multiple start states -/

/-- C4 counterexample: `dfaTwoStart` has two start-flagged states yet
`validate_dfa` reports it valid. -/
theorem c4_counterexample :
    1 < (dfaTwoStart.states.filter (fun s => s.isStart)).length ∧
    (validate_dfa dfaTwoStart).1 = true := by
  decide

/-- C4 amended: an automaton with more than one start-flagged state is
accepted by `validate_dfa` (the check only requires at least one start
state and a non-empty state list). -/
theorem c4_amended (d : DFA)
    (h : 1 < (d.states.filter (fun s => s.isStart)).length) :
    (validate_dfa d).1 = true := by
  have hlen : 0 < (d.states.filter (fun s => s.isStart)).length :=
    Nat.lt_of_le_of_lt (Nat.zero_le 1) h
  rcases List.exists_mem_of_length_pos hlen with ⟨s, hs⟩
  rcases List.mem_filter.mp hs with ⟨h1, h2⟩
  have hany : d.states.any (fun s => s.isStart) = true :=
    List.any_eq_true.mpr ⟨s, h1, h2⟩
  have hne : d.states.isEmpty = false := by
    cases hd : d.states with
    | nil => rw [hd] at h1; cases h1
    | cons a l => rfl
  unfold validate_dfa
  rw [hne, hany]
  rfl

/-- A second multiple-start automaton, for the C4 witness. -/
def dfaThreeStates : DFA :=
  { states := [{ id := "s0", isStart := true }, { id := "s1" },
               { id := "s2", isStart := true }],
    transitions := [],
    alphabet := [] }

/-- C4 witness: `c4_amended` applied to `dfaThreeStates`. -/
theorem c4_witness :
    1 < (dfaThreeStates.states.filter (fun s => s.isStart)).length ∧
    (validate_dfa dfaThreeStates).1 = true :=
  ⟨by decide, c4_amended dfaThreeStates (by decide)⟩

/-! ### C10: batch entries for an automaton with no start state -/

/-- When every element is mapped to `some`, `mapM` over `Option` collects
exactly the mapped list. -/
theorem mapM_option_of_forall_some {α β : Type} (f : α → Option β)
    (g : α → β) (l : List α) (h : ∀ x ∈ l, f x = some (g x)) :
    l.mapM f = some (l.map g) := by
  induction l with
  | nil => rfl
  | cons a l ih =>
    rw [List.mapM_cons, h a (List.mem_cons_self a l),
      ih (fun x hx => h x (List.mem_cons_of_mem a hx))]
    rfl

/-- C10: with no start-flagged state, every batch entry is built from the
error dict through the `.get` defaults: `accepted = False`, `path = []`,
`error = None`. -/
theorem c10_no_start_defaults (d : DFA) (strs : List (List String))
    (hns : ∀ s ∈ d.states, s.isStart = false) (_hne : strs ≠ []) :
    batch_test d strs = some (strs.map (fun t =>
        { string := t, accepted := false, path := [], error := none })) ∧
    ∀ entries, batch_test d strs = some entries →
      entries.length = strs.length ∧
      ∀ e ∈ entries, e.accepted = false ∧ e.path = [] ∧ e.error = none := by
  have hstart : startStateOf d = none := by
    unfold startStateOf
    exact List.find?_eq_none.mpr (fun s hs => by simp [hns s hs])
  have hsim : ∀ w, simulate_string d w = SimOut.err "No start state defined" := by
    intro w
    unfold simulate_string
    rw [hstart]
  have hmain : batch_test d strs = some (strs.map (fun t =>
      { string := t, accepted := false, path := [], error := none })) := by
    unfold batch_test
    apply mapM_option_of_forall_some
    intro t _
    rw [hsim t]
    rfl
  refine ⟨hmain, ?_⟩
  intro entries heq
  rw [hmain] at heq
  injection heq with heq
  subst heq
  constructor
  · exact List.length_map _ _
  · intro e he
    rcases List.mem_map.mp he with ⟨t, _, rfl⟩
    exact ⟨rfl, rfl, rfl⟩

/-- An automaton with no start-flagged state. -/
def dfaNoStart : DFA :=
  { states := [{ id := "q0" }], transitions := [], alphabet := [] }

/-- C10 witness: `c10_no_start_defaults` on `dfaNoStart` and one string. -/
theorem c10_witness :
    (∀ s ∈ dfaNoStart.states, s.isStart = false) ∧
    ([["a"]] ≠ ([] : List (List String))) ∧
    (batch_test dfaNoStart [["a"]] = some ([["a"]].map (fun t =>
        { string := t, accepted := false, path := [], error := none })) ∧
     ∀ entries, batch_test dfaNoStart [["a"]] = some entries →
       entries.length = [["a"]].length ∧
       ∀ e ∈ entries, e.accepted = false ∧ e.path = [] ∧ e.error = none) :=
  ⟨by decide, by decide,
    c10_no_start_defaults dfaNoStart [["a"]] (by decide) (by decide)⟩

/-! ### C5: path length invariant -/

/-- Invariant of the simulation walk: a `done` outcome extends the carried
path by one state per remaining symbol, a `stuck` outcome at absolute index
`j` has `j + 1` path entries, and both keep the carried first entry. -/
theorem simLoop_spec (trans : Dict (String × String) String)
    (stateMap : Dict String State) :
    ∀ (w : List String) (cur : String) (path : List String) (i : Nat),
      path.length = i + 1 →
      (∀ p f a, simLoop trans stateMap w cur path i = SimOut.done p f a →
          p.length = i + w.length + 1 ∧ p.head? = path.head?) ∧
      (∀ p j r, simLoop trans stateMap w cur path i = SimOut.stuck p j r →
          p.length = j + 1 ∧ p.head? = path.head?) := by
  intro w
  induction w with
  | nil =>
    intro cur path i hlen
    constructor
    · intro p f a h
      unfold simLoop at h
      cases hm : dget stateMap cur with
      | none => rw [hm] at h; cases h
      | some st =>
        rw [hm] at h
        injection h with h1 h2 h3
        subst h1
        constructor
        · simpa using hlen
        · rfl
    · intro p j r h
      unfold simLoop at h
      cases hm : dget stateMap cur with
      | none => rw [hm] at h; cases h
      | some st => rw [hm] at h; cases h
  | cons a w ih =>
    intro cur path i hlen
    have hpne : path ≠ [] := by
      intro he
      rw [he] at hlen
      simp at hlen
    constructor
    · intro p f acc h
      unfold simLoop at h
      cases hm : dget trans (cur, a) with
      | none => rw [hm] at h; cases h
      | some nxt =>
        rw [hm] at h
        have hlen2 : (path ++ [nxt]).length = (i + 1) + 1 := by
          simp [hlen]
        have hr := (ih nxt (path ++ [nxt]) (i + 1) hlen2).1 p f acc h
        refine ⟨by simp; omega, ?_⟩
        rw [hr.2]
        cases path with
        | nil => exact absurd rfl hpne
        | cons p0 ps => rfl
    · intro p j r h
      unfold simLoop at h
      cases hm : dget trans (cur, a) with
      | none =>
        rw [hm] at h
        injection h with h1 h2 h3
        subst h1 h2
        exact ⟨hlen, rfl⟩
      | some nxt =>
        rw [hm] at h
        have hlen2 : (path ++ [nxt]).length = (i + 1) + 1 := by
          simp [hlen]
        have hr := (ih nxt (path ++ [nxt]) (i + 1) hlen2).2 p j r h
        refine ⟨hr.1, ?_⟩
        rw [hr.2]
        cases path with
        | nil => exact absurd rfl hpne
        | cons p0 ps => rfl

/-- C5: on full consumption the returned path has `len(s) + 1` entries, on a
stuck rejection at index `i` it has `i + 1` entries, and in both cases the
path begins with the start state id. -/
theorem c5_path_invariant (d : DFA) (w : List String) (st : State)
    (hst : startStateOf d = some st) :
    (∀ p f a, simulate_string d w = SimOut.done p f a →
        p.length = w.length + 1 ∧ p.head? = some st.id) ∧
    (∀ p i r, simulate_string d w = SimOut.stuck p i r →
        p.length = i + 1 ∧ p.head? = some st.id) := by
  have hsim : simulate_string d w =
      simLoop (buildTransitions d.transitions) (buildStateMap d.states) w
        st.id [st.id] 0 := by
    unfold simulate_string
    rw [hst]
  have h := simLoop_spec (buildTransitions d.transitions)
    (buildStateMap d.states) w st.id [st.id] 0 (by simp)
  constructor
  · intro p f a hh
    rcases h.1 p f a (hsim ▸ hh) with ⟨h1, h2⟩
    exact ⟨by omega, by simpa using h2⟩
  · intro p i r hh
    rcases h.2 p i r (hsim ▸ hh) with ⟨h1, h2⟩
    exact ⟨h1, by simpa using h2⟩

/-- The start state of the two-state binary-even example. -/
def stEvenStart : State := { id := "q0", isStart := true, isFinal := true }

/-- The binary-even example automaton from the catalog (coordinates
dropped to zero; they play no role). -/
def dfaBinEven : DFA :=
  { states := [stEvenStart, { id := "q1" }],
    transitions := [{ src := "q0", symbol := "0", dst := "q0" },
                    { src := "q0", symbol := "1", dst := "q1" },
                    { src := "q1", symbol := "0", dst := "q0" },
                    { src := "q1", symbol := "1", dst := "q1" }],
    alphabet := ["0", "1"] }

/-- C5 witness: the path invariant instantiated on the binary-even
automaton and the input `10`. -/
theorem c5_witness :
    startStateOf dfaBinEven = some stEvenStart ∧
    ((∀ p f a, simulate_string dfaBinEven ["1", "0"] = SimOut.done p f a →
        p.length = ["1", "0"].length + 1 ∧ p.head? = some stEvenStart.id) ∧
     (∀ p i r, simulate_string dfaBinEven ["1", "0"] = SimOut.stuck p i r →
        p.length = i + 1 ∧ p.head? = some stEvenStart.id)) :=
  ⟨by decide, c5_path_invariant dfaBinEven ["1", "0"] stEvenStart (by decide)⟩

/-! ### C6: later duplicate transitions shadow earlier ones -/

/-- The predicate picking the transitions with a given source and symbol. -/
def matchTrans (q a : String) (t : Transition) : Bool :=
  decide (t.src = q ∧ t.symbol = a)

/-- Updating a dict then looking up. -/
theorem dget_dset {α β : Type} [DecidableEq α] (m : Dict α β) (k : α) (v : β)
    (q : α) : dget (dset m k v) q = if k = q then some v else dget m q := by
  by_cases h : k = q
  · simp [dget, dset, List.find?, h]
  · simp [dget, dset, List.find?, h]

/-- `find?` returns the head of the filtered list. -/
theorem find?_eq_head?_filter {α : Type} (p : α → Bool) (l : List α) :
    l.find? p = (l.filter p).head? := by
  induction l with
  | nil => rfl
  | cons x l ih =>
    by_cases h : p x
    · rw [List.find?_cons_of_pos _ h, List.filter_cons, if_pos h]
      rfl
    · rw [List.find?_cons_of_neg _ h, List.filter_cons, if_neg h, ih]

/-- Searching the reversed list finds the last match of the original. -/
theorem findrev_eq_getLast?_filter {α : Type} (p : α → Bool) (l : List α) :
    l.reverse.find? p = (l.filter p).getLast? := by
  rw [find?_eq_head?_filter, List.filter_reverse, List.head?_reverse]

/-- Lookup in the transition table built over an arbitrary starting dict. -/
theorem dget_buildTransitions_aux (ts : List Transition)
    (m : Dict (String × String) String) (q a : String) :
    dget (ts.foldl (fun m t => dset m (t.src, t.symbol) t.dst) m) (q, a) =
      ((ts.reverse.find? (matchTrans q a)).map (fun t => t.dst)).or
        (dget m (q, a)) := by
  induction ts generalizing m with
  | nil => simp
  | cons t ts ih =>
    rw [List.foldl_cons, ih, List.reverse_cons, List.find?_append]
    cases hf : ts.reverse.find? (matchTrans q a) with
    | some u => simp
    | none =>
      rw [dget_dset]
      by_cases h : t.src = q ∧ t.symbol = a
      · have hm : matchTrans q a t = true := by
          unfold matchTrans
          exact decide_eq_true h
        simp [List.find?, hm, Prod.ext_iff, h.1, h.2]
      · have hm : matchTrans q a t = false := by
          unfold matchTrans
          exact decide_eq_false h
        have hne : ¬ ((t.src, t.symbol) = (q, a)) := by
          simpa [Prod.ext_iff] using h
        simp [List.find?, hm, hne]

/-- The simulator transition lookup selects the last matching transition. -/
theorem dget_buildTransitions (ts : List Transition) (q a : String) :
    dget (buildTransitions ts) (q, a) =
      ((ts.filter (matchTrans q a)).getLast?).map (fun t => t.dst) := by
  unfold buildTransitions
  rw [dget_buildTransitions_aux, findrev_eq_getLast?_filter]
  simp [dget]

/-- The initial adjacency dict (every state id mapped to an empty inner
dict) yields no successors. -/
theorem adjGet_init (ss : List State) (m : Dict String (Dict String String))
    (hm : ∀ q a, adjGet m q a = none) (q a : String) :
    adjGet (ss.foldl (fun m s => dset m s.id []) m) q a = none := by
  induction ss generalizing m with
  | nil => exact hm q a
  | cons s ss ih =>
    rw [List.foldl_cons]
    apply ih
    intro q' a'
    unfold adjGet
    rw [dget_dset]
    by_cases h : s.id = q'
    · simp [h, dget]
    · simp only [if_neg h]
      exact hm q' a'

/-- Lookup in the adjacency map built over an arbitrary starting dict. -/
theorem adjGet_buildAdj_aux (ts : List Transition)
    (m : Dict String (Dict String String)) (q a : String) :
    adjGet (ts.foldl (fun m t =>
        dset m t.src (dset ((dget m t.src).getD []) t.symbol t.dst)) m) q a =
      ((ts.reverse.find? (matchTrans q a)).map (fun t => t.dst)).or
        (adjGet m q a) := by
  induction ts generalizing m with
  | nil => simp
  | cons t ts ih =>
    rw [List.foldl_cons, ih, List.reverse_cons, List.find?_append]
    cases hf : ts.reverse.find? (matchTrans q a) with
    | some u => simp
    | none =>
      have hstep : adjGet (dset m t.src
          (dset ((dget m t.src).getD []) t.symbol t.dst)) q a =
          if t.src = q ∧ t.symbol = a then some t.dst else adjGet m q a := by
        unfold adjGet
        rw [dget_dset]
        by_cases h1 : t.src = q
        · rw [if_pos h1]
          simp only [Option.getD_some]
          rw [dget_dset]
          by_cases h2 : t.symbol = a
          · simp [h1, h2]
          · simp [h1, h2]
        · rw [if_neg h1]
          simp [h1]
      rw [hstep]
      by_cases h : t.src = q ∧ t.symbol = a
      · have hm2 : matchTrans q a t = true := by
          unfold matchTrans
          exact decide_eq_true h
        simp [List.find?, hm2, h]
      · have hm2 : matchTrans q a t = false := by
          unfold matchTrans
          exact decide_eq_false h
        simp [List.find?, hm2, h]

/-- The minimizer adjacency lookup also selects the last matching
transition. -/
theorem adjGet_buildAdj (d : DFA) (q a : String) :
    adjGet (buildAdj d) q a =
      ((d.transitions.filter (matchTrans q a)).getLast?).map (fun t => t.dst) := by
  unfold buildAdj
  rw [adjGet_buildAdj_aux, findrev_eq_getLast?_filter]
  rw [adjGet_init d.states [] (by intro q a; rfl) q a]
  simp

/-- C6: with at least two transitions sharing a `(source, symbol)` pair,
both the simulation lookup and the minimizer adjacency map that pair to the
destination of the last such transition in input order. -/
theorem c6_last_transition_wins (d : DFA) (q a : String)
    (h : 2 ≤ (d.transitions.filter (matchTrans q a)).length) :
    ∃ t : Transition,
      (d.transitions.filter (matchTrans q a)).getLast? = some t ∧
      dget (buildTransitions d.transitions) (q, a) = some t.dst ∧
      adjGet (buildAdj d) q a = some t.dst := by
  cases hl : (d.transitions.filter (matchTrans q a)).getLast? with
  | none =>
    rw [List.getLast?_eq_none_iff] at hl
    rw [hl] at h
    simp at h
  | some t =>
    refine ⟨t, rfl, ?_, ?_⟩
    · rw [dget_buildTransitions, hl]
      rfl
    · rw [adjGet_buildAdj, hl]
      rfl

/-- An automaton with two transitions on the same `(q0, a)` pair; the later
one goes to `q1`. -/
def dfaDupTrans : DFA :=
  { states := [{ id := "q0", isStart := true }, { id := "q1", isFinal := true }],
    transitions := [{ src := "q0", symbol := "a", dst := "q0" },
                    { src := "q0", symbol := "a", dst := "q1" }],
    alphabet := ["a"] }

/-- C6 witness: `c6_last_transition_wins` on `dfaDupTrans`. -/
theorem c6_witness :
    2 ≤ (dfaDupTrans.transitions.filter (matchTrans "q0" "a")).length ∧
    ∃ t : Transition,
      (dfaDupTrans.transitions.filter (matchTrans "q0" "a")).getLast? = some t ∧
      dget (buildTransitions dfaDupTrans.transitions) ("q0", "a") = some t.dst ∧
      adjGet (buildAdj dfaDupTrans) "q0" "a" = some t.dst :=
  ⟨by decide, c6_last_transition_wins dfaDupTrans "q0" "a" (by decide)⟩

/-! ### C8: unreachable states never appear in steps or in the quotient -/

/-- Membership after a `setAdd`. -/
theorem mem_setAdd {l : List String} {x y : String} (h : x ∈ setAdd l y) :
    x ∈ l ∨ x = y := by
  unfold setAdd at h
  by_cases hm : y ∈ l
  · rw [if_pos hm] at h
    exact Or.inl h
  · rw [if_neg hm] at h
    rcases List.mem_append.mp h with h1 | h1
    · exact Or.inl h1
    · exact Or.inr (List.mem_singleton.mp h1)

/-- Every id collected by the guarded `setAdd` fold comes from the
accumulator or from some listed state. -/
theorem mem_foldl_setAdd (pred : State → Bool) (l : List State)
    (acc : List String) (x : String)
    (h : x ∈ l.foldl (fun acc s => if pred s then setAdd acc s.id else acc) acc) :
    x ∈ acc ∨ ∃ s ∈ l, s.id = x := by
  induction l generalizing acc with
  | nil => exact Or.inl h
  | cons s l ih =>
    rw [List.foldl_cons] at h
    rcases ih _ h with hacc | ⟨s2, hs2, he⟩
    · by_cases hp : pred s
      · rw [if_pos hp] at hacc
        rcases mem_setAdd hacc with h1 | h1
        · exact Or.inl h1
        · exact Or.inr ⟨s, List.mem_cons_self s l, h1.symm⟩
      · rw [if_neg hp] at hacc
        exact Or.inl hacc
    · exact Or.inr ⟨s2, List.mem_cons_of_mem s hs2, he⟩

/-- Every member of an initial partition group is the id of an active
state. -/
theorem initialPartitions_mem (active : List State) (g : List String)
    (x : String) (hg : g ∈ initialPartitionsOf active) (hx : x ∈ g) :
    ∃ s ∈ active, s.id = x := by
  unfold initialPartitionsOf at hg
  have hcases : g = finalSetOf active ∨ g = nonFinalSetOf active := by
    rcases List.mem_append.mp hg with h | h
    · by_cases he : (finalSetOf active).isEmpty
      · rw [if_pos he] at h
        cases h
      · rw [if_neg he] at h
        exact Or.inl (List.mem_singleton.mp h)
    · by_cases he : (nonFinalSetOf active).isEmpty
      · rw [if_pos he] at h
        cases h
      · rw [if_neg he] at h
        exact Or.inr (List.mem_singleton.mp h)
  rcases hcases with rfl | rfl
  · rcases mem_foldl_setAdd _ _ _ _ hx with h | h
    · cases h
    · exact h
  · rcases mem_foldl_setAdd _ _ _ _ hx with h | h
    · cases h
    · exact h

/-- Active states have reachable ids. -/
theorem activeStatesOf_mem_reachable (d : DFA) (st : State) (s : State)
    (hs : s ∈ activeStatesOf d st) : s.id ∈ reachableOf d st := by
  unfold activeStatesOf at hs
  exact of_decide_eq_true (List.mem_filter.mp hs).2

/-- Members of any value of `addSig` come from the old values or are the
inserted id. -/
theorem addSig_mem_values : ∀ (gs : List (List Int × List String))
    (sig : List Int) (sid : String) (pr : List Int × List String) (x : String),
    pr ∈ addSig gs sig sid → x ∈ pr.2 →
    (∃ pr2 ∈ gs, x ∈ pr2.2) ∨ x = sid := by
  intro gs
  induction gs with
  | nil =>
    intro sig sid pr x hpr hx
    unfold addSig at hpr
    rcases List.mem_singleton.mp hpr with rfl
    exact Or.inr (List.mem_singleton.mp hx)
  | cons p rest ih =>
    intro sig sid pr x hpr hx
    obtain ⟨s, mem⟩ := p
    unfold addSig at hpr
    by_cases h : s = sig
    · rw [if_pos h] at hpr
      rcases List.mem_cons.mp hpr with rfl | hpr2
      · by_cases hmem : sid ∈ mem
        · rw [if_pos hmem] at hx
          exact Or.inl ⟨(s, mem), List.mem_cons_self _ _, hx⟩
        · rw [if_neg hmem] at hx
          rcases List.mem_append.mp hx with h1 | h1
          · exact Or.inl ⟨(s, mem), List.mem_cons_self _ _, h1⟩
          · exact Or.inr (List.mem_singleton.mp h1)
      · exact Or.inl ⟨pr, List.mem_cons_of_mem _ hpr2, hx⟩
    · rw [if_neg h] at hpr
      rcases List.mem_cons.mp hpr with rfl | hpr2
      · exact Or.inl ⟨(s, mem), List.mem_cons_self _ _, hx⟩
      · rcases ih sig sid pr x hpr2 hx with ⟨pr2, hpr2m, hxm⟩ | he
        · exact Or.inl ⟨pr2, List.mem_cons_of_mem _ hpr2m, hxm⟩
        · exact Or.inr he

/-- Members of the signature-grouping fold come from the starting groups or
from the processed group. -/
theorem foldAddSig_mem (σ : String → List Int) (group : List String)
    (gs : List (List Int × List String)) (pr : List Int × List String)
    (x : String)
    (hpr : pr ∈ group.foldl (fun gs sid => addSig gs (σ sid) sid) gs)
    (hx : x ∈ pr.2) :
    (∃ pr2 ∈ gs, x ∈ pr2.2) ∨ x ∈ group := by
  induction group generalizing gs with
  | nil => exact Or.inl ⟨pr, hpr, hx⟩
  | cons sid group ih =>
    rw [List.foldl_cons] at hpr
    rcases ih _ hpr with ⟨pr2, hpr2, hx2⟩ | hg
    · rcases addSig_mem_values gs (σ sid) sid pr2 x hpr2 hx2 with h | h
      · exact Or.inl h
      · exact Or.inr (h ▸ List.mem_cons_self _ _)
    · exact Or.inr (List.mem_cons_of_mem _ hg)

/-- Members of any split subgroup are members of the group. -/
theorem splitGroup_mem (alphabet : List String)
    (adj : Dict String (Dict String String)) (partitions : List (List String))
    (group sub : List String) (x : String)
    (hsub : sub ∈ splitGroup alphabet adj partitions group) (hx : x ∈ sub) :
    x ∈ group := by
  unfold splitGroup at hsub
  rcases List.mem_map.mp hsub with ⟨pr, hpr, rfl⟩
  rcases foldAddSig_mem _ group [] pr x hpr hx with ⟨pr2, hpr2, _⟩ | h
  · cases hpr2
  · exact h

/-- The property that every partition member is drawn from `A`. -/
def memBound (A : List String) (P : List (List String)) : Prop :=
  ∀ g ∈ P, ∀ x ∈ g, x ∈ A

/-- One refinement pass preserves the member bound. -/
theorem refineStep_memBound (alphabet : List String)
    (adj : Dict String (Dict String String)) (P : List (List String))
    (A : List String) (hP : memBound A P) :
    memBound A (refineStep alphabet adj P).1 := by
  unfold refineStep
  have haux : ∀ (Q : List (List String)) (acc : List (List String) × Bool),
      (∀ g ∈ Q, ∀ x ∈ g, x ∈ A) → (∀ g ∈ acc.1, ∀ x ∈ g, x ∈ A) →
      ∀ g ∈ (Q.foldl (fun acc group =>
          if group.length ≤ 1 then (acc.1 ++ [group], acc.2)
          else (acc.1 ++ splitGroup alphabet adj P group,
                acc.2 || decide (1 < (splitGroup alphabet adj P group).length))) acc).1,
        ∀ x ∈ g, x ∈ A := by
    intro Q
    induction Q with
    | nil =>
      intro acc _ hacc
      exact hacc
    | cons group Q ih =>
      intro acc hQ hacc
      rw [List.foldl_cons]
      by_cases hlen : group.length ≤ 1
      · rw [if_pos hlen]
        apply ih
        · intro g hg x hx
          exact hQ g (List.mem_cons_of_mem _ hg) x hx
        · intro g hg x hx
          rcases List.mem_append.mp hg with h1 | h1
          · exact hacc g h1 x hx
          · rcases List.mem_singleton.mp h1 with rfl
            exact hQ g (List.mem_cons_self _ _) x hx
      · rw [if_neg hlen]
        apply ih
        · intro g hg x hx
          exact hQ g (List.mem_cons_of_mem _ hg) x hx
        · intro g hg x hx
          rcases List.mem_append.mp hg with h1 | h1
          · exact hacc g h1 x hx
          · exact hQ group (List.mem_cons_self _ _) x
              (splitGroup_mem alphabet adj P group g x h1 hx)
  exact haux P ([], false) hP (fun g hg => absurd hg (List.not_mem_nil g))

/-- The refinement loop preserves the member bound, for the final partition
list and for every recorded step. -/
theorem refineLoop_memBound (alphabet : List String)
    (adj : Dict String (Dict String String)) (A : List String) :
    ∀ (fuel : Nat) (P : List (List String)) (steps : List RefStep) (it : Nat),
      memBound A P → (∀ st ∈ steps, memBound A st.partitions) →
      memBound A (refineLoop alphabet adj fuel P steps it).1 ∧
      (∀ st ∈ (refineLoop alphabet adj fuel P steps it).2,
        memBound A st.partitions) := by
  intro fuel
  induction fuel with
  | zero =>
    intro P steps it hP hsteps
    exact ⟨hP, hsteps⟩
  | succ n ih =>
    intro P steps it hP hsteps
    have hP2 : memBound A (refineStep alphabet adj P).1 :=
      refineStep_memBound alphabet adj P A hP
    unfold refineLoop
    by_cases hc : (refineStep alphabet adj P).2
    · rw [if_pos hc]
      apply ih
      · exact hP2
      · intro st hst
        rcases List.mem_append.mp hst with h1 | h1
        · exact hsteps st h1
        · rcases List.mem_singleton.mp h1 with rfl
          exact hP2
    · rw [if_neg hc]
      exact ⟨hP2, hsteps⟩

/-- C8: a state id outside the reachable set computed by phase 1 appears in
no recorded partition step and in no final partition (the absorbed-member
sets from which the merged states, their labels and `state_to_partition`
are built); moreover the steps returned by a successful `minimize_dfa` are
exactly these recorded steps. -/
theorem c8_unreachable_pruned (d : DFA) (st : State) (sid : String)
    (hst : startStateOf d = some st) (hnr : sid ∉ reachableOf d st) :
    (∀ step ∈ (refineResultOf d st).2, ∀ g ∈ step.partitions, sid ∉ g) ∧
    (∀ g ∈ (refineResultOf d st).1, sid ∉ g) ∧
    (∀ steps m, minimize_dfa d = MinimizeOut.ok steps m →
        steps = (refineResultOf d st).2) := by
  have hA : memBound (reachableOf d st)
      (initialPartitionsOf (activeStatesOf d st)) := by
    intro g hg x hx
    rcases initialPartitions_mem _ g x hg hx with ⟨s, hs, rfl⟩
    exact activeStatesOf_mem_reachable d st s hs
  have hmain := refineLoop_memBound d.alphabet (buildAdj d) (reachableOf d st)
    ((activeStatesOf d st).length + 1)
    (initialPartitionsOf (activeStatesOf d st))
    [{ description := "Initial Partition (Final vs Non-Final)",
       partitions := initialPartitionsOf (activeStatesOf d st) }] 0
    hA
    (by
      intro s hs
      rcases List.mem_singleton.mp hs with rfl
      exact hA)
  refine ⟨?_, ?_, ?_⟩
  · intro step hstep g hg hx
    exact hnr (hmain.2 step hstep g hg sid hx)
  · intro g hg hx
    exact hnr (hmain.1 g hg sid hx)
  · intro steps m hok
    have hred : minimize_dfa d =
        match quotientStatesGo (activeStatesOf d st)
            (refineResultOf d st).1 0 [] [] with
        | none => MinimizeOut.exn
        | some msp =>
          match quotientTransitionsGo (buildAdj d) d.alphabet msp.2
              (refineResultOf d st).1 0 [] [] with
          | none => MinimizeOut.exn
          | some minimized_transitions =>
            MinimizeOut.ok (refineResultOf d st).2
              { states := msp.1, transitions := minimized_transitions,
                alphabet := d.alphabet } := by
      unfold minimize_dfa
      rw [hst]
    rw [hred] at hok
    cases hq1 : quotientStatesGo (activeStatesOf d st) (refineResultOf d st).1 0 [] [] with
    | none => rw [hq1] at hok; cases hok
    | some msp =>
      rw [hq1] at hok
      dsimp only at hok
      cases hq2 : quotientTransitionsGo (buildAdj d) d.alphabet msp.2
          (refineResultOf d st).1 0 [] [] with
      | none => rw [hq2] at hok; cases hok
      | some mtrans =>
        rw [hq2] at hok
        dsimp only at hok
        injection hok with h1 h2
        exact h1.symm

/-! ### Structure of one splitting pass (shared by the termination and
language-preservation proofs) -/

/-- `setAdd` leaves length at most one larger. -/
theorem setAdd_length_le (l : List String) (x : String) :
    (setAdd l x).length ≤ l.length + 1 := by
  unfold setAdd
  by_cases h : x ∈ l
  · rw [if_pos h]
    omega
  · rw [if_neg h]
    simp

/-- `setAdd` contains its argument. -/
theorem mem_setAdd_self (l : List String) (x : String) : x ∈ setAdd l x := by
  unfold setAdd
  by_cases h : x ∈ l
  · rw [if_pos h]
    exact h
  · rw [if_neg h]
    exact List.mem_append.mpr (Or.inr (List.mem_singleton.mpr rfl))

/-- `setAdd` keeps existing members. -/
theorem mem_setAdd_of_mem {l : List String} {x y : String} (h : y ∈ l) :
    y ∈ setAdd l x := by
  unfold setAdd
  by_cases hm : x ∈ l
  · rw [if_pos hm]
    exact h
  · rw [if_neg hm]
    exact List.mem_append.mpr (Or.inl h)

/-- `setAdd` preserves freedom from duplicates. -/
theorem setAdd_nodup {l : List String} (x : String) (h : l.Nodup) :
    (setAdd l x).Nodup := by
  unfold setAdd
  by_cases hm : x ∈ l
  · rw [if_pos hm]
    exact h
  · rw [if_neg hm]
    exact ((List.perm_append_singleton x l).nodup_iff).mpr
      (List.nodup_cons.mpr ⟨hm, h⟩)

/-- `addSig` never shrinks the group dict. -/
theorem addSig_length_ge (gs : List (List Int × List String)) (sig : List Int)
    (sid : String) : gs.length ≤ (addSig gs sig sid).length := by
  induction gs with
  | nil => simp [addSig]
  | cons p rest ih =>
    obtain ⟨s, mem⟩ := p
    unfold addSig
    by_cases h : s = sig
    · rw [if_pos h]
      simp
    · rw [if_neg h]
      simpa using ih

/-- Folding a group through `addSig` never shrinks the dict. -/
theorem foldAddSig_length_ge (σ : String → List Int) (g : List String) :
    ∀ gs : List (List Int × List String),
      gs.length ≤ (g.foldl (fun gs sid => addSig gs (σ sid) sid) gs).length := by
  induction g with
  | nil =>
    intro gs
    simp
  | cons sid g ih =>
    intro gs
    rw [List.foldl_cons]
    exact le_trans (addSig_length_ge gs (σ sid) sid) (ih _)

/-- A non-empty group splits into at least one subgroup. -/
theorem splitGroup_length_pos (alphabet : List String)
    (adj : Dict String (Dict String String)) (P : List (List String))
    (group : List String) (h : group ≠ []) :
    1 ≤ (splitGroup alphabet adj P group).length := by
  unfold splitGroup
  cases group with
  | nil => cases h rfl
  | cons x g =>
    rw [List.length_map, List.foldl_cons]
    have h1 : (addSig [] (sigOf alphabet adj P x) x).length = 1 := rfl
    have := foldAddSig_length_ge (sigOf alphabet adj P) g
      (addSig [] (sigOf alphabet adj P x) x)
    omega

/-- Inserting a fresh id permutes the collected members by one cons. -/
theorem addSig_join_perm (gs : List (List Int × List String)) (sig : List Int)
    (sid : String) (h : sid ∉ (gs.map (fun pr => pr.2)).flatten) :
    ((addSig gs sig sid).map (fun pr => pr.2)).flatten.Perm
      (sid :: (gs.map (fun pr => pr.2)).flatten) := by
  induction gs with
  | nil => simp [addSig]
  | cons p rest ih =>
    obtain ⟨s, mem⟩ := p
    have hmem : sid ∉ mem := by
      intro hc
      exact h (by simp [hc])
    have hrest : sid ∉ (rest.map (fun pr => pr.2)).flatten := by
      intro hc
      exact h (by simp [hc])
    unfold addSig
    by_cases hs : s = sig
    · rw [if_pos hs, if_neg hmem]
      simp only [List.map_cons, List.flatten_cons]
      have he : (mem ++ [sid]) ++ (rest.map (fun pr => pr.2)).flatten =
          mem ++ (sid :: (rest.map (fun pr => pr.2)).flatten) := by
        rw [List.append_assoc]
        rfl
      rw [he]
      exact List.perm_middle
    · rw [if_neg hs]
      simp only [List.map_cons, List.flatten_cons]
      exact List.Perm.trans (List.Perm.append_left mem (ih hrest))
        List.perm_middle

/-- Splitting a duplicate-free group redistributes exactly its members. -/
theorem foldAddSig_join_perm (σ : String → List Int) (g : List String) :
    ∀ gs : List (List Int × List String), g.Nodup →
      (∀ x ∈ g, x ∉ (gs.map (fun pr => pr.2)).flatten) →
      ((g.foldl (fun gs sid => addSig gs (σ sid) sid) gs).map
          (fun pr => pr.2)).flatten.Perm ((gs.map (fun pr => pr.2)).flatten ++ g) := by
  induction g with
  | nil =>
    intro gs _ _
    simp
  | cons x g ih =>
    intro gs hnd hdisj
    rw [List.foldl_cons]
    have hx : x ∉ (gs.map (fun pr => pr.2)).flatten :=
      hdisj x (List.mem_cons_self x g)
    have hperm1 := addSig_join_perm gs (σ x) x hx
    have hdisj2 : ∀ y ∈ g, y ∉ ((addSig gs (σ x) x).map (fun pr => pr.2)).flatten := by
      intro y hy hc
      have := hperm1.mem_iff.mp hc
      rcases List.mem_cons.mp this with rfl | hmem
      · exact (List.nodup_cons.mp hnd).1 hy
      · exact hdisj y (List.mem_cons_of_mem x hy) hmem
    have hp1 : ((g.foldl (fun gs sid => addSig gs (σ sid) sid)
        (addSig gs (σ x) x)).map (fun pr => pr.2)).flatten.Perm
        (((addSig gs (σ x) x).map (fun pr => pr.2)).flatten ++ g) :=
      ih _ (List.nodup_cons.mp hnd).2 hdisj2
    have hp2 : (((addSig gs (σ x) x).map (fun pr => pr.2)).flatten ++ g).Perm
        ((x :: (gs.map (fun pr => pr.2)).flatten) ++ g) :=
      List.Perm.append_right g hperm1
    have hp3 : ((x :: (gs.map (fun pr => pr.2)).flatten) ++ g).Perm
        ((gs.map (fun pr => pr.2)).flatten ++ x :: g) := by
      rw [List.cons_append]
      exact (List.perm_middle).symm
    exact (hp1.trans hp2).trans hp3

/-- The subgroups of a duplicate-free group hold exactly its members. -/
theorem splitGroup_join_perm (alphabet : List String)
    (adj : Dict String (Dict String String)) (P : List (List String))
    (group : List String) (hnd : group.Nodup) :
    (splitGroup alphabet adj P group).flatten.Perm group := by
  unfold splitGroup
  have h := foldAddSig_join_perm (sigOf alphabet adj P) group [] hnd (by simp)
  simpa using h

/-- Values of `addSig` stay duplicate-free. -/
theorem addSig_values_nodup (gs : List (List Int × List String)) (sig : List Int)
    (sid : String) (h : ∀ pr ∈ gs, pr.2.Nodup) :
    ∀ pr ∈ addSig gs sig sid, pr.2.Nodup := by
  induction gs with
  | nil =>
    intro pr hpr
    rcases List.mem_singleton.mp hpr with rfl
    simp
  | cons p rest ih =>
    obtain ⟨s, mem⟩ := p
    intro pr hpr
    unfold addSig at hpr
    by_cases hs : s = sig
    · rw [if_pos hs] at hpr
      rcases List.mem_cons.mp hpr with rfl | hpr2
      · by_cases hm : sid ∈ mem
        · rw [if_pos hm]
          exact h (s, mem) (List.mem_cons_self _ _)
        · rw [if_neg hm]
          exact ((List.perm_append_singleton sid mem).nodup_iff).mpr
            (List.nodup_cons.mpr ⟨hm, h (s, mem) (List.mem_cons_self _ _)⟩)
      · exact h pr (List.mem_cons_of_mem _ hpr2)
    · rw [if_neg hs] at hpr
      rcases List.mem_cons.mp hpr with rfl | hpr2
      · exact h (s, mem) (List.mem_cons_self _ _)
      · exact ih (fun pr2 hpr2m => h pr2 (List.mem_cons_of_mem _ hpr2m)) pr hpr2

/-- Every subgroup produced by a split is duplicate-free. -/
theorem splitGroup_nodup (alphabet : List String)
    (adj : Dict String (Dict String String)) (P : List (List String))
    (group : List String) :
    ∀ sub ∈ splitGroup alphabet adj P group, sub.Nodup := by
  unfold splitGroup
  have haux : ∀ (g : List String) (gs : List (List Int × List String)),
      (∀ pr ∈ gs, pr.2.Nodup) →
      ∀ pr ∈ g.foldl (fun gs sid => addSig gs (sigOf alphabet adj P sid) sid) gs,
        pr.2.Nodup := by
    intro g
    induction g with
    | nil => intro gs h; exact h
    | cons sid g ih =>
      intro gs h
      rw [List.foldl_cons]
      exact ih _ (addSig_values_nodup gs _ sid h)
  intro sub hsub
  rcases List.mem_map.mp hsub with ⟨pr, hpr, rfl⟩
  exact haux group [] (fun pr2 hpr2 => absurd hpr2 (List.not_mem_nil pr2)) pr hpr

/-- Values of `addSig` are never empty. -/
theorem addSig_values_ne_nil (gs : List (List Int × List String)) (sig : List Int)
    (sid : String) (h : ∀ pr ∈ gs, pr.2 ≠ []) :
    ∀ pr ∈ addSig gs sig sid, pr.2 ≠ [] := by
  induction gs with
  | nil =>
    intro pr hpr
    rcases List.mem_singleton.mp hpr with rfl
    simp
  | cons p rest ih =>
    obtain ⟨s, mem⟩ := p
    intro pr hpr
    unfold addSig at hpr
    by_cases hs : s = sig
    · rw [if_pos hs] at hpr
      rcases List.mem_cons.mp hpr with rfl | hpr2
      · by_cases hm : sid ∈ mem
        · rw [if_pos hm]
          exact h (s, mem) (List.mem_cons_self _ _)
        · rw [if_neg hm]
          simp
      · exact h pr (List.mem_cons_of_mem _ hpr2)
    · rw [if_neg hs] at hpr
      rcases List.mem_cons.mp hpr with rfl | hpr2
      · exact h (s, mem) (List.mem_cons_self _ _)
      · exact ih (fun pr2 hpr2m => h pr2 (List.mem_cons_of_mem _ hpr2m)) pr hpr2

/-- Every subgroup produced by a split is non-empty. -/
theorem splitGroup_ne_nil (alphabet : List String)
    (adj : Dict String (Dict String String)) (P : List (List String))
    (group : List String) :
    ∀ sub ∈ splitGroup alphabet adj P group, sub ≠ [] := by
  unfold splitGroup
  have haux : ∀ (g : List String) (gs : List (List Int × List String)),
      (∀ pr ∈ gs, pr.2 ≠ []) →
      ∀ pr ∈ g.foldl (fun gs sid => addSig gs (sigOf alphabet adj P sid) sid) gs,
        pr.2 ≠ [] := by
    intro g
    induction g with
    | nil => intro gs h; exact h
    | cons sid g ih =>
      intro gs h
      rw [List.foldl_cons]
      exact ih _ (addSig_values_ne_nil gs _ sid h)
  intro sub hsub
  rcases List.mem_map.mp hsub with ⟨pr, hpr, rfl⟩
  exact haux group [] (fun pr2 hpr2 => absurd hpr2 (List.not_mem_nil pr2)) pr hpr

/-- Members of an `addSig` value share its signature key. -/
theorem addSig_key (gs : List (List Int × List String)) (sig : List Int)
    (sid : String) (pr : List Int × List String) (x : String)
    (hpr : pr ∈ addSig gs sig sid) (hx : x ∈ pr.2) :
    (∃ pr2 ∈ gs, pr2.1 = pr.1 ∧ x ∈ pr2.2) ∨ (x = sid ∧ pr.1 = sig) := by
  induction gs with
  | nil =>
    rcases List.mem_singleton.mp hpr with rfl
    exact Or.inr ⟨List.mem_singleton.mp hx, rfl⟩
  | cons p rest ih =>
    obtain ⟨s, mem⟩ := p
    unfold addSig at hpr
    by_cases hs : s = sig
    · rw [if_pos hs] at hpr
      rcases List.mem_cons.mp hpr with rfl | hpr2
      · by_cases hm : sid ∈ mem
        · rw [if_pos hm] at hx
          exact Or.inl ⟨(s, mem), List.mem_cons_self _ _, rfl, hx⟩
        · rw [if_neg hm] at hx
          rcases List.mem_append.mp hx with h1 | h1
          · exact Or.inl ⟨(s, mem), List.mem_cons_self _ _, rfl, h1⟩
          · exact Or.inr ⟨List.mem_singleton.mp h1, hs⟩
      · exact Or.inl ⟨pr, List.mem_cons_of_mem _ hpr2, rfl, hx⟩
    · rw [if_neg hs] at hpr
      rcases List.mem_cons.mp hpr with rfl | hpr2
      · exact Or.inl ⟨(s, mem), List.mem_cons_self _ _, rfl, hx⟩
      · rcases ih hpr2 with ⟨pr2, hpr2m, hk, hxm⟩ | hr
        · exact Or.inl ⟨pr2, List.mem_cons_of_mem _ hpr2m, hk, hxm⟩
        · exact Or.inr hr

/-- Members of any value of the signature fold carry its key as their own
signature. -/
theorem foldAddSig_key (σ : String → List Int) (g : List String) :
    ∀ (gs : List (List Int × List String)) (pr : List Int × List String)
      (x : String),
      pr ∈ g.foldl (fun gs sid => addSig gs (σ sid) sid) gs → x ∈ pr.2 →
      (∃ pr2 ∈ gs, pr2.1 = pr.1 ∧ x ∈ pr2.2) ∨ σ x = pr.1 := by
  induction g with
  | nil =>
    intro gs pr x hpr hx
    exact Or.inl ⟨pr, hpr, rfl, hx⟩
  | cons sid g ih =>
    intro gs pr x hpr hx
    rw [List.foldl_cons] at hpr
    rcases ih _ pr x hpr hx with ⟨pr2, hpr2, hk, hxm⟩ | hr
    · rcases addSig_key gs (σ sid) sid pr2 x hpr2 hxm with
        ⟨pr3, hpr3, hk3, hxm3⟩ | ⟨he, hke⟩
      · exact Or.inl ⟨pr3, hpr3, hk3.trans hk, hxm3⟩
      · refine Or.inr ?_
        rw [he, ← hk, ← hke]
    · exact Or.inr hr

/-- Two members of the same subgroup have the same signature. -/
theorem splitGroup_sig_eq (alphabet : List String)
    (adj : Dict String (Dict String String)) (P : List (List String))
    (group sub : List String) (x y : String)
    (hsub : sub ∈ splitGroup alphabet adj P group) (hx : x ∈ sub) (hy : y ∈ sub) :
    sigOf alphabet adj P x = sigOf alphabet adj P y := by
  unfold splitGroup at hsub
  rcases List.mem_map.mp hsub with ⟨pr, hpr, rfl⟩
  have h1 := foldAddSig_key (sigOf alphabet adj P) group [] pr x hpr hx
  have h2 := foldAddSig_key (sigOf alphabet adj P) group [] pr y hpr hy
  rcases h1 with ⟨pr2, hpr2, _, _⟩ | h1
  · exact absurd hpr2 (List.not_mem_nil pr2)
  rcases h2 with ⟨pr2, hpr2, _, _⟩ | h2
  · exact absurd hpr2 (List.not_mem_nil pr2)
  rw [h1, h2]

/-- Folding ids that all share one signature into a single-key dict keeps a
single key and appends the ids in order. -/
theorem foldAddSig_single (σ : String → List Int) (g : List String) :
    ∀ (s : List Int) (mem : List String),
      (∀ x ∈ g, σ x = s) → (∀ x ∈ g, x ∉ mem) → g.Nodup →
      g.foldl (fun gs sid => addSig gs (σ sid) sid) [(s, mem)] =
        [(s, mem ++ g)] := by
  induction g with
  | nil =>
    intro s mem _ _ _
    simp
  | cons x g ih =>
    intro s mem hσ hmem hnd
    rw [List.foldl_cons]
    have hx : σ x = s := hσ x (List.mem_cons_self x g)
    have hxm : x ∉ mem := hmem x (List.mem_cons_self x g)
    have hstep : addSig [(s, mem)] (σ x) x = [(s, mem ++ [x])] := by
      unfold addSig
      rw [if_pos hx.symm, if_neg hxm]
    rw [hstep, ih s (mem ++ [x])
      (fun y hy => hσ y (List.mem_cons_of_mem x hy))
      (fun y hy => by
        intro hc
        rcases List.mem_append.mp hc with h1 | h1
        · exact hmem y (List.mem_cons_of_mem x hy) h1
        · exact (List.nodup_cons.mp hnd).1 (List.mem_singleton.mp h1 ▸ hy)
      )
      (List.nodup_cons.mp hnd).2]
    rw [List.append_assoc]
    rfl

/-- A group whose members all share one signature is not split. -/
theorem splitGroup_single (alphabet : List String)
    (adj : Dict String (Dict String String)) (P : List (List String))
    (group : List String) (hnd : group.Nodup)
    (hσ : ∀ x ∈ group, ∀ y ∈ group,
        sigOf alphabet adj P x = sigOf alphabet adj P y) :
    splitGroup alphabet adj P group = [group] ∨ group = [] := by
  cases group with
  | nil => exact Or.inr rfl
  | cons x g =>
    left
    unfold splitGroup
    rw [List.foldl_cons]
    have hstep : addSig [] (sigOf alphabet adj P x) x =
        [(sigOf alphabet adj P x, [x])] := rfl
    rw [hstep, foldAddSig_single (sigOf alphabet adj P) g
      (sigOf alphabet adj P x) [x]
      (fun y hy => hσ y (List.mem_cons_of_mem x hy) x (List.mem_cons_self x g))
      (fun y hy => by
        intro hc
        exact (List.nodup_cons.mp hnd).1 (List.mem_singleton.mp hc ▸ hy))
      (List.nodup_cons.mp hnd).2]
    rfl

/-! ### Structure of one full refinement pass -/

/-- One pass redistributes exactly the members of duplicate-free groups. -/
theorem refineStep_fold_join_perm (alphabet : List String)
    (adj : Dict String (Dict String String)) (P : List (List String)) :
    ∀ (Q : List (List String)) (acc : List (List String) × Bool),
      (∀ g ∈ Q, g.Nodup) →
      ((Q.foldl (fun acc group =>
          if group.length ≤ 1 then (acc.1 ++ [group], acc.2)
          else (acc.1 ++ splitGroup alphabet adj P group,
                acc.2 || decide (1 < (splitGroup alphabet adj P group).length)))
          acc).1.flatten).Perm (acc.1.flatten ++ Q.flatten) := by
  intro Q
  induction Q with
  | nil =>
    intro acc _
    simp
  | cons g Q ih =>
    intro acc hnd
    rw [List.foldl_cons]
    by_cases hlen : g.length ≤ 1
    · rw [if_pos hlen]
      have h := ih (acc.1 ++ [g], acc.2)
        (fun g2 hg2 => hnd g2 (List.mem_cons_of_mem g hg2))
      have he : ((acc.1 ++ [g], acc.2) :
          List (List String) × Bool).1.flatten ++ Q.flatten =
          acc.1.flatten ++ (g :: Q).flatten := by
        simp [List.flatten_append, List.append_assoc]
      rw [he] at h
      exact h
    · rw [if_neg hlen]
      have hgnd : g.Nodup := hnd g (List.mem_cons_self g Q)
      have h := ih (acc.1 ++ splitGroup alphabet adj P g,
          acc.2 || decide (1 < (splitGroup alphabet adj P g).length))
        (fun g2 hg2 => hnd g2 (List.mem_cons_of_mem g hg2))
      have hsp := splitGroup_join_perm alphabet adj P g hgnd
      have he : ((acc.1 ++ splitGroup alphabet adj P g,
          acc.2 || decide (1 < (splitGroup alphabet adj P g).length)) :
          List (List String) × Bool).1.flatten ++ Q.flatten =
          acc.1.flatten ++ ((splitGroup alphabet adj P g).flatten ++ Q.flatten) := by
        simp [List.flatten_append, List.append_assoc]
      rw [he] at h
      have hstep : (acc.1.flatten ++ ((splitGroup alphabet adj P g).flatten ++ Q.flatten)).Perm
          (acc.1.flatten ++ (g ++ Q.flatten)) :=
        List.Perm.append_left acc.1.flatten (List.Perm.append_right Q.flatten hsp)
      have he2 : acc.1.flatten ++ (g ++ Q.flatten) = acc.1.flatten ++ (g :: Q).flatten := by
        simp
      rw [he2] at hstep
      exact h.trans hstep

/-- The full pass permutes the members of duplicate-free partitions. -/
theorem refineStep_join_perm (alphabet : List String)
    (adj : Dict String (Dict String String)) (P : List (List String))
    (hnd : ∀ g ∈ P, g.Nodup) :
    ((refineStep alphabet adj P).1.flatten).Perm P.flatten := by
  unfold refineStep
  have h := refineStep_fold_join_perm alphabet adj P P ([], false) hnd
  simpa using h

/-- Every group after a pass is duplicate-free when the input groups are. -/
theorem refineStep_nodup (alphabet : List String)
    (adj : Dict String (Dict String String)) (P : List (List String))
    (hnd : ∀ g ∈ P, g.Nodup) :
    ∀ g ∈ (refineStep alphabet adj P).1, g.Nodup := by
  unfold refineStep
  have haux : ∀ (Q : List (List String)) (acc : List (List String) × Bool),
      (∀ g ∈ Q, g.Nodup) → (∀ g ∈ acc.1, g.Nodup) →
      ∀ g ∈ (Q.foldl (fun acc group =>
          if group.length ≤ 1 then (acc.1 ++ [group], acc.2)
          else (acc.1 ++ splitGroup alphabet adj P group,
                acc.2 || decide (1 < (splitGroup alphabet adj P group).length)))
          acc).1, g.Nodup := by
    intro Q
    induction Q with
    | nil =>
      intro acc _ hacc
      exact hacc
    | cons g Q ih =>
      intro acc hQ hacc
      rw [List.foldl_cons]
      by_cases hlen : g.length ≤ 1
      · rw [if_pos hlen]
        refine ih _ (fun g2 hg2 => hQ g2 (List.mem_cons_of_mem g hg2)) ?_
        intro g2 hg2
        rcases List.mem_append.mp hg2 with h1 | h1
        · exact hacc g2 h1
        · rcases List.mem_singleton.mp h1 with rfl
          exact hQ _ (List.mem_cons_self _ _)
      · rw [if_neg hlen]
        refine ih _ (fun g2 hg2 => hQ g2 (List.mem_cons_of_mem g hg2)) ?_
        intro g2 hg2
        rcases List.mem_append.mp hg2 with h1 | h1
        · exact hacc g2 h1
        · exact splitGroup_nodup alphabet adj P g g2 h1
  exact haux P ([], false) hnd (fun g hg => absurd hg (List.not_mem_nil g))

/-- Every group after a pass is non-empty when the input groups are. -/
theorem refineStep_ne_nil (alphabet : List String)
    (adj : Dict String (Dict String String)) (P : List (List String))
    (hne : ∀ g ∈ P, g ≠ []) :
    ∀ g ∈ (refineStep alphabet adj P).1, g ≠ [] := by
  unfold refineStep
  have haux : ∀ (Q : List (List String)) (acc : List (List String) × Bool),
      (∀ g ∈ Q, g ≠ []) → (∀ g ∈ acc.1, g ≠ []) →
      ∀ g ∈ (Q.foldl (fun acc group =>
          if group.length ≤ 1 then (acc.1 ++ [group], acc.2)
          else (acc.1 ++ splitGroup alphabet adj P group,
                acc.2 || decide (1 < (splitGroup alphabet adj P group).length)))
          acc).1, g ≠ [] := by
    intro Q
    induction Q with
    | nil =>
      intro acc _ hacc
      exact hacc
    | cons g Q ih =>
      intro acc hQ hacc
      rw [List.foldl_cons]
      by_cases hlen : g.length ≤ 1
      · rw [if_pos hlen]
        refine ih _ (fun g2 hg2 => hQ g2 (List.mem_cons_of_mem g hg2)) ?_
        intro g2 hg2
        rcases List.mem_append.mp hg2 with h1 | h1
        · exact hacc g2 h1
        · rcases List.mem_singleton.mp h1 with rfl
          exact hQ _ (List.mem_cons_self _ _)
      · rw [if_neg hlen]
        refine ih _ (fun g2 hg2 => hQ g2 (List.mem_cons_of_mem g hg2)) ?_
        intro g2 hg2
        rcases List.mem_append.mp hg2 with h1 | h1
        · exact hacc g2 h1
        · exact splitGroup_ne_nil alphabet adj P g g2 h1
  exact haux P ([], false) hne (fun g hg => absurd hg (List.not_mem_nil g))

/-- Counting lemma for the pass fold: the output never has fewer groups
than input plus accumulator, the changed flag is monotone, and a pass that
reports a change has strictly more groups. -/
theorem refineStep_fold_count (alphabet : List String)
    (adj : Dict String (Dict String String)) (P : List (List String)) :
    ∀ (Q : List (List String)) (acc : List (List String) × Bool),
      (acc.1.length + Q.length ≤ (Q.foldl (fun acc group =>
          if group.length ≤ 1 then (acc.1 ++ [group], acc.2)
          else (acc.1 ++ splitGroup alphabet adj P group,
                acc.2 || decide (1 < (splitGroup alphabet adj P group).length)))
          acc).1.length) ∧
      (acc.2 = true → (Q.foldl (fun acc group =>
          if group.length ≤ 1 then (acc.1 ++ [group], acc.2)
          else (acc.1 ++ splitGroup alphabet adj P group,
                acc.2 || decide (1 < (splitGroup alphabet adj P group).length)))
          acc).2 = true) ∧
      ((Q.foldl (fun acc group =>
          if group.length ≤ 1 then (acc.1 ++ [group], acc.2)
          else (acc.1 ++ splitGroup alphabet adj P group,
                acc.2 || decide (1 < (splitGroup alphabet adj P group).length)))
          acc).2 = true → acc.2 = true ∨
        acc.1.length + Q.length + 1 ≤ (Q.foldl (fun acc group =>
          if group.length ≤ 1 then (acc.1 ++ [group], acc.2)
          else (acc.1 ++ splitGroup alphabet adj P group,
                acc.2 || decide (1 < (splitGroup alphabet adj P group).length)))
          acc).1.length) := by
  intro Q
  induction Q with
  | nil =>
    intro acc
    refine ⟨by simp, fun h => h, fun h => Or.inl h⟩
  | cons g Q ih =>
    intro acc
    rw [List.foldl_cons]
    by_cases hlen : g.length ≤ 1
    · rw [if_pos hlen]
      rcases ih (acc.1 ++ [g], acc.2) with ⟨ih1, ih2, ih3⟩
      simp only [List.length_append, List.length_singleton] at ih1
      refine ⟨?_, ih2, ?_⟩
      · simp only [List.length_cons]
        omega
      · intro hfl
        rcases ih3 hfl with h1 | h1
        · exact Or.inl h1
        · right
          simp only [List.length_append, List.length_singleton] at h1
          simp only [List.length_cons]
          omega
    · rw [if_neg hlen]
      have hgne : g ≠ [] := by
        intro hc
        rw [hc] at hlen
        simp at hlen
      have hsp := splitGroup_length_pos alphabet adj P g hgne
      rcases ih (acc.1 ++ splitGroup alphabet adj P g,
          acc.2 || decide (1 < (splitGroup alphabet adj P g).length)) with
        ⟨ih1, ih2, ih3⟩
      simp only [List.length_append] at ih1
      refine ⟨?_, ?_, ?_⟩
      · simp only [List.length_cons]
        omega
      · intro h
        exact ih2 (by rw [h, Bool.true_or])
      · intro hfl
        rcases ih3 hfl with h1 | h1
        · rcases Bool.or_eq_true_iff.mp h1 with h2 | h2
          · exact Or.inl h2
          · right
            have h5 : 2 ≤ (splitGroup alphabet adj P g).length := by
              have := of_decide_eq_true h2
              omega
            simp only [List.length_cons]
            omega
        · right
          simp only [List.length_append] at h1
          simp only [List.length_cons]
          omega

/-- A pass keeps at least as many groups; a changed pass strictly more. -/
theorem refineStep_count (alphabet : List String)
    (adj : Dict String (Dict String String)) (P : List (List String)) :
    P.length ≤ (refineStep alphabet adj P).1.length ∧
    ((refineStep alphabet adj P).2 = true →
      P.length + 1 ≤ (refineStep alphabet adj P).1.length) := by
  unfold refineStep
  rcases refineStep_fold_count alphabet adj P P ([], false) with ⟨h1, _, h3⟩
  refine ⟨by simpa using h1, ?_⟩
  intro hfl
  rcases h3 hfl with h | h
  · cases h
  · simpa using h

/-- An unchanged pass means no group with more than one member splits. -/
theorem refineStep_fold_flag_false (alphabet : List String)
    (adj : Dict String (Dict String String)) (P : List (List String)) :
    ∀ (Q : List (List String)) (acc : List (List String) × Bool),
      (Q.foldl (fun acc group =>
          if group.length ≤ 1 then (acc.1 ++ [group], acc.2)
          else (acc.1 ++ splitGroup alphabet adj P group,
                acc.2 || decide (1 < (splitGroup alphabet adj P group).length)))
          acc).2 = false →
      acc.2 = false ∧
      ∀ g ∈ Q, 1 < g.length → (splitGroup alphabet adj P g).length ≤ 1 := by
  intro Q
  induction Q with
  | nil =>
    intro acc h
    exact ⟨h, fun g hg => absurd hg (List.not_mem_nil g)⟩
  | cons g Q ih =>
    intro acc h
    rw [List.foldl_cons] at h
    by_cases hlen : g.length ≤ 1
    · rw [if_pos hlen] at h
      rcases ih _ h with ⟨h1, h2⟩
      refine ⟨h1, ?_⟩
      intro g2 hg2 hg2len
      rcases List.mem_cons.mp hg2 with rfl | hg2m
      · omega
      · exact h2 g2 hg2m hg2len
    · rw [if_neg hlen] at h
      rcases ih _ h with ⟨h1, h2⟩
      rcases Bool.or_eq_false_iff.mp h1 with ⟨h3, h4⟩
      refine ⟨h3, ?_⟩
      intro g2 hg2 hg2len
      rcases List.mem_cons.mp hg2 with rfl | hg2m
      · have := of_decide_eq_false h4
        omega
      · exact h2 g2 hg2m hg2len

/-- An unchanged pass returns the partition list unchanged (for
duplicate-free groups). -/
theorem refineStep_fix (alphabet : List String)
    (adj : Dict String (Dict String String)) (P : List (List String))
    (hnd : ∀ g ∈ P, g.Nodup)
    (hfl : (refineStep alphabet adj P).2 = false) :
    (refineStep alphabet adj P).1 = P := by
  have hflat := refineStep_fold_flag_false alphabet adj P P ([], false)
    (by exact hfl)
  have hnosplit := hflat.2
  have haux : ∀ (Q : List (List String)) (acc : List (List String) × Bool),
      (∀ g ∈ Q, g.Nodup) →
      (∀ g ∈ Q, 1 < g.length → (splitGroup alphabet adj P g).length ≤ 1) →
      (Q.foldl (fun acc group =>
          if group.length ≤ 1 then (acc.1 ++ [group], acc.2)
          else (acc.1 ++ splitGroup alphabet adj P group,
                acc.2 || decide (1 < (splitGroup alphabet adj P group).length)))
          acc).1 = acc.1 ++ Q := by
    intro Q
    induction Q with
    | nil =>
      intro acc _ _
      simp
    | cons g Q ih =>
      intro acc hQnd hQns
      rw [List.foldl_cons]
      by_cases hlen : g.length ≤ 1
      · rw [if_pos hlen]
        rw [ih _ (fun g2 hg2 => hQnd g2 (List.mem_cons_of_mem g hg2))
          (fun g2 hg2 => hQns g2 (List.mem_cons_of_mem g hg2))]
        simp
      · rw [if_neg hlen]
        have hgne : g ≠ [] := by
          intro hc
          rw [hc] at hlen
          simp at hlen
        have hle1 : (splitGroup alphabet adj P g).length ≤ 1 :=
          hQns g (List.mem_cons_self g Q) (by omega)
        have hge1 := splitGroup_length_pos alphabet adj P g hgne
        have hlen1 : (splitGroup alphabet adj P g).length = 1 := by omega
        rcases List.length_eq_one.mp hlen1 with ⟨v, hv⟩
        have hgnd : g.Nodup := hQnd g (List.mem_cons_self g Q)
        have hperm0 := splitGroup_join_perm alphabet adj P g hgnd
        rw [hv] at hperm0
        have hperm : v.Perm g := by simpa using hperm0
        have hsub : ∀ x ∈ g, x ∈ v := fun x hx =>
          hperm.mem_iff.mpr hx
        have hσ : ∀ x ∈ g, ∀ y ∈ g,
            sigOf alphabet adj P x = sigOf alphabet adj P y := by
          intro x hx y hy
          exact splitGroup_sig_eq alphabet adj P g v x y
            (hv ▸ List.mem_singleton.mpr rfl) (hsub x hx) (hsub y hy)
        rcases splitGroup_single alphabet adj P g hgnd hσ with hone | hnil
        · rw [hone]
          rw [ih _ (fun g2 hg2 => hQnd g2 (List.mem_cons_of_mem g hg2))
            (fun g2 hg2 => hQns g2 (List.mem_cons_of_mem g hg2))]
          simp
        · exact absurd hnil hgne
  have := haux P ([], false) hnd hnosplit
  unfold refineStep
  rw [this]
  simp

/-! ### C7: termination of the refinement loop -/

/-- The partition list after `k` refinement passes. -/
def refineIter (alphabet : List String) (adj : Dict String (Dict String String))
    (P0 : List (List String)) : Nat → List (List String)
  | 0 => P0
  | k+1 => (refineStep alphabet adj (refineIter alphabet adj P0 k)).1

/-- Iterating from the next pass equals shifting the pass index. -/
theorem refineIter_shift (alphabet : List String)
    (adj : Dict String (Dict String String)) (P0 : List (List String)) :
    ∀ k : Nat, refineIter alphabet adj ((refineStep alphabet adj P0).1) k =
      refineIter alphabet adj P0 (k + 1) := by
  intro k
  induction k with
  | zero => rfl
  | succ n ih =>
    show (refineStep alphabet adj
        (refineIter alphabet adj ((refineStep alphabet adj P0).1) n)).1 = _
    rw [ih]
    rfl

/-- Groups stay duplicate-free along the iteration. -/
theorem refineIter_nodup (alphabet : List String)
    (adj : Dict String (Dict String String)) (P0 : List (List String))
    (hnd : ∀ g ∈ P0, g.Nodup) :
    ∀ k, ∀ g ∈ refineIter alphabet adj P0 k, g.Nodup := by
  intro k
  induction k with
  | zero => exact hnd
  | succ n ih => exact refineStep_nodup alphabet adj _ ih

/-- Groups stay non-empty along the iteration. -/
theorem refineIter_ne_nil (alphabet : List String)
    (adj : Dict String (Dict String String)) (P0 : List (List String))
    (hnd : ∀ g ∈ P0, g ≠ []) :
    ∀ k, ∀ g ∈ refineIter alphabet adj P0 k, g ≠ [] := by
  intro k
  induction k with
  | zero => exact hnd
  | succ n ih => exact refineStep_ne_nil alphabet adj _ ih

/-- The members of the partitions are permuted, never created or lost. -/
theorem refineIter_join_perm (alphabet : List String)
    (adj : Dict String (Dict String String)) (P0 : List (List String))
    (hnd : ∀ g ∈ P0, g.Nodup) :
    ∀ k, ((refineIter alphabet adj P0 k).flatten).Perm P0.flatten := by
  intro k
  induction k with
  | zero => exact List.Perm.refl _
  | succ n ih =>
    exact (refineStep_join_perm alphabet adj _
      (refineIter_nodup alphabet adj P0 hnd n)).trans ih

/-- A list of non-empty groups has no more groups than members. -/
theorem length_le_join_length (P : List (List String))
    (hne : ∀ g ∈ P, g ≠ []) : P.length ≤ P.flatten.length := by
  induction P with
  | nil => simp
  | cons g P ih =>
    have hg : g ≠ [] := hne g (List.mem_cons_self g P)
    have h1 : 1 ≤ g.length := by
      cases g with
      | nil => cases hg rfl
      | cons x l => simp
    have h2 := ih (fun g2 hg2 => hne g2 (List.mem_cons_of_mem g hg2))
    simp only [List.flatten_cons, List.length_cons, List.length_append]
    omega

/-- Existing members survive the guarded `setAdd` fold. -/
theorem foldl_setAdd_mem_mono (pred : State → Bool) (l : List State) :
    ∀ (acc : List String) (y : String), y ∈ acc →
      y ∈ l.foldl (fun acc s => if pred s then setAdd acc s.id else acc) acc := by
  induction l with
  | nil =>
    intro acc y hy
    exact hy
  | cons s l ih =>
    intro acc y hy
    rw [List.foldl_cons]
    apply ih
    by_cases hp : pred s
    · rw [if_pos hp]
      exact mem_setAdd_of_mem hy
    · rw [if_neg hp]
      exact hy

/-- A listed state satisfying the guard contributes its id to the fold. -/
theorem foldl_setAdd_mem_of (pred : State → Bool) (l : List State) :
    ∀ (acc : List String) (s : State), s ∈ l → pred s = true →
      s.id ∈ l.foldl (fun acc s => if pred s then setAdd acc s.id else acc) acc := by
  induction l with
  | nil =>
    intro acc s hs
    cases hs
  | cons s2 l ih =>
    intro acc s hs hp
    rcases List.mem_cons.mp hs with rfl | hmem
    · rw [List.foldl_cons]
      apply foldl_setAdd_mem_mono
      rw [if_pos hp]
      exact mem_setAdd_self acc s.id
    · rw [List.foldl_cons]
      exact ih _ s hmem hp

/-- The guarded `setAdd` fold preserves freedom from duplicates. -/
theorem foldl_setAdd_nodup (pred : State → Bool) (l : List State) :
    ∀ acc : List String, acc.Nodup →
      (l.foldl (fun acc s => if pred s then setAdd acc s.id else acc) acc).Nodup := by
  induction l with
  | nil =>
    intro acc h
    exact h
  | cons s l ih =>
    intro acc h
    rw [List.foldl_cons]
    apply ih
    by_cases hp : pred s
    · rw [if_pos hp]
      exact setAdd_nodup s.id h
    · rw [if_neg hp]
      exact h

/-- The final and non-final id sets together have at most one entry per
active state. -/
theorem finalSets_length_le (active : List State) :
    ∀ acc1 acc2 : List String,
      (active.foldl (fun acc s => if s.isFinal then setAdd acc s.id else acc)
          acc1).length +
      (active.foldl (fun acc s => if !s.isFinal then setAdd acc s.id else acc)
          acc2).length ≤ acc1.length + acc2.length + active.length := by
  induction active with
  | nil =>
    intro acc1 acc2
    simp
  | cons s l ih =>
    intro acc1 acc2
    rw [List.foldl_cons, List.foldl_cons]
    by_cases hf : s.isFinal
    · rw [if_pos hf, if_neg (by simp [hf])]
      have h1 := ih (setAdd acc1 s.id) acc2
      have h2 := setAdd_length_le acc1 s.id
      simp only [List.length_cons]
      omega
    · rw [if_neg hf, if_pos (by simp [Bool.not_eq_true] at hf; simp [hf])]
      have h1 := ih acc1 (setAdd acc2 s.id)
      have h2 := setAdd_length_le acc2 s.id
      simp only [List.length_cons]
      omega

/-- Case analysis on membership in the initial partition list. -/
theorem initialPartitions_cases (active : List State) (g : List String)
    (hg : g ∈ initialPartitionsOf active) :
    (g = finalSetOf active ∧ g ≠ []) ∨
      (g = nonFinalSetOf active ∧ g ≠ []) := by
  unfold initialPartitionsOf at hg
  rcases List.mem_append.mp hg with h | h
  · by_cases he : (finalSetOf active).isEmpty
    · rw [if_pos he] at h
      cases h
    · rw [if_neg he] at h
      rcases List.mem_singleton.mp h with rfl
      refine Or.inl ⟨rfl, ?_⟩
      intro hc
      rw [hc] at he
      exact he rfl
  · by_cases he : (nonFinalSetOf active).isEmpty
    · rw [if_pos he] at h
      cases h
    · rw [if_neg he] at h
      rcases List.mem_singleton.mp h with rfl
      refine Or.inr ⟨rfl, ?_⟩
      intro hc
      rw [hc] at he
      exact he rfl

/-- Groups of the initial partition are duplicate-free. -/
theorem initialPartitions_nodup (active : List State) :
    ∀ g ∈ initialPartitionsOf active, g.Nodup := by
  intro g hg
  rcases initialPartitions_cases active g hg with ⟨rfl, _⟩ | ⟨rfl, _⟩
  · exact foldl_setAdd_nodup _ active [] List.nodup_nil
  · exact foldl_setAdd_nodup _ active [] List.nodup_nil

/-- Groups of the initial partition are non-empty. -/
theorem initialPartitions_ne (active : List State) :
    ∀ g ∈ initialPartitionsOf active, g ≠ [] := by
  intro g hg
  rcases initialPartitions_cases active g hg with ⟨_, h⟩ | ⟨_, h⟩ <;> exact h

/-- The initial partition holds at most one entry per active state. -/
theorem initialPartitions_join_le (active : List State) :
    (initialPartitionsOf active).flatten.length ≤ active.length := by
  have hb : (finalSetOf active).length + (nonFinalSetOf active).length ≤
      active.length := by
    have h := finalSets_length_le active [] []
    simpa [finalSetOf, nonFinalSetOf] using h
  unfold initialPartitionsOf
  by_cases h1 : (finalSetOf active).isEmpty <;>
    by_cases h2 : (nonFinalSetOf active).isEmpty <;>
      simp [h1, h2] <;> omega

/-- With at least one active state the initial partition list is
non-empty. -/
theorem initialPartitions_ne_nil (active : List State) (hne : active ≠ []) :
    initialPartitionsOf active ≠ [] := by
  cases hA : active with
  | nil => cases hne hA
  | cons s l =>
    subst hA
    unfold initialPartitionsOf
    by_cases hf : s.isFinal
    · have hmem : s.id ∈ finalSetOf (s :: l) :=
        foldl_setAdd_mem_of _ (s :: l) [] s (List.mem_cons_self s l) hf
      have hie : ¬ (finalSetOf (s :: l)).isEmpty := by
        intro hc
        rw [List.isEmpty_iff] at hc
        rw [hc] at hmem
        cases hmem
      rw [if_neg hie]
      simp
    · have hf2 : (!s.isFinal) = true := by
        simp only [Bool.not_eq_true] at hf
        simp [hf]
      have hmem : s.id ∈ nonFinalSetOf (s :: l) :=
        foldl_setAdd_mem_of _ (s :: l) [] s (List.mem_cons_self s l) hf2
      have hie : ¬ (nonFinalSetOf (s :: l)).isEmpty := by
        intro hc
        rw [List.isEmpty_iff] at hc
        rw [hc] at hmem
        cases hmem
      rw [if_neg hie]
      intro hc
      rcases List.append_eq_nil.mp hc with ⟨_, h2⟩
      cases h2

/-- The start state id is in the reachable set it seeds (the reachable set
only grows). -/
theorem bfsStep_reach_mono (adj : Dict String (Dict String String))
    (alphabet : List String) (curr : String) :
    ∀ (queue reach : List String) (y : String), y ∈ reach →
      y ∈ (bfsStep adj alphabet curr queue reach).2 := by
  unfold bfsStep
  have haux : ∀ (al : List String) (qr : List String × List String) (y : String),
      y ∈ qr.2 →
      y ∈ (al.foldl (fun qr symbol =>
          match adjGet adj curr symbol with
          | some next_state =>
            if next_state ∈ qr.2 then qr
            else (qr.1 ++ [next_state], qr.2 ++ [next_state])
          | none => qr) qr).2 := by
    intro al
    induction al with
    | nil =>
      intro qr y hy
      exact hy
    | cons a al ih =>
      intro qr y hy
      rw [List.foldl_cons]
      apply ih
      cases hga : adjGet adj curr a with
      | none =>
        dsimp only
        exact hy
      | some nxt =>
        dsimp only
        by_cases hm : nxt ∈ qr.2
        · rw [if_pos hm]
          exact hy
        · rw [if_neg hm]
          exact List.mem_append.mpr (Or.inl hy)
  intro queue reach y hy
  exact haux alphabet (queue, reach) y hy

/-- The BFS loop only grows the reachable set. -/
theorem bfsLoop_reach_mono (adj : Dict String (Dict String String))
    (alphabet : List String) :
    ∀ (fuel : Nat) (queue reach : List String) (y : String), y ∈ reach →
      y ∈ bfsLoop adj alphabet fuel queue reach := by
  intro fuel
  induction fuel with
  | zero =>
    intro queue reach y hy
    cases queue with
    | nil => exact hy
    | cons c rest => exact hy
  | succ n ih =>
    intro queue reach y hy
    cases queue with
    | nil => exact hy
    | cons c rest =>
      show y ∈ bfsLoop adj alphabet n (bfsStep adj alphabet c rest reach).1
        (bfsStep adj alphabet c rest reach).2
      exact ih _ _ y (bfsStep_reach_mono adj alphabet c rest reach y hy)

/-- The start id is reachable. -/
theorem start_mem_reachableOf (d : DFA) (st : State) :
    st.id ∈ reachableOf d st := by
  unfold reachableOf
  exact bfsLoop_reach_mono _ _ _ _ _ _ (List.mem_singleton.mpr rfl)

/-- The start state is active. -/
theorem start_mem_active (d : DFA) (st : State)
    (hst : startStateOf d = some st) : st ∈ activeStatesOf d st := by
  unfold activeStatesOf
  apply List.mem_filter.mpr
  refine ⟨?_, decide_eq_true (start_mem_reachableOf d st)⟩
  unfold startStateOf at hst
  exact List.mem_of_find?_eq_some hst

/-- If every pass up to the member bound reports a change, the group count
overflows the member count; so some early pass is unchanged. -/
theorem refineIter_exists_unchanged (alphabet : List String)
    (adj : Dict String (Dict String String)) (P0 : List (List String))
    (L : Nat) (hnd : ∀ g ∈ P0, g.Nodup) (hne : ∀ g ∈ P0, g ≠ [])
    (hjoin : P0.flatten.length ≤ L) (hP0 : P0 ≠ []) :
    ∃ k ≤ L, (refineStep alphabet adj (refineIter alphabet adj P0 k)).2 = false := by
  by_contra hcon
  push_neg at hcon
  have hcon2 : ∀ k ≤ L,
      (refineStep alphabet adj (refineIter alphabet adj P0 k)).2 = true := by
    intro k hk
    have := hcon k hk
    revert this
    cases (refineStep alphabet adj (refineIter alphabet adj P0 k)).2 <;> simp
  have hchain : ∀ j ≤ L + 1,
      P0.length + j ≤ (refineIter alphabet adj P0 j).length := by
    intro j
    induction j with
    | zero =>
      intro _
      simp [refineIter]
    | succ n ih =>
      intro hj
      have h1 := ih (by omega)
      have h2 := (refineStep_count alphabet adj (refineIter alphabet adj P0 n)).2
        (hcon2 n (by omega))
      show P0.length + (n + 1) ≤
        (refineStep alphabet adj (refineIter alphabet adj P0 n)).1.length
      omega
  have hbound : (refineIter alphabet adj P0 (L + 1)).length ≤ L := by
    have h1 := length_le_join_length (refineIter alphabet adj P0 (L + 1))
      (refineIter_ne_nil alphabet adj P0 hne (L + 1))
    have h2 := (refineIter_join_perm alphabet adj P0 hnd (L + 1)).length_eq
    omega
  have h1 := hchain (L + 1) (Nat.le_refl _)
  have hP0len : 1 ≤ P0.length := by
    cases hP : P0 with
    | nil => cases hP0 hP
    | cons g P => simp
  omega

/-- When some pass within the fuel budget is unchanged, the loop exits at a
fixpoint: the pass on the returned partitions neither changes them nor
reports a change. -/
theorem refineLoop_exit (alphabet : List String)
    (adj : Dict String (Dict String String)) :
    ∀ (fuel : Nat) (P : List (List String)) (steps : List RefStep) (it : Nat),
      (∀ g ∈ P, g.Nodup) →
      (∃ k < fuel,
        (refineStep alphabet adj (refineIter alphabet adj P k)).2 = false) →
      (refineStep alphabet adj
        (refineLoop alphabet adj fuel P steps it).1).2 = false ∧
      (refineStep alphabet adj
        (refineLoop alphabet adj fuel P steps it).1).1 =
        (refineLoop alphabet adj fuel P steps it).1 := by
  intro fuel
  induction fuel with
  | zero =>
    intro P steps it _ hex
    rcases hex with ⟨k, hk, _⟩
    omega
  | succ n ih =>
    intro P steps it hnd hex
    unfold refineLoop
    by_cases hc : (refineStep alphabet adj P).2
    · rw [if_pos hc]
      apply ih
      · exact refineStep_nodup alphabet adj P hnd
      · rcases hex with ⟨k, hk, hkf⟩
        cases k with
        | zero =>
          rw [show refineIter alphabet adj P 0 = P from rfl] at hkf
          rw [hc] at hkf
          cases hkf
        | succ k2 =>
          refine ⟨k2, by omega, ?_⟩
          rw [refineIter_shift]
          exact hkf
    · rw [if_neg hc]
      have hcf : (refineStep alphabet adj P).2 = false := by
        revert hc
        cases (refineStep alphabet adj P).2 <;> simp
      have hfx := refineStep_fix alphabet adj P hnd hcf
      constructor
      · show (refineStep alphabet adj (refineStep alphabet adj P).1).2 = false
        rw [hfx]
        exact hcf
      · show (refineStep alphabet adj (refineStep alphabet adj P).1).1 =
          (refineStep alphabet adj P).1
        rw [hfx]
        exact hfx

/-- The phases 2 and 3 pipeline is the loop applied to the initial data. -/
theorem refineResultOf_eq (d : DFA) (st : State) :
    refineResultOf d st =
      refineLoop d.alphabet (buildAdj d) ((activeStatesOf d st).length + 1)
        (initialPartitionsOf (activeStatesOf d st))
        [{ description := "Initial Partition (Final vs Non-Final)",
           partitions := initialPartitionsOf (activeStatesOf d st) }] 0 := rfl

/-- C7: each changed pass strictly increases the partition count, the count
never exceeds the number of active (reachable) states, a pass within that
bound is unchanged — so the uncapped loop terminates — and the loop run by
`minimize_dfa` indeed stops at an unchanged fixpoint. -/
theorem c7_refinement_terminates (d : DFA) (st : State)
    (hst : startStateOf d = some st) :
    (∀ k, (refineStep d.alphabet (buildAdj d)
        (refineIter d.alphabet (buildAdj d)
          (initialPartitionsOf (activeStatesOf d st)) k)).2 = true →
      (refineIter d.alphabet (buildAdj d)
          (initialPartitionsOf (activeStatesOf d st)) k).length <
        (refineIter d.alphabet (buildAdj d)
          (initialPartitionsOf (activeStatesOf d st)) (k + 1)).length) ∧
    (∀ k, (refineIter d.alphabet (buildAdj d)
        (initialPartitionsOf (activeStatesOf d st)) k).length ≤
      (activeStatesOf d st).length) ∧
    (∃ k ≤ (activeStatesOf d st).length,
      (refineStep d.alphabet (buildAdj d)
        (refineIter d.alphabet (buildAdj d)
          (initialPartitionsOf (activeStatesOf d st)) k)).2 = false) ∧
    (refineStep d.alphabet (buildAdj d) (refineResultOf d st).1).2 = false := by
  have hnd0 := initialPartitions_nodup (activeStatesOf d st)
  have hne0 := initialPartitions_ne (activeStatesOf d st)
  have hjoin := initialPartitions_join_le (activeStatesOf d st)
  have hactive : activeStatesOf d st ≠ [] := by
    intro hc
    have := start_mem_active d st hst
    rw [hc] at this
    cases this
  have hP0 := initialPartitions_ne_nil (activeStatesOf d st) hactive
  refine ⟨?_, ?_, ?_, ?_⟩
  · intro k hk
    have h := (refineStep_count d.alphabet (buildAdj d)
      (refineIter d.alphabet (buildAdj d)
        (initialPartitionsOf (activeStatesOf d st)) k)).2 hk
    show _ < (refineStep d.alphabet (buildAdj d)
      (refineIter d.alphabet (buildAdj d)
        (initialPartitionsOf (activeStatesOf d st)) k)).1.length
    omega
  · intro k
    have h1 := length_le_join_length
      (refineIter d.alphabet (buildAdj d)
        (initialPartitionsOf (activeStatesOf d st)) k)
      (refineIter_ne_nil _ _ _ hne0 k)
    have h2 := (refineIter_join_perm d.alphabet (buildAdj d)
      (initialPartitionsOf (activeStatesOf d st)) hnd0 k).length_eq
    omega
  · exact refineIter_exists_unchanged d.alphabet (buildAdj d) _
      (activeStatesOf d st).length hnd0 hne0 hjoin hP0
  · rw [refineResultOf_eq]
    refine (refineLoop_exit d.alphabet (buildAdj d)
      ((activeStatesOf d st).length + 1)
      (initialPartitionsOf (activeStatesOf d st)) _ 0 hnd0 ?_).1
    rcases refineIter_exists_unchanged d.alphabet (buildAdj d) _
      (activeStatesOf d st).length hnd0 hne0 hjoin hP0 with ⟨k, hk, hkf⟩
    exact ⟨k, by omega, hkf⟩

/-- C7 witness: the termination facts instantiated on the binary-even
automaton. -/
theorem c7_witness :
    startStateOf dfaBinEven = some stEvenStart ∧
    ((∀ k, (refineStep dfaBinEven.alphabet (buildAdj dfaBinEven)
        (refineIter dfaBinEven.alphabet (buildAdj dfaBinEven)
          (initialPartitionsOf (activeStatesOf dfaBinEven stEvenStart)) k)).2 = true →
      (refineIter dfaBinEven.alphabet (buildAdj dfaBinEven)
          (initialPartitionsOf (activeStatesOf dfaBinEven stEvenStart)) k).length <
        (refineIter dfaBinEven.alphabet (buildAdj dfaBinEven)
          (initialPartitionsOf (activeStatesOf dfaBinEven stEvenStart)) (k + 1)).length) ∧
    (∀ k, (refineIter dfaBinEven.alphabet (buildAdj dfaBinEven)
        (initialPartitionsOf (activeStatesOf dfaBinEven stEvenStart)) k).length ≤
      (activeStatesOf dfaBinEven stEvenStart).length) ∧
    (∃ k ≤ (activeStatesOf dfaBinEven stEvenStart).length,
      (refineStep dfaBinEven.alphabet (buildAdj dfaBinEven)
        (refineIter dfaBinEven.alphabet (buildAdj dfaBinEven)
          (initialPartitionsOf (activeStatesOf dfaBinEven stEvenStart)) k)).2 = false) ∧
    (refineStep dfaBinEven.alphabet (buildAdj dfaBinEven)
      (refineResultOf dfaBinEven stEvenStart).1).2 = false) :=
  ⟨by decide, c7_refinement_terminates dfaBinEven stEvenStart (by decide)⟩

/-- An automaton with an unreachable state `u1`. -/
def dfaUnreach : DFA :=
  { states := [stEvenStart, { id := "u1", isFinal := true }],
    transitions := [{ src := "q0", symbol := "a", dst := "q0" }],
    alphabet := ["a"] }

/-- C8 witness: the pruning facts instantiated on `dfaUnreach` and its
unreachable state `u1`. -/
theorem c8_witness :
    startStateOf dfaUnreach = some stEvenStart ∧
    ("u1" ∉ reachableOf dfaUnreach stEvenStart) ∧
    ((∀ step ∈ (refineResultOf dfaUnreach stEvenStart).2,
        ∀ g ∈ step.partitions, "u1" ∉ g) ∧
     (∀ g ∈ (refineResultOf dfaUnreach stEvenStart).1, "u1" ∉ g) ∧
     (∀ steps m, minimize_dfa dfaUnreach = MinimizeOut.ok steps m →
         steps = (refineResultOf dfaUnreach stEvenStart).2)) :=
  ⟨by decide, by decide,
    c8_unreachable_pruned dfaUnreach stEvenStart "u1" (by decide) (by decide)⟩

/-! ### C1: well-formedness and injectivity of the synthetic partition ids -/

/-- Well-formedness of a caller-supplied automaton: distinct, non-empty
state ids, exactly one start-flagged state, and every transition target id
present in the state list.  (The C1 counterexample and the C2 crash show
the preservation claim fails without these.) -/
def WellFormed (d : DFA) : Prop :=
  (d.states.map (fun s => s.id)).Nodup ∧
  d.states.countP (fun s => s.isStart) = 1 ∧
  (∀ t ∈ d.transitions, t.dst ∈ d.states.map (fun s => s.id)) ∧
  (∀ s ∈ d.states, s.id ≠ "")

/-- Decimal digit list of a natural number, most significant digit first
(the specification of the digits `Nat.repr` prints). -/
def decDigits (n : Nat) : List Char :=
  if n < 10 then [Nat.digitChar n]
  else decDigits (n / 10) ++ [Nat.digitChar (n % 10)]
decreasing_by exact Nat.div_lt_self (by omega) (by omega)

/-- The fuelled core of `Nat.toDigits` computes `decDigits` once the fuel
covers the number. -/
theorem toDigitsCore_eq_decDigits :
    ∀ (fuel n : Nat) (ds : List Char), n < fuel →
      Nat.toDigitsCore 10 fuel n ds = decDigits n ++ ds := by
  intro fuel
  induction fuel with
  | zero =>
    intro n ds h
    omega
  | succ f ih =>
    intro n ds h
    unfold Nat.toDigitsCore
    by_cases h10 : n / 10 = 0
    · rw [if_pos h10]
      have hn : n < 10 := (Nat.div_eq_zero_iff (by omega)).mp h10
      unfold decDigits
      rw [if_pos hn, Nat.mod_eq_of_lt hn]
      rfl
    · rw [if_neg h10]
      have hn10 : 10 ≤ n := by
        by_contra hc
        exact h10 ((Nat.div_eq_zero_iff (by omega)).mpr (by omega))
      have hlt : n / 10 < f := by
        have := Nat.div_lt_self (show 0 < n by omega) (show 1 < 10 by omega)
        omega
      rw [ih (n / 10) (Nat.digitChar (n % 10) :: ds) hlt]
      conv_rhs => rw [decDigits]
      rw [if_neg (show ¬ n < 10 by omega)]
      rw [List.append_assoc]
      rfl

/-- Numeric value of a decimal digit character. -/
def digitVal (c : Char) : Nat :=
  if c = '0' then 0 else if c = '1' then 1 else if c = '2' then 2 else
  if c = '3' then 3 else if c = '4' then 4 else if c = '5' then 5 else
  if c = '6' then 6 else if c = '7' then 7 else if c = '8' then 8 else 9

/-- `digitVal` inverts `Nat.digitChar` below ten. -/
theorem digitVal_digitChar (n : Nat) (h : n < 10) :
    digitVal (Nat.digitChar n) = n := by
  interval_cases n <;> decide

/-- Evaluating the digit fold recovers the encoded number. -/
theorem foldl_decDigits (n : Nat) :
    ∀ acc : Nat,
      (decDigits n).foldl (fun acc c => acc * 10 + digitVal c) acc =
        acc * 10 ^ (decDigits n).length + n := by
  induction n using Nat.strong_induction_on with
  | _ n ih =>
    intro acc
    by_cases h : n < 10
    · unfold decDigits
      rw [if_pos h]
      simp [List.foldl, digitVal_digitChar n h]
    · unfold decDigits
      rw [if_neg h]
      rw [List.foldl_append]
      rw [ih (n / 10) (Nat.div_lt_self (by omega) (by omega)) acc]
      simp only [List.foldl]
      rw [digitVal_digitChar (n % 10) (Nat.mod_lt n (by omega))]
      rw [List.length_append, List.length_singleton, pow_succ]
      have hdm : 10 * (n / 10) + n % 10 = n := Nat.div_add_mod n 10
      calc (acc * 10 ^ (decDigits (n / 10)).length + n / 10) * 10 + n % 10
          = acc * (10 ^ (decDigits (n / 10)).length * 10) +
              (10 * (n / 10) + n % 10) := by ring
        _ = acc * (10 ^ (decDigits (n / 10)).length * 10) + n := by rw [hdm]

/-- Decimal digit lists identify the number. -/
theorem decDigits_injective (m n : Nat) (h : decDigits m = decDigits n) :
    m = n := by
  have h1 := foldl_decDigits m 0
  have h2 := foldl_decDigits n 0
  rw [h] at h1
  simp only [Nat.zero_mul, Nat.zero_add] at h1 h2
  omega

/-- `Nat.repr` is injective. -/
theorem natRepr_injective (m n : Nat) (h : Nat.repr m = Nat.repr n) : m = n := by
  have hdata : Nat.toDigits 10 m = Nat.toDigits 10 n := by
    have := congrArg String.data h
    simpa [Nat.repr, List.asString] using this
  unfold Nat.toDigits at hdata
  rw [toDigitsCore_eq_decDigits (m + 1) m [] (by omega),
      toDigitsCore_eq_decDigits (n + 1) n [] (by omega)] at hdata
  simp only [List.append_nil] at hdata
  exact decDigits_injective m n hdata

/-- The synthetic merged-state ids are pairwise distinct. -/
theorem pid_injective (i j : Nat)
    (h : "P" ++ Nat.repr i = "P" ++ Nat.repr j) : i = j := by
  apply natRepr_injective
  apply String.ext
  have := congrArg String.data h
  simpa [String.data_append] using this

/-! ### List utilities for the quotient construction -/

/-- A successful `findIdx?` points at a witness position. -/
theorem findIdx?_some_mem {α : Type} (p : α → Bool) :
    ∀ (l : List α) (i : Nat), l.findIdx? p = some i →
      ∃ h : i < l.length, p (l.get ⟨i, h⟩) = true := by
  intro l
  induction l with
  | nil =>
    intro i h
    cases h
  | cons a l ih =>
    intro i h
    rw [List.findIdx?_cons] at h
    by_cases hp : p a
    · rw [if_pos hp] at h
      injection h with h
      subst h
      exact ⟨by simp, hp⟩
    · rw [if_neg hp, List.findIdx?_succ] at h
      cases hf : l.findIdx? p with
      | none =>
        rw [hf] at h
        cases h
      | some j =>
        rw [hf] at h
        have h2 : j + 1 = i := by injection h
        subst h2
        obtain ⟨hj, hpj⟩ := ih j hf
        exact ⟨by simp; omega, by simpa using hpj⟩

/-- A satisfied member makes `findIdx?` succeed. -/
theorem findIdx?_isSome_of_mem {α : Type} (p : α → Bool) (l : List α) (x : α)
    (hx : x ∈ l) (hpx : p x = true) : ∃ i, l.findIdx? p = some i := by
  cases hf : l.findIdx? p with
  | none =>
    have := List.findIdx?_eq_none_iff.mp hf x hx
    rw [hpx] at this
    cases this
  | some i => exact ⟨i, rfl⟩

/-- In a pairwise-disjoint family a member determines its group index. -/
theorem mem_get_unique {α : Type} (P : List (List α))
    (hdisj : List.Pairwise List.Disjoint P) (i j : Nat)
    (hi : i < P.length) (hj : j < P.length) (x : α)
    (hxi : x ∈ P.get ⟨i, hi⟩) (hxj : x ∈ P.get ⟨j, hj⟩) : i = j := by
  by_contra hne
  rcases Nat.lt_or_ge i j with hlt | hge
  · exact List.pairwise_iff_get.mp hdisj ⟨i, hi⟩ ⟨j, hj⟩ hlt hxi hxj
  · have hlt : j < i := by omega
    exact List.pairwise_iff_get.mp hdisj ⟨j, hj⟩ ⟨i, hi⟩ hlt hxj hxi

/-- Lookup in the state map built over an arbitrary starting dict. -/
theorem dget_buildStateMap_aux (ss : List State) (m : Dict String State)
    (q : String) :
    dget (ss.foldl (fun m s => dset m s.id s) m) q =
      (ss.reverse.find? (fun s => decide (s.id = q))).or (dget m q) := by
  induction ss generalizing m with
  | nil => simp
  | cons s ss ih =>
    rw [List.foldl_cons, ih, List.reverse_cons, List.find?_append]
    cases hf : ss.reverse.find? (fun s => decide (s.id = q)) with
    | some u => simp
    | none =>
      rw [dget_dset]
      by_cases h : s.id = q
      · simp [List.find?, h]
      · simp [List.find?, h]

/-- The state map lookup is the last state record carrying the id. -/
theorem dget_buildStateMap (ss : List State) (q : String) :
    dget (buildStateMap ss) q =
      (ss.filter (fun s => decide (s.id = q))).getLast? := by
  unfold buildStateMap
  rw [dget_buildStateMap_aux, findrev_eq_getLast?_filter]
  simp [dget]

/-- With distinct ids at most one state record carries a given id. -/
theorem filter_id_length_le (ss : List State) (q : String)
    (hnd : (ss.map (fun s => s.id)).Nodup) :
    (ss.filter (fun s => decide (s.id = q))).length ≤ 1 := by
  have hsub : List.Sublist
      ((ss.filter (fun s => decide (s.id = q))).map (fun s => s.id))
      (ss.map (fun s => s.id)) := (List.filter_sublist ss).map _
  have hnd2 := hnd.sublist hsub
  cases hl : ss.filter (fun s => decide (s.id = q)) with
  | nil => simp
  | cons x t =>
    cases t with
    | nil => simp
    | cons y t2 =>
      exfalso
      have hx : x.id = q := by
        have : x ∈ ss.filter (fun s => decide (s.id = q)) := by
          rw [hl]
          exact List.mem_cons_self _ _
        exact of_decide_eq_true (List.mem_filter.mp this).2
      have hy : y.id = q := by
        have : y ∈ ss.filter (fun s => decide (s.id = q)) := by
          rw [hl]
          exact List.mem_cons_of_mem _ (List.mem_cons_self _ _)
        exact of_decide_eq_true (List.mem_filter.mp this).2
      rw [hl] at hnd2
      simp only [List.map_cons, List.nodup_cons] at hnd2
      exact hnd2.1 (by rw [hx, hy]; exact List.mem_cons_self _ _)

/-- A list with at most one entry has equal first and last elements. -/
theorem getLast?_eq_head?_of_le_one {α : Type} (l : List α)
    (h : l.length ≤ 1) : l.getLast? = l.head? := by
  cases l with
  | nil => rfl
  | cons x t =>
    cases t with
    | nil => rfl
    | cons y t2 => simp at h

/-- With distinct ids the state map lookup is the unique record with the
id. -/
theorem dget_buildStateMap_nodup (ss : List State) (q : String)
    (hnd : (ss.map (fun s => s.id)).Nodup) :
    dget (buildStateMap ss) q = ss.find? (fun s => decide (s.id = q)) := by
  rw [dget_buildStateMap,
    getLast?_eq_head?_of_le_one _ (filter_id_length_le ss q hnd),
    find?_eq_head?_filter]

/-- `find?` returns a designated witness when it is the only satisfier. -/
theorem find?_eq_some_of_unique {α : Type} (p : α → Bool) :
    ∀ (l : List α) (x : α), x ∈ l → p x = true →
      (∀ y ∈ l, p y = true → y = x) → l.find? p = some x := by
  intro l
  induction l with
  | nil =>
    intro x hx
    cases hx
  | cons a l ih =>
    intro x hx hpx huniq
    by_cases hp : p a
    · rw [List.find?_cons_of_pos _ hp]
      rw [huniq a (List.mem_cons_self a l) hp]
    · rw [List.find?_cons_of_neg _ hp]
      rcases List.mem_cons.mp hx with rfl | hmem
      · rw [hpx] at hp
        cases hp rfl
      · exact ih x hmem hpx
          (fun y hy hpy => huniq y (List.mem_cons_of_mem a hy) hpy)

/-! ### Completeness of the BFS reachability phase -/

/-- One work-list visit appends the same fresh successor ids to the queue
and the reachable set; afterwards every successor of the visited state is
reachable. -/
theorem bfsFold_spec (adj : Dict String (Dict String String)) (curr : String) :
    ∀ (al : List String) (queue reach : List String),
      ∃ news : List String,
        (al.foldl (fun qr symbol =>
            match adjGet adj curr symbol with
            | some next_state =>
              if next_state ∈ qr.2 then qr
              else (qr.1 ++ [next_state], qr.2 ++ [next_state])
            | none => qr) (queue, reach)).1 = queue ++ news ∧
        (al.foldl (fun qr symbol =>
            match adjGet adj curr symbol with
            | some next_state =>
              if next_state ∈ qr.2 then qr
              else (qr.1 ++ [next_state], qr.2 ++ [next_state])
            | none => qr) (queue, reach)).2 = reach ++ news ∧
        news.Nodup ∧ (∀ y ∈ news, y ∉ reach) ∧
        (∀ y ∈ news, ∃ a ∈ al, adjGet adj curr a = some y) ∧
        (∀ a ∈ al, ∀ t, adjGet adj curr a = some t → t ∈ reach ++ news) := by
  intro al
  induction al with
  | nil =>
    intro queue reach
    refine ⟨[], by simp, by simp, List.nodup_nil, ?_, ?_, ?_⟩
    · intro y hy
      cases hy
    · intro y hy
      cases hy
    · intro a ha
      cases ha
  | cons a al ih =>
    intro queue reach
    rw [List.foldl_cons]
    cases hga : adjGet adj curr a with
    | none =>
      dsimp only
      obtain ⟨news, h1, h2, h3, h4, h5, h6⟩ := ih queue reach
      refine ⟨news, h1, h2, h3, h4, ?_, ?_⟩
      · intro y hy
        obtain ⟨a2, ha2, hg2⟩ := h5 y hy
        exact ⟨a2, List.mem_cons_of_mem a ha2, hg2⟩
      · intro a2 ha2 t hgt
        rcases List.mem_cons.mp ha2 with rfl | hmem
        · rw [hga] at hgt
          cases hgt
        · exact h6 a2 hmem t hgt
    | some nxt =>
      dsimp only
      by_cases hm : nxt ∈ reach
      · rw [if_pos hm]
        obtain ⟨news, h1, h2, h3, h4, h5, h6⟩ := ih queue reach
        refine ⟨news, h1, h2, h3, h4, ?_, ?_⟩
        · intro y hy
          obtain ⟨a2, ha2, hg2⟩ := h5 y hy
          exact ⟨a2, List.mem_cons_of_mem a ha2, hg2⟩
        · intro a2 ha2 t hgt
          rcases List.mem_cons.mp ha2 with rfl | hmem
          · rw [hga] at hgt
            injection hgt with hgt
            subst hgt
            exact List.mem_append.mpr (Or.inl hm)
          · exact h6 a2 hmem t hgt
      · rw [if_neg hm]
        obtain ⟨news, h1, h2, h3, h4, h5, h6⟩ := ih (queue ++ [nxt]) (reach ++ [nxt])
        have hnn : nxt ∉ news := by
          intro hc
          exact h4 nxt hc (List.mem_append.mpr (Or.inr (List.mem_singleton.mpr rfl)))
        refine ⟨nxt :: news, ?_, ?_, ?_, ?_, ?_, ?_⟩
        · rw [h1, List.append_assoc]
          rfl
        · rw [h2, List.append_assoc]
          rfl
        · exact List.nodup_cons.mpr ⟨hnn, h3⟩
        · intro y hy
          rcases List.mem_cons.mp hy with rfl | hmem
          · exact hm
          · intro hc
            exact h4 y hmem (List.mem_append.mpr (Or.inl hc))
        · intro y hy
          rcases List.mem_cons.mp hy with rfl | hmem
          · exact ⟨a, List.mem_cons_self a al, hga⟩
          · obtain ⟨a2, ha2, hg2⟩ := h5 y hmem
            exact ⟨a2, List.mem_cons_of_mem a ha2, hg2⟩
        · intro a2 ha2 t hgt
          rcases List.mem_cons.mp ha2 with rfl | hmem
          · rw [hga] at hgt
            injection hgt with hgt
            subst hgt
            exact List.mem_append.mpr (Or.inr (List.mem_cons_self _ _))
          · have ht := h6 a2 hmem t hgt
            rw [List.append_assoc] at ht
            simpa using ht

/-- `bfsStep` in terms of the fold specification. -/
theorem bfsStep_spec (adj : Dict String (Dict String String))
    (alphabet : List String) (curr : String) (queue reach : List String) :
    ∃ news : List String,
      (bfsStep adj alphabet curr queue reach).1 = queue ++ news ∧
      (bfsStep adj alphabet curr queue reach).2 = reach ++ news ∧
      news.Nodup ∧ (∀ y ∈ news, y ∉ reach) ∧
      (∀ y ∈ news, ∃ a ∈ alphabet, adjGet adj curr a = some y) ∧
      (∀ a ∈ alphabet, ∀ t, adjGet adj curr a = some t → t ∈ reach ++ news) := by
  unfold bfsStep
  exact bfsFold_spec adj curr alphabet queue reach

/-- The BFS loop with sufficient fuel drains the queue and returns a
duplicate-free set containing its seeds, bounded by the candidate ids, and
closed under the adjacency successors over the alphabet. -/
theorem bfsLoop_spec (adj : Dict String (Dict String String))
    (alphabet : List String) (allowed : List String)
    (_hallowed : allowed.Nodup)
    (hsucc : ∀ q a t, adjGet adj q a = some t → t ∈ allowed) :
    ∀ (fuel : Nat) (queue reach : List String),
      (∀ x ∈ queue, x ∈ reach) → reach.Nodup → (∀ x ∈ reach, x ∈ allowed) →
      (∀ q ∈ reach, q ∈ queue ∨
        ∀ a ∈ alphabet, ∀ t, adjGet adj q a = some t → t ∈ reach) →
      queue.length + allowed.length ≤ fuel + reach.length →
      (∀ x ∈ reach, x ∈ bfsLoop adj alphabet fuel queue reach) ∧
      (bfsLoop adj alphabet fuel queue reach).Nodup ∧
      (∀ x ∈ bfsLoop adj alphabet fuel queue reach, x ∈ allowed) ∧
      (∀ q ∈ bfsLoop adj alphabet fuel queue reach, ∀ a ∈ alphabet, ∀ t,
        adjGet adj q a = some t → t ∈ bfsLoop adj alphabet fuel queue reach) := by
  intro fuel
  induction fuel with
  | zero =>
    intro queue reach hq hnd hsub hinv hfuel
    cases queue with
    | nil =>
      refine ⟨fun x hx => hx, hnd, hsub, ?_⟩
      intro q hq2 a ha t hgt
      rcases hinv q hq2 with hc | hc
      · cases hc
      · exact hc a ha t hgt
    | cons c rest =>
      exfalso
      have hlen : reach.length ≤ allowed.length :=
        (List.Nodup.subperm hnd hsub).length_le
      simp only [List.length_cons] at hfuel
      omega
  | succ n ih =>
    intro queue reach hq hnd hsub hinv hfuel
    cases queue with
    | nil =>
      refine ⟨fun x hx => hx, hnd, hsub, ?_⟩
      intro q hq2 a ha t hgt
      rcases hinv q hq2 with hc | hc
      · cases hc
      · exact hc a ha t hgt
    | cons c rest =>
      obtain ⟨news, h1, h2, h3, h4, h5, h6⟩ := bfsStep_spec adj alphabet c rest reach
      have hstep : bfsLoop adj alphabet (n + 1) (c :: rest) reach =
          bfsLoop adj alphabet n (rest ++ news) (reach ++ news) := by
        show bfsLoop adj alphabet n (bfsStep adj alphabet c rest reach).1
          (bfsStep adj alphabet c rest reach).2 =
          bfsLoop adj alphabet n (rest ++ news) (reach ++ news)
        rw [h1, h2]
      rw [hstep]
      have inv1 : ∀ x ∈ rest ++ news, x ∈ reach ++ news := by
        intro x hx
        rcases List.mem_append.mp hx with hx | hx
        · exact List.mem_append.mpr
            (Or.inl (hq x (List.mem_cons_of_mem c hx)))
        · exact List.mem_append.mpr (Or.inr hx)
      have inv2 : (reach ++ news).Nodup := by
        rw [List.nodup_append]
        exact ⟨hnd, h3, fun x hx1 hx2 => h4 x hx2 hx1⟩
      have inv3 : ∀ x ∈ reach ++ news, x ∈ allowed := by
        intro x hx
        rcases List.mem_append.mp hx with hx | hx
        · exact hsub x hx
        · obtain ⟨a2, _, hg2⟩ := h5 x hx
          exact hsucc c a2 x hg2
      have inv4 : ∀ q ∈ reach ++ news, q ∈ rest ++ news ∨
          ∀ a ∈ alphabet, ∀ t, adjGet adj q a = some t → t ∈ reach ++ news := by
        intro q hq2
        rcases List.mem_append.mp hq2 with hq2 | hq2
        · rcases hinv q hq2 with hc | hc
          · rcases List.mem_cons.mp hc with rfl | hmem
            · exact Or.inr h6
            · exact Or.inl (List.mem_append.mpr (Or.inl hmem))
          · refine Or.inr ?_
            intro a ha t hgt
            exact List.mem_append.mpr (Or.inl (hc a ha t hgt))
        · exact Or.inl (List.mem_append.mpr (Or.inr hq2))
      have inv5 : (rest ++ news).length + allowed.length ≤
          n + (reach ++ news).length := by
        simp only [List.length_append]
        simp only [List.length_cons] at hfuel
        omega
      obtain ⟨m1, m2, m3, m4⟩ := ih (rest ++ news) (reach ++ news)
        inv1 inv2 inv3 inv4 inv5
      refine ⟨?_, m2, m3, m4⟩
      intro x hx
      exact m1 x (List.mem_append.mpr (Or.inl hx))

/-- Phase 1 of `minimize_dfa`: the reachable set contains the start id, is
duplicate-free, and is closed under adjacency successors over the
alphabet. -/
theorem reachableOf_spec (d : DFA) (st : State) :
    st.id ∈ reachableOf d st ∧ (reachableOf d st).Nodup ∧
    (∀ q ∈ reachableOf d st, ∀ a ∈ d.alphabet, ∀ t,
      adjGet (buildAdj d) q a = some t → t ∈ reachableOf d st) := by
  have hsucc : ∀ q a t, adjGet (buildAdj d) q a = some t →
      t ∈ (st.id :: d.transitions.map (fun tr => tr.dst)).dedup := by
    intro q a t h
    rw [adjGet_buildAdj] at h
    cases hl : (d.transitions.filter (matchTrans q a)).getLast? with
    | none =>
      rw [hl] at h
      cases h
    | some tr =>
      rw [hl] at h
      injection h with h
      subst h
      have htr : tr ∈ d.transitions :=
        List.mem_of_mem_filter (List.mem_of_getLast?_eq_some hl)
      exact List.mem_dedup.mpr
        (List.mem_cons_of_mem _ (List.mem_map.mpr ⟨tr, htr, rfl⟩))
  have hand : (st.id :: d.transitions.map (fun tr => tr.dst)).dedup.Nodup :=
    List.nodup_dedup _
  have hfuel : (1 : Nat) +
      (st.id :: d.transitions.map (fun tr => tr.dst)).dedup.length ≤
      (d.transitions.length + 1) + 1 := by
    have h1 := (List.dedup_sublist
      (st.id :: d.transitions.map (fun tr => tr.dst))).length_le
    simp only [List.length_cons, List.length_map] at h1
    omega
  have h := bfsLoop_spec (buildAdj d) d.alphabet _ hand hsucc
    (d.transitions.length + 1) [st.id] [st.id]
    (fun x hx => hx) (List.nodup_singleton _)
    (fun x hx => by
      rcases List.mem_singleton.mp hx with rfl
      exact List.mem_dedup.mpr (List.mem_cons_self _ _))
    (fun q hq => Or.inl hq)
    (by simpa using hfuel)
  exact ⟨h.1 st.id (List.mem_singleton.mpr rfl), h.2.1, h.2.2.2⟩

/-! ### The final partitions under well-formed input -/

/-- The loop preserves the member permutation and group invariants. -/
theorem refineLoop_perm_invariants (alphabet : List String)
    (adj : Dict String (Dict String String)) :
    ∀ (fuel : Nat) (P : List (List String)) (steps : List RefStep) (it : Nat),
      (∀ g ∈ P, g.Nodup) → (∀ g ∈ P, g ≠ []) →
      ((refineLoop alphabet adj fuel P steps it).1.flatten).Perm P.flatten ∧
      (∀ g ∈ (refineLoop alphabet adj fuel P steps it).1, g.Nodup) ∧
      (∀ g ∈ (refineLoop alphabet adj fuel P steps it).1, g ≠ []) := by
  intro fuel
  induction fuel with
  | zero =>
    intro P steps it hnd hne
    exact ⟨List.Perm.refl _, hnd, hne⟩
  | succ n ih =>
    intro P steps it hnd hne
    unfold refineLoop
    by_cases hc : (refineStep alphabet adj P).2
    · rw [if_pos hc]
      obtain ⟨p1, p2, p3⟩ := ih (refineStep alphabet adj P).1 _ _
        (refineStep_nodup alphabet adj P hnd) (refineStep_ne_nil alphabet adj P hne)
      exact ⟨p1.trans (refineStep_join_perm alphabet adj P hnd), p2, p3⟩
    · rw [if_neg hc]
      exact ⟨refineStep_join_perm alphabet adj P hnd,
        refineStep_nodup alphabet adj P hnd, refineStep_ne_nil alphabet adj P hne⟩

/-- Every resulting group of a pass is contained in one input group. -/
theorem refineStep_subset (alphabet : List String)
    (adj : Dict String (Dict String String)) (P : List (List String)) :
    ∀ g2 ∈ (refineStep alphabet adj P).1, ∃ g ∈ P, ∀ x ∈ g2, x ∈ g := by
  unfold refineStep
  have hmain : ∀ (Q : List (List String)) (acc : List (List String) × Bool),
      (∀ g2 ∈ acc.1, ∃ g ∈ P, ∀ x ∈ g2, x ∈ g) →
      (∀ g ∈ Q, g ∈ P) →
      ∀ g2 ∈ (Q.foldl (fun acc group =>
          if group.length ≤ 1 then (acc.1 ++ [group], acc.2)
          else (acc.1 ++ splitGroup alphabet adj P group,
                acc.2 || decide (1 < (splitGroup alphabet adj P group).length)))
          acc).1, ∃ g ∈ P, ∀ x ∈ g2, x ∈ g := by
    intro Q
    induction Q with
    | nil =>
      intro acc hacc _
      exact hacc
    | cons group Q ih =>
      intro acc hacc hQ
      rw [List.foldl_cons]
      by_cases hlen : group.length ≤ 1
      · rw [if_pos hlen]
        refine ih _ ?_ (fun g hg => hQ g (List.mem_cons_of_mem group hg))
        intro g2 hg2
        rcases List.mem_append.mp hg2 with h | h
        · exact hacc g2 h
        · rcases List.mem_singleton.mp h with rfl
          exact ⟨g2, hQ g2 (List.mem_cons_self _ _), fun x hx => hx⟩
      · rw [if_neg hlen]
        refine ih _ ?_ (fun g hg => hQ g (List.mem_cons_of_mem group hg))
        intro g2 hg2
        rcases List.mem_append.mp hg2 with h | h
        · exact hacc g2 h
        · exact ⟨group, hQ group (List.mem_cons_self _ _),
            fun x hx => splitGroup_mem alphabet adj P group g2 x h hx⟩
  exact hmain P ([], false) (fun g2 hg2 => absurd hg2 (List.not_mem_nil g2))
    (fun g hg => hg)

/-- Every group returned by the loop is contained in one starting group. -/
theorem refineLoop_subset (alphabet : List String)
    (adj : Dict String (Dict String String)) :
    ∀ (fuel : Nat) (P : List (List String)) (steps : List RefStep) (it : Nat),
      ∀ g2 ∈ (refineLoop alphabet adj fuel P steps it).1,
        ∃ g ∈ P, ∀ x ∈ g2, x ∈ g := by
  intro fuel
  induction fuel with
  | zero =>
    intro P steps it g2 hg2
    exact ⟨g2, hg2, fun x hx => hx⟩
  | succ n ih =>
    intro P steps it g2 hg2
    unfold refineLoop at hg2
    by_cases hc : (refineStep alphabet adj P).2
    · rw [if_pos hc] at hg2
      obtain ⟨g1, hg1, hsub1⟩ := ih _ _ _ g2 hg2
      obtain ⟨g0, hg0, hsub0⟩ := refineStep_subset alphabet adj P g1 hg1
      exact ⟨g0, hg0, fun x hx => hsub0 x (hsub1 x hx)⟩
    · rw [if_neg hc] at hg2
      exact refineStep_subset alphabet adj P g2 hg2

/-- Full membership characterisation of the guarded `setAdd` fold. -/
theorem mem_foldl_setAdd_iff (pred : State → Bool) (l : List State) :
    ∀ (acc : List String) (x : String),
      x ∈ l.foldl (fun acc s => if pred s then setAdd acc s.id else acc) acc ↔
      (x ∈ acc ∨ ∃ s ∈ l, s.id = x ∧ pred s = true) := by
  induction l with
  | nil =>
    intro acc x
    constructor
    · exact Or.inl
    · intro h
      rcases h with h | ⟨s, hs, _⟩
      · exact h
      · cases hs
  | cons s l ih =>
    intro acc x
    rw [List.foldl_cons]
    constructor
    · intro h
      rcases (ih _ x).mp h with hacc | ⟨s2, hs2, he, hp⟩
      · by_cases hp : pred s
        · rw [if_pos hp] at hacc
          rcases mem_setAdd hacc with h1 | h1
          · exact Or.inl h1
          · exact Or.inr ⟨s, List.mem_cons_self s l, h1.symm, hp⟩
        · rw [if_neg hp] at hacc
          exact Or.inl hacc
      · exact Or.inr ⟨s2, List.mem_cons_of_mem s hs2, he, hp⟩
    · intro h
      apply (ih _ x).mpr
      rcases h with hacc | ⟨s2, hs2, he, hp⟩
      · left
        by_cases hps : pred s
        · rw [if_pos hps]
          exact mem_setAdd_of_mem hacc
        · rw [if_neg hps]
          exact hacc
      · rcases List.mem_cons.mp hs2 with rfl | hmem
        · left
          rw [if_pos hp]
          exact he ▸ mem_setAdd_self _ _
        · right
          exact ⟨s2, hmem, he, hp⟩

/-- Membership in the flattened initial partition is membership in the
active ids. -/
theorem mem_initialPartitions_flatten (active : List State) (x : String) :
    x ∈ (initialPartitionsOf active).flatten ↔ ∃ s ∈ active, s.id = x := by
  constructor
  · intro h
    rcases List.mem_flatten.mp h with ⟨g, hg, hx⟩
    exact initialPartitions_mem active g x hg hx
  · intro ⟨s, hs, he⟩
    apply List.mem_flatten.mpr
    by_cases hf : s.isFinal
    · refine ⟨finalSetOf active, ?_, ?_⟩
      · unfold initialPartitionsOf
        have hmem : s.id ∈ finalSetOf active :=
          foldl_setAdd_mem_of _ active [] s hs hf
        have hie : ¬ (finalSetOf active).isEmpty := by
          intro hc
          rw [List.isEmpty_iff] at hc
          rw [hc] at hmem
          cases hmem
        rw [if_neg hie]
        exact List.mem_append.mpr (Or.inl (List.mem_singleton.mpr rfl))
      · exact he ▸ foldl_setAdd_mem_of _ active [] s hs hf
    · have hf2 : (!s.isFinal) = true := by
        simp only [Bool.not_eq_true] at hf
        simp [hf]
      refine ⟨nonFinalSetOf active, ?_, ?_⟩
      · unfold initialPartitionsOf
        have hmem : s.id ∈ nonFinalSetOf active :=
          foldl_setAdd_mem_of _ active [] s hs hf2
        have hie : ¬ (nonFinalSetOf active).isEmpty := by
          intro hc
          rw [List.isEmpty_iff] at hc
          rw [hc] at hmem
          cases hmem
        rw [if_neg hie]
        exact List.mem_append.mpr (Or.inr (List.mem_singleton.mpr rfl))
      · exact he ▸ foldl_setAdd_mem_of _ active [] s hs hf2

/-- The ids of the active states are distinct when all state ids are. -/
theorem activeIds_nodup (d : DFA) (st : State)
    (hnd : (d.states.map (fun s => s.id)).Nodup) :
    ((activeStatesOf d st).map (fun s => s.id)).Nodup := by
  have hsub : List.Sublist
      ((activeStatesOf d st).map (fun s => s.id))
      (d.states.map (fun s => s.id)) := by
    unfold activeStatesOf
    exact (List.filter_sublist d.states).map _
  exact hnd.sublist hsub

/-- Two active states with one id are one state. -/
theorem active_id_inj (d : DFA) (st : State)
    (hnd : (d.states.map (fun s => s.id)).Nodup) (s1 s2 : State)
    (h1 : s1 ∈ activeStatesOf d st) (h2 : s2 ∈ activeStatesOf d st)
    (he : s1.id = s2.id) : s1 = s2 :=
  List.inj_on_of_nodup_map (activeIds_nodup d st hnd) h1 h2 he

/-- The unique active record of an active id. -/
theorem firstActive_eq (active : List State)
    (hnd : (active.map (fun s => s.id)).Nodup) (s : State) (hs : s ∈ active) :
    firstActive active s.id = some s := by
  apply find?_eq_some_of_unique
  · exact hs
  · exact decide_eq_true rfl
  · intro y hy hpy
    exact List.inj_on_of_nodup_map hnd hy hs (of_decide_eq_true hpy)

/-- Under distinct ids the flattened initial partition has no
duplicates. -/
theorem initialPartitions_flatten_nodup (d : DFA) (st : State)
    (hnd : (d.states.map (fun s => s.id)).Nodup) :
    ((initialPartitionsOf (activeStatesOf d st)).flatten).Nodup := by
  have hdisj : ∀ x, x ∈ finalSetOf (activeStatesOf d st) →
      x ∈ nonFinalSetOf (activeStatesOf d st) → False := by
    intro x hx1 hx2
    rcases (mem_foldl_setAdd_iff _ _ [] x).mp hx1 with h | ⟨s1, hs1, he1, hp1⟩
    · cases h
    rcases (mem_foldl_setAdd_iff _ _ [] x).mp hx2 with h | ⟨s2, hs2, he2, hp2⟩
    · cases h
    have : s1 = s2 := active_id_inj d st hnd s1 s2 hs1 hs2 (by rw [he1, he2])
    subst this
    rw [hp1] at hp2
    cases hp2
  have hnd1 : (finalSetOf (activeStatesOf d st)).Nodup :=
    foldl_setAdd_nodup _ _ [] List.nodup_nil
  have hnd2 : (nonFinalSetOf (activeStatesOf d st)).Nodup :=
    foldl_setAdd_nodup _ _ [] List.nodup_nil
  unfold initialPartitionsOf
  by_cases h1 : (finalSetOf (activeStatesOf d st)).isEmpty <;>
    by_cases h2 : (nonFinalSetOf (activeStatesOf d st)).isEmpty <;>
      simp [h1, h2, List.nodup_append]
  · exact hnd2
  · exact hnd1
  · exact ⟨hnd1, hnd2, fun x hx1 hx2 => hdisj x hx1 hx2⟩

/-- The final partitions are a fixpoint: the next pass neither changes the
list nor reports a change. -/
theorem refineResult_fix (d : DFA) (st : State)
    (hst : startStateOf d = some st) :
    (refineStep d.alphabet (buildAdj d) (refineResultOf d st).1).2 = false ∧
    (refineStep d.alphabet (buildAdj d) (refineResultOf d st).1).1 =
      (refineResultOf d st).1 := by
  have hnd0 := initialPartitions_nodup (activeStatesOf d st)
  have hne0 := initialPartitions_ne (activeStatesOf d st)
  have hjoin := initialPartitions_join_le (activeStatesOf d st)
  have hactive : activeStatesOf d st ≠ [] := by
    intro hc
    have := start_mem_active d st hst
    rw [hc] at this
    cases this
  have hP0 := initialPartitions_ne_nil (activeStatesOf d st) hactive
  rw [refineResultOf_eq]
  apply refineLoop_exit d.alphabet (buildAdj d)
    ((activeStatesOf d st).length + 1)
    (initialPartitionsOf (activeStatesOf d st)) _ 0 hnd0
  rcases refineIter_exists_unchanged d.alphabet (buildAdj d) _
    (activeStatesOf d st).length hnd0 hne0 hjoin hP0 with ⟨k, hk, hkf⟩
  exact ⟨k, by omega, hkf⟩

/-- Invariants of the final partitions: member permutation with the initial
partition, duplicate-free and non-empty groups. -/
theorem refineResult_invariants (d : DFA) (st : State) :
    ((refineResultOf d st).1.flatten).Perm
      ((initialPartitionsOf (activeStatesOf d st)).flatten) ∧
    (∀ g ∈ (refineResultOf d st).1, g.Nodup) ∧
    (∀ g ∈ (refineResultOf d st).1, g ≠ []) := by
  rw [refineResultOf_eq]
  exact refineLoop_perm_invariants d.alphabet (buildAdj d) _ _ _ 0
    (initialPartitions_nodup (activeStatesOf d st))
    (initialPartitions_ne (activeStatesOf d st))

/-- At an unchanged pass every group is signature-homogeneous. -/
theorem partition_sig_homog (alphabet : List String)
    (adj : Dict String (Dict String String)) (P : List (List String))
    (hnd : ∀ g ∈ P, g.Nodup)
    (hfl : (refineStep alphabet adj P).2 = false) :
    ∀ g ∈ P, ∀ x ∈ g, ∀ y ∈ g,
      sigOf alphabet adj P x = sigOf alphabet adj P y := by
  intro g hg x hx y hy
  have hns := (refineStep_fold_flag_false alphabet adj P P ([], false)
    (by exact hfl)).2
  by_cases hlen : 1 < g.length
  · have hle1 := hns g hg hlen
    have hgne : g ≠ [] := by
      intro hc
      rw [hc] at hlen
      simp at hlen
    have hge1 := splitGroup_length_pos alphabet adj P g hgne
    have hlen1 : (splitGroup alphabet adj P g).length = 1 := by omega
    rcases List.length_eq_one.mp hlen1 with ⟨v, hv⟩
    have hperm0 := splitGroup_join_perm alphabet adj P g (hnd g hg)
    rw [hv] at hperm0
    have hperm : v.Perm g := by simpa using hperm0
    exact splitGroup_sig_eq alphabet adj P g v x y
      (hv ▸ List.mem_singleton.mpr rfl)
      (hperm.mem_iff.mpr hx) (hperm.mem_iff.mpr hy)
  · have hxy : x = y := by
      cases g with
      | nil => cases hx
      | cons z t =>
        cases t with
        | nil =>
          rcases List.mem_singleton.mp hx with rfl
          rcases List.mem_singleton.mp hy with rfl
          rfl
        | cons w t2 => simp at hlen
    rw [hxy]

/-! ### Closed form of the quotient-state construction -/

/-- The unique active record of an id (total helper used to express the
merged states once all lookups are known to succeed). -/
def activeLookup (active : List State) (sid : String) : State :=
  (firstActive active sid).getD { id := sid }

/-- A successful `firstActive` returns the `activeLookup` record. -/
theorem firstActive_eq_lookup (active : List State) (sid : String)
    (h : (firstActive active sid).isSome) :
    firstActive active sid = some (activeLookup active sid) := by
  unfold activeLookup
  cases hf : firstActive active sid with
  | none =>
    rw [hf] at h
    cases h
  | some s => rfl

/-- The merged state built from one partition, in closed form. -/
def mergedStateOf (active : List State) (idx : Nat) (p : List String) : State :=
  { id := "P" ++ Nat.repr idx, name := none,
    label := some ("\x7b" ++ joinComma p ++ "\x7d"),
    x := (p.map (fun sid => (activeLookup active sid).x)).foldl
      (fun a b => a + b) 0 / (p.length : Rat),
    y := (p.map (fun sid => (activeLookup active sid).y)).foldl
      (fun a b => a + b) 0 / (p.length : Rat),
    isStart := (p.map (fun sid => (activeLookup active sid).isStart)).any
      (fun b => b),
    isFinal := (p.map (fun sid => (activeLookup active sid).isFinal)).any
      (fun b => b) }

/-- The merged states of all partitions from a given index. -/
def mergedStatesOf (active : List State) :
    List (List String) → Nat → List State
  | [], _ => []
  | p :: rest, idx =>
    mergedStateOf active idx p :: mergedStatesOf active rest (idx + 1)

/-- The `state_to_partition` dict in closed form. -/
def stpFold : List (List String) → Nat → Dict String String → Dict String String
  | [], _, stp => stp
  | p :: rest, idx, stp =>
    stpFold rest (idx + 1)
      (p.foldl (fun m sid => dset m sid ("P" ++ Nat.repr idx)) stp)

/-- When every partition is non-empty and every member has an active
record, the merged-state loop succeeds and produces the closed forms. -/
theorem quotientStatesGo_eq (active : List State) :
    ∀ (parts : List (List String)) (idx : Nat) (mst0 : List State)
      (stp0 : Dict String String),
      (∀ p ∈ parts, p ≠ []) →
      (∀ p ∈ parts, ∀ x ∈ p, (firstActive active x).isSome) →
      quotientStatesGo active parts idx mst0 stp0 =
        some (mst0 ++ mergedStatesOf active parts idx, stpFold parts idx stp0) := by
  intro parts
  induction parts with
  | nil =>
    intro idx mst0 stp0 _ _
    simp [quotientStatesGo, mergedStatesOf, stpFold]
  | cons p rest ih =>
    intro idx mst0 stp0 hne hsome
    unfold quotientStatesGo
    have hpne : ¬ (p.length = 0) := by
      intro hc
      exact hne p (List.mem_cons_self _ _) (List.length_eq_zero.mp hc)
    rw [if_neg hpne]
    have h1 : p.mapM (fun sid => (firstActive active sid).map (fun s => s.x)) =
        some (p.map (fun sid => (activeLookup active sid).x)) := by
      apply mapM_option_of_forall_some
      intro sid hsid
      rw [firstActive_eq_lookup active sid
        (hsome p (List.mem_cons_self _ _) sid hsid)]
      rfl
    have h2 : p.mapM (fun sid => (firstActive active sid).map (fun s => s.y)) =
        some (p.map (fun sid => (activeLookup active sid).y)) := by
      apply mapM_option_of_forall_some
      intro sid hsid
      rw [firstActive_eq_lookup active sid
        (hsome p (List.mem_cons_self _ _) sid hsid)]
      rfl
    have h3 : p.mapM (fun sid =>
        (firstActive active sid).map (fun s => s.isStart)) =
        some (p.map (fun sid => (activeLookup active sid).isStart)) := by
      apply mapM_option_of_forall_some
      intro sid hsid
      rw [firstActive_eq_lookup active sid
        (hsome p (List.mem_cons_self _ _) sid hsid)]
      rfl
    have h4 : p.mapM (fun sid =>
        (firstActive active sid).map (fun s => s.isFinal)) =
        some (p.map (fun sid => (activeLookup active sid).isFinal)) := by
      apply mapM_option_of_forall_some
      intro sid hsid
      rw [firstActive_eq_lookup active sid
        (hsome p (List.mem_cons_self _ _) sid hsid)]
      rfl
    rw [h1, h2, h3, h4]
    dsimp only
    rw [ih (idx + 1) _ _
      (fun p2 hp2 => hne p2 (List.mem_cons_of_mem p hp2))
      (fun p2 hp2 => hsome p2 (List.mem_cons_of_mem p hp2))]
    show some _ = some _
    congr 1
    refine Prod.ext ?_ rfl
    show (mst0 ++ [mergedStateOf active idx p]) ++
        mergedStatesOf active rest (idx + 1) =
      mst0 ++ mergedStatesOf active (p :: rest) idx
    rw [List.append_assoc]
    rfl

/-- Lookup through the per-partition `state_to_partition` writes. -/
theorem dget_foldl_dset (p : List String) (pid : String) :
    ∀ (m : Dict String String) (x : String),
      dget (p.foldl (fun m sid => dset m sid pid) m) x =
        if x ∈ p then some pid else dget m x := by
  induction p with
  | nil =>
    intro m x
    rw [if_neg (List.not_mem_nil x)]
    rfl
  | cons sid p ih =>
    intro m x
    rw [List.foldl_cons, ih]
    by_cases hx : x ∈ p
    · rw [if_pos hx, if_pos (List.mem_cons_of_mem sid hx)]
    · rw [if_neg hx, dget_dset]
      by_cases he : sid = x
      · rw [if_pos he, if_pos (he ▸ List.mem_cons_self sid p)]
      · rw [if_neg he, if_neg ?_]
        intro hc
        rcases List.mem_cons.mp hc with h | h
        · exact he h.symm
        · exact hx h

/-- Ids in no partition keep their previous mapping. -/
theorem stpFold_lookup_notmem :
    ∀ (parts : List (List String)) (idx : Nat) (stp0 : Dict String String)
      (x : String), (∀ p ∈ parts, x ∉ p) →
      dget (stpFold parts idx stp0) x = dget stp0 x := by
  intro parts
  induction parts with
  | nil =>
    intro idx stp0 x _
    rfl
  | cons p rest ih =>
    intro idx stp0 x hx
    unfold stpFold
    rw [ih _ _ x (fun p2 hp2 => hx p2 (List.mem_cons_of_mem p hp2))]
    rw [dget_foldl_dset, if_neg (hx p (List.mem_cons_self _ _))]

/-- With disjoint partitions a member id maps to its partition index. -/
theorem stpFold_lookup_mem :
    ∀ (parts : List (List String)) (idx : Nat) (stp0 : Dict String String)
      (x : String) (i : Nat),
      parts.findIdx? (fun p => decide (x ∈ p)) = some i →
      List.Pairwise List.Disjoint parts →
      dget (stpFold parts idx stp0) x = some ("P" ++ Nat.repr (idx + i)) := by
  intro parts
  induction parts with
  | nil =>
    intro idx stp0 x i h
    cases h
  | cons p rest ih =>
    intro idx stp0 x i h hdisj
    rw [List.findIdx?_cons] at h
    by_cases hx : x ∈ p
    · rw [if_pos (decide_eq_true hx)] at h
      injection h with h
      subst h
      unfold stpFold
      rw [stpFold_lookup_notmem rest _ _ x
        (fun r hr hc => (List.pairwise_cons.mp hdisj).1 r hr hx hc)]
      rw [dget_foldl_dset, if_pos hx]
      simp
    · rw [if_neg (by simpa using hx), List.findIdx?_succ] at h
      cases hf : rest.findIdx? (fun p => decide (x ∈ p)) with
      | none =>
        rw [hf] at h
        cases h
      | some j =>
        rw [hf] at h
        have hj : j + 1 = i := by injection h
        subst hj
        unfold stpFold
        rw [ih (idx + 1) _ x j hf (List.pairwise_cons.mp hdisj).2]
        have ha : idx + 1 + j = idx + (j + 1) := by omega
        rw [ha]

/-- Length of the merged-state list. -/
theorem mergedStatesOf_length (active : List State) :
    ∀ (parts : List (List String)) (idx : Nat),
      (mergedStatesOf active parts idx).length = parts.length := by
  intro parts
  induction parts with
  | nil =>
    intro idx
    rfl
  | cons p rest ih =>
    intro idx
    show (mergedStatesOf active rest (idx + 1)).length + 1 = rest.length + 1
    rw [ih]

/-- Membership in the merged-state list. -/
theorem mergedStatesOf_mem (active : List State) :
    ∀ (parts : List (List String)) (idx : Nat) (y : State),
      y ∈ mergedStatesOf active parts idx ↔
        ∃ k, ∃ hk : k < parts.length,
          y = mergedStateOf active (idx + k) (parts.get ⟨k, hk⟩) := by
  intro parts
  induction parts with
  | nil =>
    intro idx y
    constructor
    · intro h
      cases h
    · intro ⟨k, hk, _⟩
      cases hk
  | cons p rest ih =>
    intro idx y
    constructor
    · intro h
      rcases List.mem_cons.mp h with rfl | hmem
      · exact ⟨0, by simp, by simp⟩
      · rcases (ih (idx + 1) y).mp hmem with ⟨k, hk, he⟩
        refine ⟨k + 1, by simpa using Nat.succ_lt_succ hk, ?_⟩
        rw [he]
        congr 1
        omega
    · intro ⟨k, hk, he⟩
      cases k with
      | zero =>
        simp only [Nat.add_zero] at he
        subst he
        exact List.mem_cons_self _ _
      | succ k2 =>
        apply List.mem_cons_of_mem
        apply (ih (idx + 1) y).mpr
        refine ⟨k2, by simpa using Nat.lt_of_succ_lt_succ hk, ?_⟩
        rw [he]
        congr 1
        omega

/-- Indexing into the merged-state list. -/
theorem mergedStatesOf_get (active : List State) :
    ∀ (parts : List (List String)) (idx : Nat) (k : Nat) (hk : k < parts.length),
      (mergedStatesOf active parts idx).get
        ⟨k, by rw [mergedStatesOf_length]; exact hk⟩ =
        mergedStateOf active (idx + k) (parts.get ⟨k, hk⟩) := by
  intro parts
  induction parts with
  | nil =>
    intro idx k hk
    cases hk
  | cons p rest ih =>
    intro idx k hk
    cases k with
    | zero => rfl
    | succ k2 =>
      have hk2 : k2 < rest.length := Nat.lt_of_succ_lt_succ hk
      have := ih (idx + 1) k2 hk2
      show (mergedStatesOf active rest (idx + 1)).get
        ⟨k2, by rw [mergedStatesOf_length]; exact hk2⟩ = _
      rw [this]
      congr 1
      omega

/-! ### Closed form of the quotient-transition construction -/

/-- The quotient successor determined by a representative: follow its
adjacency on the symbol, keep the target when it is truthy and mapped by
`state_to_partition`. -/
def repDelta (adj : Dict String (Dict String String))
    (stp : Dict String String) (rep a : String) : Option String :=
  match adjGet adj rep a with
  | some target => if target ≠ "" then dget stp target else none
  | none => none

/-- The dedup key recorded for an emitted transition. -/
def tripleOf (t : Transition) : String × String × String :=
  (t.src, t.dst, t.symbol)

/-- The recursion of the transition loop, one partition at a time. -/
theorem quotientTransitionsGo_cons (adj : Dict String (Dict String String))
    (alphabet : List String) (stp : Dict String String)
    (p : List String) (rest : List (List String)) (idx : Nat)
    (mtrans : List Transition) (added : List (String × String × String))
    (rep : String) (hrep : p.head? = some rep) :
    quotientTransitionsGo adj alphabet stp (p :: rest) idx mtrans added =
      quotientTransitionsGo adj alphabet stp rest (idx + 1)
        (alphabet.foldl (qtStep adj ("P" ++ Nat.repr idx) rep stp)
          (mtrans, added)).1
        (alphabet.foldl (qtStep adj ("P" ++ Nat.repr idx) rep stp)
          (mtrans, added)).2 := by
  cases p with
  | nil => cases hrep
  | cons x xs =>
    have hx : x = rep := by injection hrep
    subst hx
    rfl

/-- The inner step in terms of the representative successor. -/
theorem qtStep_eq (adj : Dict String (Dict String String))
    (p_id rep : String) (stp : Dict String String)
    (acc : List Transition × List (String × String × String))
    (symbol : String) :
    qtStep adj p_id rep stp acc symbol =
      match repDelta adj stp rep symbol with
      | some tpid =>
        if (p_id, tpid, symbol) ∈ acc.2 then acc
        else (acc.1 ++ [{ src := p_id, symbol := symbol, dst := tpid }],
              acc.2 ++ [(p_id, tpid, symbol)])
      | none => acc := by
  unfold qtStep repDelta
  cases hadj : adjGet adj rep symbol with
  | none => rfl
  | some target =>
    dsimp only
    by_cases h : target = ""
    · subst h
      simp
    · have h2 : target ≠ "" := h
      rw [if_pos h2, if_pos h2]

/-- Behaviour of the inner alphabet fold: the dedup list mirrors the
emitted transitions, earlier transitions persist, every new transition is
the representative successor of some scanned symbol, and every
representative successor gets emitted. -/
theorem qtFold_spec (adj : Dict String (Dict String String))
    (p_id rep : String) (stp : Dict String String) :
    ∀ (alphabet : List String)
      (acc : List Transition × List (String × String × String)),
      acc.2 = acc.1.map tripleOf →
      ((alphabet.foldl (qtStep adj p_id rep stp) acc).2 =
        (alphabet.foldl (qtStep adj p_id rep stp) acc).1.map tripleOf) ∧
      (∀ t ∈ acc.1, t ∈ (alphabet.foldl (qtStep adj p_id rep stp) acc).1) ∧
      (∀ t ∈ (alphabet.foldl (qtStep adj p_id rep stp) acc).1,
        t ∈ acc.1 ∨ ∃ a ∈ alphabet, t.src = p_id ∧ t.symbol = a ∧
          repDelta adj stp rep a = some t.dst) ∧
      (∀ a ∈ alphabet, ∀ v, repDelta adj stp rep a = some v →
        ({ src := p_id, symbol := a, dst := v } : Transition) ∈
          (alphabet.foldl (qtStep adj p_id rep stp) acc).1) := by
  intro alphabet
  induction alphabet with
  | nil =>
    intro acc hsync
    refine ⟨hsync, fun t ht => ht, fun t ht => Or.inl ht, ?_⟩
    intro a ha
    cases ha
  | cons a alphabet ih =>
    intro acc hsync
    rw [List.foldl_cons]
    have hstep : (qtStep adj p_id rep stp acc a).2 =
        (qtStep adj p_id rep stp acc a).1.map tripleOf ∧
        (∀ t ∈ acc.1, t ∈ (qtStep adj p_id rep stp acc a).1) ∧
        (∀ t ∈ (qtStep adj p_id rep stp acc a).1,
          t ∈ acc.1 ∨ (t.src = p_id ∧ t.symbol = a ∧
            repDelta adj stp rep a = some t.dst)) ∧
        (∀ v, repDelta adj stp rep a = some v →
          ({ src := p_id, symbol := a, dst := v } : Transition) ∈
            (qtStep adj p_id rep stp acc a).1) := by
      rw [qtStep_eq]
      cases hrd : repDelta adj stp rep a with
      | none =>
        dsimp only
        exact ⟨hsync, fun t ht => ht, fun t ht => Or.inl ht,
          fun v hv => Option.noConfusion hv⟩
      | some tpid =>
        dsimp only
        by_cases hmem : (p_id, tpid, a) ∈ acc.2
        · rw [if_pos hmem]
          refine ⟨hsync, fun t ht => ht, fun t ht => Or.inl ht, ?_⟩
          intro v hv
          have hv2 : tpid = v := by injection hv
          subst hv2
          rw [hsync] at hmem
          rcases List.mem_map.mp hmem with ⟨t, ht, htr⟩
          cases t with
          | mk s sy dz =>
            simp only [tripleOf, Prod.mk.injEq] at htr
            obtain ⟨h1, h2, h3⟩ := htr
            subst h1
            subst h2
            subst h3
            exact ht
        · rw [if_neg hmem]
          refine ⟨?_, ?_, ?_, ?_⟩
          · show acc.2 ++ [(p_id, tpid, a)] = _
            rw [hsync, List.map_append]
            rfl
          · intro t ht
            exact List.mem_append.mpr (Or.inl ht)
          · intro t ht
            rcases List.mem_append.mp ht with h | h
            · exact Or.inl h
            · rcases List.mem_singleton.mp h with rfl
              exact Or.inr ⟨rfl, rfl, rfl⟩
          · intro v hv
            have hv2 : tpid = v := by injection hv
            subst hv2
            exact List.mem_append.mpr
              (Or.inr (List.mem_singleton.mpr rfl))
    obtain ⟨hs1, hs2, hs3, hs4⟩ := hstep
    obtain ⟨ih1, ih2, ih3, ih4⟩ := ih (qtStep adj p_id rep stp acc a) hs1
    refine ⟨ih1, ?_, ?_, ?_⟩
    · intro t ht
      exact ih2 t (hs2 t ht)
    · intro t ht
      rcases ih3 t ht with h | ⟨a2, ha2, h⟩
      · rcases hs3 t h with h2 | ⟨h21, h22, h23⟩
        · exact Or.inl h2
        · exact Or.inr ⟨a, List.mem_cons_self _ _, h21, h22, h23⟩
      · exact Or.inr ⟨a2, List.mem_cons_of_mem a ha2, h⟩
    · intro a2 ha2 v hv
      rcases List.mem_cons.mp ha2 with rfl | hmem
      · exact ih2 _ (hs4 v hv)
      · exact ih4 a2 hmem v hv

/-- Behaviour of the transition loop: it succeeds on non-empty partitions,
earlier transitions persist, every transition is the representative
successor of an indexed partition on a scanned symbol, and every
representative successor is emitted. -/
theorem qtGo_spec (adj : Dict String (Dict String String))
    (alphabet : List String) (stp : Dict String String) :
    ∀ (parts : List (List String)) (idx : Nat) (mtrans : List Transition)
      (added : List (String × String × String)),
      (∀ p ∈ parts, p ≠ []) →
      added = mtrans.map tripleOf →
      ∃ final,
        quotientTransitionsGo adj alphabet stp parts idx mtrans added =
          some final ∧
        (∀ t ∈ mtrans, t ∈ final) ∧
        (∀ t ∈ final, t ∈ mtrans ∨ ∃ k, ∃ hk : k < parts.length,
          ∃ a ∈ alphabet, t.src = "P" ++ Nat.repr (idx + k) ∧ t.symbol = a ∧
            repDelta adj stp ((parts.get ⟨k, hk⟩).headD "") a = some t.dst) ∧
        (∀ (k : Nat) (hk : k < parts.length), ∀ a ∈ alphabet, ∀ v,
          repDelta adj stp ((parts.get ⟨k, hk⟩).headD "") a = some v →
          ({ src := "P" ++ Nat.repr (idx + k), symbol := a, dst := v } :
            Transition) ∈ final) := by
  intro parts
  induction parts with
  | nil =>
    intro idx mtrans added _ _
    refine ⟨mtrans, rfl, fun t ht => ht, fun t ht => Or.inl ht, ?_⟩
    intro k hk
    cases hk
  | cons p rest ih =>
    intro idx mtrans added hne hsync
    cases p with
    | nil => exact absurd rfl (hne [] (List.mem_cons_self _ _))
    | cons x xs =>
      have hrep : (x :: xs).head? = some x := rfl
      obtain ⟨hf1, hf2, hf3, hf4⟩ := qtFold_spec adj ("P" ++ Nat.repr idx) x
        stp alphabet (mtrans, added) hsync
      obtain ⟨final, hgo, hm, hs, hc⟩ := ih (idx + 1) _ _
        (fun p2 hp2 => hne p2 (List.mem_cons_of_mem _ hp2)) hf1
      refine ⟨final, ?_, ?_, ?_, ?_⟩
      · rw [quotientTransitionsGo_cons adj alphabet stp (x :: xs) rest idx
          mtrans added x hrep]
        exact hgo
      · intro t ht
        exact hm t (hf2 t ht)
      · intro t ht
        rcases hs t ht with h | ⟨k, hk, a, ha, hsrc, hsym, hrd⟩
        · rcases hf3 t h with h2 | ⟨a, ha, hsrc, hsym, hrd⟩
          · exact Or.inl h2
          · refine Or.inr ⟨0, by simp, a, ha, ?_, hsym, hrd⟩
            rw [hsrc]
            rfl
        · refine Or.inr ⟨k + 1, by simpa using Nat.succ_lt_succ hk, a, ha,
            ?_, hsym, ?_⟩
          · rw [hsrc]
            congr 2
            omega
          · exact hrd
      · intro k hk a ha v hv
        cases k with
        | zero =>
          apply hm
          apply hf4 a ha v
          simpa using hv
        | succ k2 =>
          have hk2 : k2 < rest.length := Nat.lt_of_succ_lt_succ hk
          have := hc k2 hk2 a ha v (by exact hv)
          have harith : idx + 1 + k2 = idx + (k2 + 1) := by omega
          rw [harith] at this
          exact this

/-- The transition lookup of the minimized automaton: on a class id and an
alphabet symbol it is exactly the representative successor. -/
theorem minimized_lookup (adj : Dict String (Dict String String))
    (alphabet : List String) (stp : Dict String String)
    (parts : List (List String)) (final : List Transition)
    (hne : ∀ p ∈ parts, p ≠ [])
    (hgo : quotientTransitionsGo adj alphabet stp parts 0 [] [] = some final)
    (i : Nat) (hi : i < parts.length) (a : String) (ha : a ∈ alphabet) :
    dget (buildTransitions final) ("P" ++ Nat.repr i, a) =
      repDelta adj stp ((parts.get ⟨i, hi⟩).headD "") a := by
  obtain ⟨f2, hgo2, hm, hs, hc⟩ := qtGo_spec adj alphabet stp parts 0 [] []
    hne rfl
  rw [hgo] at hgo2
  have hf2 : final = f2 := by injection hgo2
  subst hf2
  rw [dget_buildTransitions]
  have hsound : ∀ u ∈ final.filter (matchTrans ("P" ++ Nat.repr i) a),
      repDelta adj stp ((parts.get ⟨i, hi⟩).headD "") a = some u.dst := by
    intro u hu
    have humem : u ∈ final := List.mem_of_mem_filter hu
    have hmatch := List.of_mem_filter hu
    unfold matchTrans at hmatch
    obtain ⟨husrc, husym⟩ := of_decide_eq_true hmatch
    rcases hs u humem with h | ⟨k, hk, a2, _, hsrc, hsym, hrd⟩
    · cases h
    · have hik : i = k := by
        apply pid_injective
        rw [← husrc, hsrc, Nat.zero_add]
      subst hik
      have ha2 : a2 = a := by rw [← hsym, husym]
      subst ha2
      exact hrd
  cases hrd : repDelta adj stp ((parts.get ⟨i, hi⟩).headD "") a with
  | none =>
    cases hl : (final.filter (matchTrans ("P" ++ Nat.repr i) a)).getLast? with
    | none => rfl
    | some u =>
      have := hsound u (List.mem_of_getLast?_eq_some hl)
      rw [hrd] at this
      cases this
  | some v =>
    have ht := hc i hi a ha v hrd
    have hmem : ({ src := "P" ++ Nat.repr (0 + i), symbol := a, dst := v } :
        Transition) ∈ final.filter (matchTrans ("P" ++ Nat.repr i) a) := by
      apply List.mem_filter.mpr
      refine ⟨ht, ?_⟩
      unfold matchTrans
      apply decide_eq_true
      exact ⟨by simp, rfl⟩
    cases hl : (final.filter (matchTrans ("P" ++ Nat.repr i) a)).getLast? with
    | none =>
      rw [List.getLast?_eq_none_iff] at hl
      rw [hl] at hmem
      cases hmem
    | some u =>
      have := hsound u (List.mem_of_getLast?_eq_some hl)
      rw [hrd] at this
      have hud : v = u.dst := by injection this
      rw [hud]
      rfl

/-! ### Preservation of acceptance: supporting facts -/

/-- A duplicate-free flattening makes the groups pairwise disjoint. -/
theorem flatten_nodup_disjoint {α : Type} :
    ∀ (L : List (List α)), L.flatten.Nodup → List.Pairwise List.Disjoint L := by
  intro L
  induction L with
  | nil =>
    intro _
    exact List.Pairwise.nil
  | cons g L ih =>
    intro h
    rw [List.flatten_cons, List.nodup_append] at h
    obtain ⟨h1, h2, h3⟩ := h
    refine List.pairwise_cons.mpr ⟨?_, ih h2⟩
    intro l hl x hxg hxl
    exact h3 hxg (List.mem_flatten.mpr ⟨l, hl, hxl⟩)

/-- A count of one means the filtered list is a singleton. -/
theorem countP_one_unique {α : Type} (p : α → Bool) (l : List α)
    (h : l.countP p = 1) : ∃ z, l.filter p = [z] := by
  have hl : (l.filter p).length = 1 := by
    rw [← List.countP_eq_length_filter]
    exact h
  exact List.length_eq_one.mp hl

/-- With exactly one start flag the start search succeeds and every
start-flagged state is that one state. -/
theorem start_unique (d : DFA)
    (h : d.states.countP (fun s => s.isStart) = 1) :
    ∃ st, startStateOf d = some st ∧
      ∀ s ∈ d.states, s.isStart = true → s = st := by
  obtain ⟨z, hz⟩ := countP_one_unique _ _ h
  refine ⟨z, ?_, ?_⟩
  · unfold startStateOf
    rw [find?_eq_head?_filter, hz]
    rfl
  · intro s hs hps
    have hmem : s ∈ d.states.filter (fun s => s.isStart) :=
      List.mem_filter.mpr ⟨hs, hps⟩
    rw [hz] at hmem
    exact List.mem_singleton.mp hmem

/-- With distinct state ids the state map returns each state at its id. -/
theorem dget_stateMap_mem (d : DFA)
    (hnd : (d.states.map (fun s => s.id)).Nodup)
    (s : State) (hs : s ∈ d.states) :
    dget (buildStateMap d.states) s.id = some s := by
  rw [dget_buildStateMap_nodup d.states s.id hnd]
  apply find?_eq_some_of_unique
  · exact hs
  · exact decide_eq_true rfl
  · intro y hy hpy
    exact List.inj_on_of_nodup_map hnd hy hs (of_decide_eq_true hpy)

/-- The id field of a merged state. -/
theorem mergedStateOf_id (active : List State) (idx : Nat) (p : List String) :
    (mergedStateOf active idx p).id = "P" ++ Nat.repr idx := rfl

/-- The synthetic class ids of the merged states are distinct. -/
theorem mergedStatesOf_ids_nodup (active : List State) :
    ∀ (parts : List (List String)) (idx : Nat),
      ((mergedStatesOf active parts idx).map (fun s => s.id)).Nodup := by
  intro parts
  induction parts with
  | nil =>
    intro idx
    exact List.nodup_nil
  | cons p rest ih =>
    intro idx
    show (("P" ++ Nat.repr idx) ::
      (mergedStatesOf active rest (idx + 1)).map (fun s => s.id)).Nodup
    refine List.nodup_cons.mpr ⟨?_, ih (idx + 1)⟩
    intro hc
    rcases List.mem_map.mp hc with ⟨y, hy, hid⟩
    rcases (mergedStatesOf_mem active rest (idx + 1) y).mp hy with ⟨k, hk, he⟩
    have h2 : "P" ++ Nat.repr (idx + 1 + k) = "P" ++ Nat.repr idx := by
      rw [← hid, he, mergedStateOf_id]
    have := pid_injective _ _ h2
    omega

/-- The merged-state map returns the class state at each class id. -/
theorem dget_mergedStateMap (active : List State) (parts : List (List String))
    (i : Nat) (hi : i < parts.length) :
    dget (buildStateMap (mergedStatesOf active parts 0)) ("P" ++ Nat.repr i) =
      some (mergedStateOf active i (parts.get ⟨i, hi⟩)) := by
  rw [dget_buildStateMap_nodup _ _ (mergedStatesOf_ids_nodup active parts 0)]
  apply find?_eq_some_of_unique
  · apply (mergedStatesOf_mem active parts 0 _).mpr
    refine ⟨i, hi, ?_⟩
    rw [Nat.zero_add]
  · exact decide_eq_true rfl
  · intro y hy hpy
    rcases (mergedStatesOf_mem active parts 0 y).mp hy with ⟨k, hk, he⟩
    have hid : y.id = "P" ++ Nat.repr (0 + k) := by rw [he, mergedStateOf_id]
    have hid2 := of_decide_eq_true hpy
    rw [hid] at hid2
    have hki := pid_injective _ _ hid2
    have hki2 : k = i := by omega
    subst hki2
    rw [he, Nat.zero_add]

/-- Every adjacency successor is a state id of the automaton (under the
well-formedness clause on transition targets). -/
theorem adjGet_target_mem (d : DFA)
    (hw : ∀ t ∈ d.transitions, t.dst ∈ d.states.map (fun s => s.id))
    (q a tgt : String) (h : adjGet (buildAdj d) q a = some tgt) :
    tgt ∈ d.states.map (fun s => s.id) := by
  rw [adjGet_buildAdj] at h
  cases hl : (d.transitions.filter (matchTrans q a)).getLast? with
  | none =>
    rw [hl] at h
    cases h
  | some tr =>
    rw [hl] at h
    have hd : tr.dst = tgt := by injection h
    subst hd
    exact hw tr (List.mem_of_mem_filter (List.mem_of_getLast?_eq_some hl))

/-- A member of a final partition group is the id of an active state. -/
theorem active_of_mem_group (d : DFA) (st : State)
    (i : Nat) (hi : i < ((refineResultOf d st).1).length) (q : String)
    (hq : q ∈ ((refineResultOf d st).1).get ⟨i, hi⟩) :
    ∃ s ∈ activeStatesOf d st, s.id = q := by
  have h1 : q ∈ ((refineResultOf d st).1).flatten :=
    List.mem_flatten.mpr ⟨_, List.get_mem _ _ _, hq⟩
  rw [(refineResult_invariants d st).1.mem_iff] at h1
  exact (mem_initialPartitions_flatten _ q).mp h1

/-- Every active state id lies in some final partition group. -/
theorem group_of_active (d : DFA) (st : State) (s : State)
    (hs : s ∈ activeStatesOf d st) :
    ∃ i, ∃ hi : i < ((refineResultOf d st).1).length,
      s.id ∈ ((refineResultOf d st).1).get ⟨i, hi⟩ := by
  have h1 : s.id ∈ ((refineResultOf d st).1).flatten := by
    rw [(refineResult_invariants d st).1.mem_iff]
    exact (mem_initialPartitions_flatten _ _).mpr ⟨s, hs, rfl⟩
  rcases List.mem_flatten.mp h1 with ⟨g, hg, hmem⟩
  rcases List.mem_iff_get.mp hg with ⟨⟨i, hi⟩, hgi⟩
  refine ⟨i, hi, ?_⟩
  rw [hgi]
  exact hmem

/-- An id in the final set looks up to a final active record. -/
theorem lookup_isFinal_of_mem_finalSet (d : DFA) (st : State)
    (hnd : (d.states.map (fun s => s.id)).Nodup) (x : String)
    (hx : x ∈ finalSetOf (activeStatesOf d st)) :
    (activeLookup (activeStatesOf d st) x).isFinal = true := by
  rcases (mem_foldl_setAdd_iff _ _ [] x).mp hx with h | ⟨s, hs, he, hp⟩
  · cases h
  · have hfa : firstActive (activeStatesOf d st) x = some s := by
      rw [← he]
      exact firstActive_eq _ (activeIds_nodup d st hnd) s hs
    unfold activeLookup
    rw [hfa]
    exact hp

/-- An id in the non-final set looks up to a non-final active record. -/
theorem lookup_isFinal_of_mem_nonFinalSet (d : DFA) (st : State)
    (hnd : (d.states.map (fun s => s.id)).Nodup) (x : String)
    (hx : x ∈ nonFinalSetOf (activeStatesOf d st)) :
    (activeLookup (activeStatesOf d st) x).isFinal = false := by
  rcases (mem_foldl_setAdd_iff _ _ [] x).mp hx with h | ⟨s, hs, he, hp⟩
  · cases h
  · have hfa : firstActive (activeStatesOf d st) x = some s := by
      rw [← he]
      exact firstActive_eq _ (activeIds_nodup d st hnd) s hs
    unfold activeLookup
    rw [hfa]
    simpa using hp

/-- All members of a final partition group agree on finality. -/
theorem group_final_homog (d : DFA) (st : State)
    (hnd : (d.states.map (fun s => s.id)).Nodup)
    (g : List String) (hg : g ∈ (refineResultOf d st).1) :
    ∀ x ∈ g, ∀ y ∈ g,
      (activeLookup (activeStatesOf d st) x).isFinal =
        (activeLookup (activeStatesOf d st) y).isFinal := by
  intro x hx y hy
  rw [refineResultOf_eq] at hg
  obtain ⟨G, hG, hsub⟩ := refineLoop_subset d.alphabet (buildAdj d) _ _ _ 0 g hg
  rcases initialPartitions_cases (activeStatesOf d st) G hG with
    ⟨rfl, _⟩ | ⟨rfl, _⟩
  · rw [lookup_isFinal_of_mem_finalSet d st hnd x (hsub x hx),
      lookup_isFinal_of_mem_finalSet d st hnd y (hsub y hy)]
  · rw [lookup_isFinal_of_mem_nonFinalSet d st hnd x (hsub x hx),
      lookup_isFinal_of_mem_nonFinalSet d st hnd y (hsub y hy)]

/-- A merged state is final exactly when any (hence every) member id of
its group looks up to a final record. -/
theorem merged_isFinal_eq (d : DFA) (st : State)
    (hnd : (d.states.map (fun s => s.id)).Nodup)
    (g : List String) (hg : g ∈ (refineResultOf d st).1)
    (q : String) (hq : q ∈ g) (idx : Nat) :
    (mergedStateOf (activeStatesOf d st) idx g).isFinal =
      (activeLookup (activeStatesOf d st) q).isFinal := by
  cases hval : (activeLookup (activeStatesOf d st) q).isFinal with
  | true =>
    show (g.map (fun sid =>
      (activeLookup (activeStatesOf d st) sid).isFinal)).any (fun b => b) = true
    rw [List.any_eq_true]
    exact ⟨_, List.mem_map.mpr ⟨q, hq, rfl⟩, hval⟩
  | false =>
    show (g.map (fun sid =>
      (activeLookup (activeStatesOf d st) sid).isFinal)).any (fun b => b) = false
    rw [List.any_eq_false]
    intro b hb
    rcases List.mem_map.mp hb with ⟨sid, hsid, rfl⟩
    rw [group_final_homog d st hnd g hg sid hsid q hq, hval]
    simp

/-- One entry of a signature, per symbol. -/
def sigEntry (adj : Dict String (Dict String String))
    (partitions : List (List String)) (state_id symbol : String) : Int :=
  match adjGet adj state_id symbol with
  | none => -1
  | some target => if target = "" then -1 else partitionIdx partitions target

/-- The signature list holds the per-symbol entries. -/
theorem sigOf_entry (alphabet : List String)
    (adj : Dict String (Dict String String)) (P : List (List String))
    (x : String) (k : Nat) (hk : k < alphabet.length) :
    (sigOf alphabet adj P x)[k]? =
      some (sigEntry adj P x (alphabet.get ⟨k, hk⟩)) := by
  unfold sigOf
  rw [List.getElem?_map, List.getElem?_eq_getElem hk]
  simp only [Option.map]
  rw [List.get_eq_getElem]
  unfold sigEntry
  cases adjGet adj x alphabet[k] with
  | none => rfl
  | some t => rfl

/-- Equal signatures have equal entries at every alphabet symbol. -/
theorem sigEntry_eq_of_sig_eq (alphabet : List String)
    (adj : Dict String (Dict String String)) (P : List (List String))
    (x y a : String)
    (h : sigOf alphabet adj P x = sigOf alphabet adj P y)
    (ha : a ∈ alphabet) : sigEntry adj P x a = sigEntry adj P y a := by
  rcases List.mem_iff_get.mp ha with ⟨⟨k, hk⟩, hka⟩
  have hx := sigOf_entry alphabet adj P x k hk
  have hy := sigOf_entry alphabet adj P y k hk
  rw [h, hy] at hx
  have := Option.some.inj hx
  rw [hka] at this
  exact this.symm

/-- A member of an indexed group (groups pairwise disjoint) has that
partition index. -/
theorem partitionIdx_eq_of_mem (P : List (List String))
    (hdisj : List.Pairwise List.Disjoint P) (i : Nat) (hi : i < P.length)
    (t : String) (ht : t ∈ P.get ⟨i, hi⟩) : partitionIdx P t = (i : Int) := by
  unfold partitionIdx
  obtain ⟨j, hj⟩ := findIdx?_isSome_of_mem (fun p => decide (t ∈ p)) P
    (P.get ⟨i, hi⟩) (List.get_mem _ _ _) (decide_eq_true ht)
  rw [hj]
  dsimp only
  obtain ⟨hjlen, hpj⟩ := findIdx?_some_mem _ P j hj
  have := mem_get_unique P hdisj j i hjlen hi t (of_decide_eq_true hpj) ht
  rw [this]

/-- A non-negative partition index locates its target in that group, as the
first containing group. -/
theorem partitionIdx_mem_of_eq (P : List (List String)) (t : String) (i : Nat)
    (h : partitionIdx P t = (i : Int)) :
    ∃ hi : i < P.length, t ∈ P.get ⟨i, hi⟩ ∧
      P.findIdx? (fun p => decide (t ∈ p)) = some i := by
  unfold partitionIdx at h
  cases hf : P.findIdx? (fun p => decide (t ∈ p)) with
  | none =>
    rw [hf] at h
    dsimp only at h
    exfalso
    omega
  | some j =>
    rw [hf] at h
    dsimp only at h
    have hji : j = i := by exact_mod_cast h
    subst hji
    obtain ⟨hj, hpj⟩ := findIdx?_some_mem _ P j hf
    exact ⟨hj, of_decide_eq_true hpj, rfl⟩

/-- The sentinel partition index means the target lies in no group. -/
theorem partitionIdx_neg (P : List (List String)) (t : String)
    (h : partitionIdx P t = -1) : ∀ p ∈ P, t ∉ p := by
  unfold partitionIdx at h
  cases hf : P.findIdx? (fun p => decide (t ∈ p)) with
  | some j =>
    rw [hf] at h
    dsimp only at h
    exfalso
    omega
  | none =>
    intro p hp hc
    have := List.findIdx?_eq_none_iff.mp hf p hp
    simp [hc] at this

/-- One-step correspondence at the refinement fixpoint: the original
automaton is stuck exactly when the quotient is, and a taken transition
lands in the group whose class the quotient reaches. -/
theorem quotient_step (d : DFA) (st : State)
    (hw1 : (d.states.map (fun s => s.id)).Nodup)
    (hw3 : ∀ t ∈ d.transitions, t.dst ∈ d.states.map (fun s => s.id))
    (hw4 : ∀ s ∈ d.states, s.id ≠ "")
    (hst : startStateOf d = some st)
    (q : String) (i : Nat) (hi : i < ((refineResultOf d st).1).length)
    (hq : q ∈ ((refineResultOf d st).1).get ⟨i, hi⟩)
    (a : String) (ha : a ∈ d.alphabet) :
    (adjGet (buildAdj d) q a = none ∧
      repDelta (buildAdj d) (stpFold (refineResultOf d st).1 0 [])
        ((((refineResultOf d st).1).get ⟨i, hi⟩).headD "") a = none) ∨
    (∃ t : String, adjGet (buildAdj d) q a = some t ∧
      ∃ j, ∃ hj : j < ((refineResultOf d st).1).length,
        t ∈ ((refineResultOf d st).1).get ⟨j, hj⟩ ∧
        repDelta (buildAdj d) (stpFold (refineResultOf d st).1 0 [])
          ((((refineResultOf d st).1).get ⟨i, hi⟩).headD "") a =
          some ("P" ++ Nat.repr j)) := by
  have hinv := refineResult_invariants d st
  have hfnd : (((refineResultOf d st).1).flatten).Nodup :=
    hinv.1.nodup_iff.mpr (initialPartitions_flatten_nodup d st hw1)
  have hdisj := flatten_nodup_disjoint _ hfnd
  have hg : ((refineResultOf d st).1).get ⟨i, hi⟩ ∈ (refineResultOf d st).1 :=
    List.get_mem _ _ _
  have hfix := refineResult_fix d st hst
  have hhom := partition_sig_homog d.alphabet (buildAdj d) _ hinv.2.1 hfix.1
  have hrep_mem : (((refineResultOf d st).1).get ⟨i, hi⟩).headD "" ∈
      ((refineResultOf d st).1).get ⟨i, hi⟩ := by
    cases hc : ((refineResultOf d st).1).get ⟨i, hi⟩ with
    | nil => exact absurd hc (hinv.2.2 _ hg)
    | cons z zs => exact List.mem_cons_self _ _
  have hsig := hhom _ hg q hq _ hrep_mem
  have hentry := sigEntry_eq_of_sig_eq d.alphabet (buildAdj d) _ q _ a hsig ha
  cases hadj : adjGet (buildAdj d) q a with
  | none =>
    left
    refine ⟨rfl, ?_⟩
    have hq_entry : sigEntry (buildAdj d) (refineResultOf d st).1 q a = -1 := by
      unfold sigEntry
      rw [hadj]
    rw [hq_entry] at hentry
    unfold repDelta
    cases hadj2 : adjGet (buildAdj d)
        ((((refineResultOf d st).1).get ⟨i, hi⟩).headD "") a with
    | none => rfl
    | some t2 =>
      dsimp only
      have hr_entry : sigEntry (buildAdj d) (refineResultOf d st).1
          ((((refineResultOf d st).1).get ⟨i, hi⟩).headD "") a =
          if t2 = "" then -1 else partitionIdx (refineResultOf d st).1 t2 := by
        unfold sigEntry
        rw [hadj2]
      by_cases ht2 : t2 = ""
      · rw [if_neg (by simpa using ht2)]
      · rw [if_pos (by simpa using ht2)]
        rw [hr_entry, if_neg ht2] at hentry
        have hnot := partitionIdx_neg _ t2 hentry.symm
        rw [stpFold_lookup_notmem _ 0 [] t2 hnot]
        rfl
  | some t =>
    right
    refine ⟨t, rfl, ?_⟩
    have htid := adjGet_target_mem d hw3 q a t hadj
    rcases List.mem_map.mp htid with ⟨s_t, hs_t, hid_t⟩
    rcases active_of_mem_group d st i hi q hq with ⟨s_q, hs_q, hid_q⟩
    have hq_reach : q ∈ reachableOf d st := by
      have := List.of_mem_filter hs_q
      rw [hid_q] at this
      exact of_decide_eq_true this
    have ht_reach : t ∈ reachableOf d st :=
      (reachableOf_spec d st).2.2 q hq_reach a ha t hadj
    have hs_t_active : s_t ∈ activeStatesOf d st := by
      apply List.mem_filter.mpr
      refine ⟨hs_t, ?_⟩
      rw [hid_t]
      exact decide_eq_true ht_reach
    obtain ⟨j, hj, htj⟩ := group_of_active d st s_t hs_t_active
    rw [hid_t] at htj
    refine ⟨j, hj, htj, ?_⟩
    have ht_ne : t ≠ "" := by
      rw [← hid_t]
      exact hw4 s_t hs_t
    have hq_entry : sigEntry (buildAdj d) (refineResultOf d st).1 q a =
        (j : Int) := by
      unfold sigEntry
      rw [hadj]
      dsimp only
      rw [if_neg ht_ne]
      exact partitionIdx_eq_of_mem _ hdisj j hj t htj
    rw [hq_entry] at hentry
    unfold repDelta
    cases hadj2 : adjGet (buildAdj d)
        ((((refineResultOf d st).1).get ⟨i, hi⟩).headD "") a with
    | none =>
      exfalso
      have : sigEntry (buildAdj d) (refineResultOf d st).1
          ((((refineResultOf d st).1).get ⟨i, hi⟩).headD "") a = -1 := by
        unfold sigEntry
        rw [hadj2]
      rw [this] at hentry
      omega
    | some t2 =>
      have hr_entry : sigEntry (buildAdj d) (refineResultOf d st).1
          ((((refineResultOf d st).1).get ⟨i, hi⟩).headD "") a =
          if t2 = "" then -1 else partitionIdx (refineResultOf d st).1 t2 := by
        unfold sigEntry
        rw [hadj2]
      rw [hr_entry] at hentry
      dsimp only
      by_cases ht2 : t2 = ""
      · rw [if_pos ht2] at hentry
        exfalso
        omega
      · rw [if_neg ht2] at hentry
        obtain ⟨hj2, _, hfind⟩ := partitionIdx_mem_of_eq _ t2 j hentry.symm
        rw [if_pos (by simpa using ht2)]
        rw [stpFold_lookup_mem _ 0 [] t2 j hfind hdisj]
        rw [Nat.zero_add]

/-- Runs of the original automaton from a group member and of the quotient
automaton from that group class accept identically. -/
theorem simLoop_bisim (d : DFA) (st : State)
    (hw1 : (d.states.map (fun s => s.id)).Nodup)
    (hw3 : ∀ t ∈ d.transitions, t.dst ∈ d.states.map (fun s => s.id))
    (hw4 : ∀ s ∈ d.states, s.id ≠ "")
    (hst : startStateOf d = some st)
    (mt : List Transition)
    (hlook : ∀ (i : Nat) (hi : i < ((refineResultOf d st).1).length),
      ∀ a ∈ d.alphabet,
      dget (buildTransitions mt) ("P" ++ Nat.repr i, a) =
        repDelta (buildAdj d) (stpFold (refineResultOf d st).1 0 [])
          ((((refineResultOf d st).1).get ⟨i, hi⟩).headD "") a) :
    ∀ (w : List String), (∀ a ∈ w, a ∈ d.alphabet) →
    ∀ (q : String) (i : Nat) (hi : i < ((refineResultOf d st).1).length),
      q ∈ ((refineResultOf d st).1).get ⟨i, hi⟩ →
    ∀ (path path2 : List String) (idx idx2 : Nat),
      simAccepted (simLoop (buildTransitions d.transitions)
        (buildStateMap d.states) w q path idx) =
      simAccepted (simLoop (buildTransitions mt)
        (buildStateMap (mergedStatesOf (activeStatesOf d st)
          (refineResultOf d st).1 0)) w ("P" ++ Nat.repr i) path2 idx2) := by
  intro w
  induction w with
  | nil =>
    intro hα q i hi hq path path2 idx idx2
    rcases active_of_mem_group d st i hi q hq with ⟨s_q, hs_q, hid_q⟩
    have hsq_states : s_q ∈ d.states := List.mem_of_mem_filter hs_q
    have hmap1 : dget (buildStateMap d.states) q = some s_q := by
      rw [← hid_q]
      exact dget_stateMap_mem d hw1 s_q hsq_states
    have hmap2 := dget_mergedStateMap (activeStatesOf d st)
      (refineResultOf d st).1 i hi
    unfold simLoop
    rw [hmap1, hmap2]
    dsimp only
    simp only [simAccepted]
    congr 1
    rw [merged_isFinal_eq d st hw1 _ (List.get_mem _ _ _) q hq i]
    have hfa : firstActive (activeStatesOf d st) q = some s_q := by
      rw [← hid_q]
      exact firstActive_eq _ (activeIds_nodup d st hw1) s_q hs_q
    unfold activeLookup
    rw [hfa]
    rfl
  | cons a w ih =>
    intro hα q i hi hq path path2 idx idx2
    have ha : a ∈ d.alphabet := hα a (List.mem_cons_self _ _)
    have hα2 : ∀ b ∈ w, b ∈ d.alphabet :=
      fun b hb => hα b (List.mem_cons_of_mem a hb)
    have heq : dget (buildTransitions d.transitions) (q, a) =
        adjGet (buildAdj d) q a := by
      rw [dget_buildTransitions, adjGet_buildAdj]
    rcases quotient_step d st hw1 hw3 hw4 hst q i hi hq a ha with
      ⟨hnone, hrd⟩ | ⟨t, hsome, j, hj, htj, hrd⟩
    · unfold simLoop
      rw [heq, hnone, hlook i hi a ha, hrd]
      rfl
    · unfold simLoop
      rw [heq, hsome, hlook i hi a ha, hrd]
      dsimp only
      exact ih hα2 t j hj htj (path ++ [t]) (path2 ++ ["P" ++ Nat.repr j])
        (idx + 1) (idx2 + 1)

/-- C1 (amended): for a well-formed automaton — distinct non-empty state
ids, exactly one start state, transition targets among the state ids — and
any input over the alphabet, minimization succeeds and the minimized
automaton accepts exactly when the original does. -/
theorem c1_amended (d : DFA) (w : List String) (hw : WellFormed d)
    (hα : ∀ a ∈ w, a ∈ d.alphabet) :
    ∃ steps m, minimize_dfa d = MinimizeOut.ok steps m ∧
      simAccepted (simulate_string d w) = simAccepted (simulate_string m w) := by
  obtain ⟨hw1, hw2, hw3, hw4⟩ := hw
  obtain ⟨st, hst, huniq⟩ := start_unique d hw2
  have hstS : st.isStart = true := by
    unfold startStateOf at hst
    exact List.find?_some hst
  have hinv := refineResult_invariants d st
  have hfnd : (((refineResultOf d st).1).flatten).Nodup :=
    hinv.1.nodup_iff.mpr (initialPartitions_flatten_nodup d st hw1)
  have hdisj := flatten_nodup_disjoint _ hfnd
  have hPne : ∀ p ∈ (refineResultOf d st).1, p ≠ [] := hinv.2.2
  have hPsome : ∀ p ∈ (refineResultOf d st).1, ∀ x ∈ p,
      (firstActive (activeStatesOf d st) x).isSome := by
    intro p hp x hx
    have h1 : x ∈ ((refineResultOf d st).1).flatten :=
      List.mem_flatten.mpr ⟨p, hp, hx⟩
    rw [hinv.1.mem_iff] at h1
    rcases (mem_initialPartitions_flatten _ x).mp h1 with ⟨s, hs, hid⟩
    have hfa := firstActive_eq _ (activeIds_nodup d st hw1) s hs
    rw [hid] at hfa
    rw [hfa]
    rfl
  have hQS := quotientStatesGo_eq (activeStatesOf d st) (refineResultOf d st).1
    0 [] [] hPne hPsome
  rw [List.nil_append] at hQS
  obtain ⟨final, hgo, _, _, _⟩ := qtGo_spec (buildAdj d) d.alphabet
    (stpFold (refineResultOf d st).1 0 []) (refineResultOf d st).1 0 [] []
    hPne rfl
  have hmin : minimize_dfa d = MinimizeOut.ok (refineResultOf d st).2
      { states := mergedStatesOf (activeStatesOf d st) (refineResultOf d st).1 0,
        transitions := final, alphabet := d.alphabet } := by
    unfold minimize_dfa
    rw [hst]
    dsimp only
    rw [hQS]
    dsimp only
    rw [hgo]
  have hstActive : st ∈ activeStatesOf d st := start_mem_active d st hst
  obtain ⟨i0, hi0, hmem0⟩ := group_of_active d st st hstActive
  have hlookupst : activeLookup (activeStatesOf d st) st.id = st := by
    unfold activeLookup
    rw [firstActive_eq _ (activeIds_nodup d st hw1) st hstActive]
    rfl
  have hfind : (mergedStatesOf (activeStatesOf d st)
      (refineResultOf d st).1 0).find? (fun s => s.isStart) =
      some (mergedStateOf (activeStatesOf d st) i0
        (((refineResultOf d st).1).get ⟨i0, hi0⟩)) := by
    apply find?_eq_some_of_unique
    · apply (mergedStatesOf_mem _ _ 0 _).mpr
      refine ⟨i0, hi0, ?_⟩
      rw [Nat.zero_add]
    · show ((((refineResultOf d st).1).get ⟨i0, hi0⟩).map (fun sid =>
        (activeLookup (activeStatesOf d st) sid).isStart)).any (fun b => b) = true
      rw [List.any_eq_true]
      refine ⟨_, List.mem_map.mpr ⟨st.id, hmem0, rfl⟩, ?_⟩
      rw [hlookupst]
      exact hstS
    · intro y hy hpy
      rcases (mergedStatesOf_mem _ _ 0 y).mp hy with ⟨k, hk, he⟩
      have hys : y.isStart = true := hpy
      rw [he] at hys
      have hany := List.any_eq_true.mp hys
      rcases hany with ⟨b, hbmem, hb⟩
      rcases List.mem_map.mp hbmem with ⟨sid, hsid, rfl⟩
      have h1 : sid ∈ ((refineResultOf d st).1).flatten :=
        List.mem_flatten.mpr ⟨_, List.get_mem _ _ _, hsid⟩
      rw [hinv.1.mem_iff] at h1
      rcases (mem_initialPartitions_flatten _ sid).mp h1 with ⟨s2, hs2, hid2⟩
      have hfa2 : firstActive (activeStatesOf d st) sid = some s2 := by
        rw [← hid2]
        exact firstActive_eq _ (activeIds_nodup d st hw1) s2 hs2
      have hlk2 : activeLookup (activeStatesOf d st) sid = s2 := by
        unfold activeLookup
        rw [hfa2]
        rfl
      rw [hlk2] at hb
      have hs2states : s2 ∈ d.states := List.mem_of_mem_filter hs2
      have hs2st : s2 = st := huniq s2 hs2states hb
      have hsid_eq : sid = st.id := by rw [← hid2, hs2st]
      rw [hsid_eq] at hsid
      have hk_eq : k = i0 := mem_get_unique _ hdisj k i0 hk hi0 st.id hsid hmem0
      subst hk_eq
      rw [he, Nat.zero_add]
  have hsim1 : simulate_string d w = simLoop (buildTransitions d.transitions)
      (buildStateMap d.states) w st.id [st.id] 0 := by
    unfold simulate_string
    rw [hst]
  have hstart2 : startStateOf
      { states := mergedStatesOf (activeStatesOf d st) (refineResultOf d st).1 0,
        transitions := final, alphabet := d.alphabet } =
      some (mergedStateOf (activeStatesOf d st) i0
        (((refineResultOf d st).1).get ⟨i0, hi0⟩)) := by
    unfold startStateOf
    exact hfind
  have hsim2 : simulate_string
      { states := mergedStatesOf (activeStatesOf d st) (refineResultOf d st).1 0,
        transitions := final, alphabet := d.alphabet } w =
      simLoop (buildTransitions final)
        (buildStateMap (mergedStatesOf (activeStatesOf d st)
          (refineResultOf d st).1 0)) w ("P" ++ Nat.repr i0)
        ["P" ++ Nat.repr i0] 0 := by
    unfold simulate_string
    rw [hstart2]
    rfl
  have hlook : ∀ (i : Nat) (hi : i < ((refineResultOf d st).1).length),
      ∀ a ∈ d.alphabet,
      dget (buildTransitions final) ("P" ++ Nat.repr i, a) =
        repDelta (buildAdj d) (stpFold (refineResultOf d st).1 0 [])
          ((((refineResultOf d st).1).get ⟨i, hi⟩).headD "") a := by
    intro i hi a ha
    exact minimized_lookup (buildAdj d) d.alphabet _ _ final hPne hgo i hi a ha
  have hbisim := simLoop_bisim d st hw1 hw3 hw4 hst final hlook w hα st.id i0
    hi0 hmem0 [st.id] ["P" ++ Nat.repr i0] 0 0
  refine ⟨(refineResultOf d st).2, _, hmin, ?_⟩
  rw [hsim1, hsim2]
  exact hbisim

/-- Closed witness for the amended C1 theorem: a concrete well-formed
automaton and input on which the theorem applies. -/
theorem c1_witness :
    WellFormed dfaBinEven ∧ (∀ a ∈ ["1", "0"], a ∈ dfaBinEven.alphabet) ∧
    ∃ steps m, minimize_dfa dfaBinEven = MinimizeOut.ok steps m ∧
      simAccepted (simulate_string dfaBinEven ["1", "0"]) =
        simAccepted (simulate_string m ["1", "0"]) :=
  ⟨by unfold WellFormed; decide, by decide,
    c1_amended dfaBinEven ["1", "0"] (by unfold WellFormed; decide) (by decide)⟩

end AMVP
